import Mathlib

/-!
# WorldGeometry: wrap arithmetic and rectangle splitting

A shallow embedding of `source/base/StarWorldGeometry.hpp` and
`source/base/StarWorldGeometry.cpp`.

Conventions of the embedding.

* The C++ `int` and `unsigned` values are the mathematical integers and
  naturals they denote: the development describes the executions in which no
  signed arithmetic overflows (signed overflow has no defined behaviour in
  C++) and in which a world size converts to `int` without change.
* An operation whose C++ evaluation reaches an integer modulo by zero, or
  indexes a result list outside its bounds, yields `none`; every other
  evaluation yields `some` result.
* `starAssert` is compiled out of release builds; the embedding follows the
  release build.
* Overloads on `int` keep the source name; the `Vec2I` overloads of `xwrap`
  and `ywrap` are `xwrapVec` and `ywrapVec`.
* The `float` overloads are embedded in exact arithmetic, over the rationals,
  and carry the suffix `F` where the source name is taken by the `int`
  overload (`xwrapF`, `splitRectF`, ...).
* The line intersection of the geometry primitives is passed to the line and
  polygon splitting functions as the parameter `isect`, the null test of the
  rectangle primitives as the parameter `isNull`.
-/

namespace Star

/-! ## Helpers that live outside the two embedded files -/

/-- Modelled from the spec: `pmod<int>` of StarMathCommon.hpp, which is not
among the sources. The spec describes it as a floor-style modulo that reduces
its argument into `[0, m)` and is never negative for a positive modulus. A
zero modulus is an integer division by zero, for which C++ defines no result:
the model yields `none` there. -/
def pmod (a m : Int) : Option Int :=
  if m = 0 then none else some (Int.fmod a m)

/-- Modelled from the spec: `wrapDiff<int>` of StarMathCommon.hpp, which is not
among the sources. The spec describes it as a single wrapped modulo into the
range centred on zero (not a search over three candidates), the tie at exactly
half the size going to the positive side: the difference is reduced with the
positive modulo and moved down by one `size` when it exceeds half the size, so
that a difference of exactly half the size has the positive sign whichever
operand comes first. -/
def wrapDiff (a b size : Int) : Option Int :=
  match pmod (a - b) size with
  | some d => if d > size / 2 then some (d - size) else some d
  | none => none

/-- Modelled from the spec: `clamp<int>` of StarMathCommon.hpp, which is not
among the sources. The spec describes it as clamping a value into the closed
range `[lo, hi]`. -/
def clamp (v lo hi : Int) : Int :=
  min (max v lo) hi

/-- Modelled from the spec: the unsigned 2-vector `Vec2U` of the vector
primitives, which are not among the sources. -/
structure Vec2U where
  x : Nat
  y : Nat
  deriving DecidableEq, Repr

/-- Modelled from the spec: the signed 2-vector `Vec2I` of the vector
primitives, which are not among the sources. -/
structure Vec2I where
  x : Int
  y : Int
  deriving DecidableEq, Repr

/-- Modelled from the spec: the integer rectangle `RectI` of the rectangle
primitives, which are not among the sources: a box given by its minimum and
maximum corner. Which boxes count as null is left to the parameter `isNull`
of the splitting functions. -/
structure RectI where
  xMin : Int
  yMin : Int
  xMax : Int
  yMax : Int
  deriving DecidableEq, Repr

/-- The corner `min()` of a rectangle. -/
def RectI.min (r : RectI) : Vec2I := ⟨r.xMin, r.yMin⟩

/-- The extent `size()` of a rectangle, `max - min`. -/
def RectI.size (r : RectI) : Vec2I := ⟨r.xMax - r.xMin, r.yMax - r.yMin⟩

/-- The constructor `RectI(min, max)`. -/
def RectI.ofCorners (lo hi : Vec2I) : RectI := ⟨lo.x, lo.y, hi.x, hi.y⟩

/-- Componentwise sum of two vectors. -/
def Vec2I.add (a b : Vec2I) : Vec2I := ⟨a.x + b.x, a.y + b.y⟩

/-! ## The geometry -/

/-- The class `WorldGeometry`: the world size and the two wrap flags. -/
structure WorldGeometry where
  m_size : Vec2U
  m_xWrap : Bool
  m_yWrap : Bool
  deriving DecidableEq, Repr

namespace WorldGeometry

/-- The default constructor `WorldGeometry()`. -/
def null : WorldGeometry := ⟨⟨0, 0⟩, false, false⟩

/-- The constructor `WorldGeometry(width, height)`. -/
def ofWidthHeight (width height : Nat) : WorldGeometry :=
  ⟨⟨width, height⟩, decide (width ≠ 0), false⟩

/-- The constructor `WorldGeometry(size, xWrap, yWrap)`. -/
def ofSizeWrap (size : Vec2U) (xWrap yWrap : Bool) : WorldGeometry :=
  ⟨size, xWrap, yWrap⟩

/-- The accessor `width()`. -/
def width (g : WorldGeometry) : Nat := g.m_size.x

/-- The accessor `height()`. -/
def height (g : WorldGeometry) : Nat := g.m_size.y

/-- The function `xlimit(int)`. -/
def xlimit (g : WorldGeometry) (x : Int) : Option Int :=
  if g.m_size.x = 0 then some x
  else if !g.m_xWrap then some (clamp x 0 g.m_size.x)
  else pmod x g.m_size.x

/-- The function `ylimit(int)`. -/
def ylimit (g : WorldGeometry) (y : Int) : Option Int :=
  if g.m_size.y = 0 then some y
  else if !g.m_yWrap then some (clamp y 0 g.m_size.y)
  else pmod y g.m_size.y

/-- The function `xwrap(int)`. -/
def xwrap (g : WorldGeometry) (x : Int) : Option Int :=
  if !g.m_xWrap then some x
  else pmod x g.m_size.x

/-- The function `ywrap(int)`. -/
def ywrap (g : WorldGeometry) (y : Int) : Option Int :=
  if !g.m_yWrap then some y
  else pmod y g.m_size.y

/-- The function `xwrap(Vec2I const&)`. -/
def xwrapVec (g : WorldGeometry) (pos : Vec2I) : Option Vec2I :=
  (g.xwrap pos.x).map fun x => ⟨x, pos.y⟩

/-- The function `ywrap(Vec2I const&)`. -/
def ywrapVec (g : WorldGeometry) (pos : Vec2I) : Option Vec2I :=
  (g.ywrap pos.y).map fun y => ⟨pos.x, y⟩

/-- The function `wrap(Vec2I const&)`. -/
def wrap (g : WorldGeometry) (pos : Vec2I) : Option Vec2I :=
  (g.xwrap pos.x).bind fun x => (g.ywrap pos.y).map fun y => ⟨x, y⟩

/-- The function `xpdiff(int, int)`. -/
def xpdiff (g : WorldGeometry) (x1 x2 : Int) : Option Int :=
  if !g.m_xWrap then some (x1 - x2)
  else pmod (x1 - x2) g.m_size.x

/-- The function `xdiff(int, int)`. -/
def xdiff (g : WorldGeometry) (x1 x2 : Int) : Option Int :=
  if !g.m_xWrap then some (x1 - x2)
  else wrapDiff x1 x2 g.m_size.x

/-- The function `ypdiff(int, int)`. -/
def ypdiff (g : WorldGeometry) (y1 y2 : Int) : Option Int :=
  if !g.m_yWrap then some (y1 - y2)
  else pmod (y1 - y2) g.m_size.y

/-- The function `ydiff(int, int)`. -/
def ydiff (g : WorldGeometry) (y1 y2 : Int) : Option Int :=
  if !g.m_yWrap then some (y1 - y2)
  else wrapDiff y1 y2 g.m_size.y

/-- The function `nearestToX(int, int)`. The bound `(int)(m_size[0] / 2)` is
the unsigned half of the width. -/
def nearestToX (g : WorldGeometry) (source target : Int) : Option Int :=
  if !g.m_xWrap || decide (|target - source| < ((g.m_size.x / 2 : Nat) : Int)) then some target
  else (g.xdiff target source).map fun d => d + source

/-- The function `nearestToY(int, int)`. -/
def nearestToY (g : WorldGeometry) (source target : Int) : Option Int :=
  if !g.m_yWrap || decide (|target - source| < ((g.m_size.y / 2 : Nat) : Int)) then some target
  else (g.ydiff target source).map fun d => d + source

/-- The function `splitRectX(RectI)`. The result list has one or two
elements. -/
def splitRectX (isNull : RectI → Bool) (g : WorldGeometry) (bbox : RectI) :
    Option (List RectI) :=
  if isNull bbox || !g.m_xWrap then some [bbox]
  else (g.xwrapVec bbox.min).map fun minWrap =>
    let bboxWrap := RectI.ofCorners minWrap (minWrap.add bbox.size)
    if bboxWrap.xMax > (g.m_size.x : Int) then
      [⟨bboxWrap.xMin, bboxWrap.yMin, g.m_size.x, bboxWrap.yMax⟩,
       ⟨0, bboxWrap.yMin, bboxWrap.xMax - g.m_size.x, bboxWrap.yMax⟩]
    else [bboxWrap]

/-- The function `splitRectY(RectI)`. -/
def splitRectY (isNull : RectI → Bool) (g : WorldGeometry) (bbox : RectI) :
    Option (List RectI) :=
  if isNull bbox || !g.m_yWrap then some [bbox]
  else (g.ywrapVec bbox.min).map fun minWrap =>
    let bboxWrap := RectI.ofCorners minWrap (minWrap.add bbox.size)
    if bboxWrap.yMax > (g.m_size.y : Int) then
      [⟨bboxWrap.xMin, bboxWrap.yMin, bboxWrap.xMax, g.m_size.y⟩,
       ⟨bboxWrap.xMin, 0, bboxWrap.xMax, bboxWrap.yMax - g.m_size.y⟩]
    else [bboxWrap]

/-- The function `splitRect(RectI)`: split on x, then split each x fragment
on y, appending the pieces to `out` in the order of the source. -/
def splitRect (isNull : RectI → Bool) (g : WorldGeometry) (bbox : RectI) :
    Option (List RectI) :=
  if isNull bbox || (!g.m_yWrap && !g.m_xWrap) then some [bbox]
  else
    (splitRectX isNull g bbox).bind fun splitX =>
    splitX[0]?.bind fun sx0 =>
    (splitRectY isNull g sx0).bind fun splitY1 =>
    splitY1[0]?.bind fun sy10 =>
    (if splitY1.length > 1 then splitY1[1]?.map fun r => [sy10] ++ [r]
      else some [sy10]).bind fun out =>
    if splitX.length > 1 then
      splitX[1]?.bind fun sx1 =>
      (splitRectY isNull g sx1).bind fun splitY2 =>
      splitY2[0]?.bind fun sy20 =>
      if splitY2.length > 1 then splitY2[1]?.map fun r => (out ++ [sy20]) ++ [r]
      else some (out ++ [sy20])
    else some out

/-- The function `splitXRegion(Vec2I const&)`: the region is the pair
`(xRegion[0], xRegion[1])`. -/
def splitXRegion (g : WorldGeometry) (xRegion : Vec2I) : Option (List Vec2I) :=
  if !g.m_xWrap then some [xRegion]
  else (g.xwrap xRegion.x).map fun x1 =>
    let x2 := x1 + xRegion.y - xRegion.x
    if x2 > (g.m_size.x : Int) then [⟨x1, g.m_size.x⟩, ⟨0, x2 - g.m_size.x⟩]
    else [⟨x1, x2⟩]

end WorldGeometry

/-- The area of an integer rectangle, width times height. -/
def RectI.area (r : RectI) : Int := (r.xMax - r.xMin) * (r.yMax - r.yMin)

/-! ## The float overloads, in exact arithmetic -/

/-- Modelled from the spec: `pfmod<float>` of StarMathCommon.hpp, which is not
among the sources, in exact arithmetic. The spec describes it as the floating
equivalent of the floor-style modulo, with a result in `[0, m)`; for a zero
size the wrap arithmetic is the identity. -/
def pfmod (a m : ℚ) : ℚ :=
  if m = 0 then a else a - m * (⌊a / m⌋ : ℚ)

/-- Modelled from the spec: the float 2-vector `Vec2F` of the vector
primitives, which are not among the sources, with exact coordinates. -/
structure Vec2F where
  x : ℚ
  y : ℚ
  deriving DecidableEq

/-- Componentwise sum of two vectors. -/
def Vec2F.add (a b : Vec2F) : Vec2F := ⟨a.x + b.x, a.y + b.y⟩

/-- Componentwise difference of two vectors. -/
def Vec2F.sub (a b : Vec2F) : Vec2F := ⟨a.x - b.x, a.y - b.y⟩

/-- Modelled from the spec: the float rectangle `RectF` of the rectangle
primitives, which are not among the sources: a box given by its minimum and
maximum corner. -/
structure RectF where
  xMin : ℚ
  yMin : ℚ
  xMax : ℚ
  yMax : ℚ
  deriving DecidableEq

/-- The corner `min()` of a rectangle. -/
def RectF.min (r : RectF) : Vec2F := ⟨r.xMin, r.yMin⟩

/-- The extent `size()` of a rectangle, `max - min`. -/
def RectF.size (r : RectF) : Vec2F := ⟨r.xMax - r.xMin, r.yMax - r.yMin⟩

/-- The constructor `RectF(min, max)`. -/
def RectF.ofCorners (lo hi : Vec2F) : RectF := ⟨lo.x, lo.y, hi.x, hi.y⟩

/-- Modelled from the spec: the point containment test of the rectangle
primitive, the closed-box test: every coordinate lies between the minimum and
the maximum corner, edges included. -/
def RectF.contains (r : RectF) (p : Vec2F) : Bool :=
  decide (r.xMin ≤ p.x) && decide (p.x ≤ r.xMax) &&
    decide (r.yMin ≤ p.y) && decide (p.y ≤ r.yMax)

/-- Modelled from the spec: the line segment `Line2F` of the line primitives,
which are not among the sources. The accessors `min()` and `max()` are the
start point and the end point of the segment. -/
structure Line2F where
  min : Vec2F
  max : Vec2F
  deriving DecidableEq

/-- The vector `diff()` from the start of a segment to its end. -/
def Line2F.diff (l : Line2F) : Vec2F := l.max.sub l.min

/-- The segment with start and end exchanged, `reverse()`. -/
def Line2F.reverse (l : Line2F) : Line2F := ⟨l.max, l.min⟩

/-- Modelled from the spec: `makePositive()` of the line primitive, which is
not among the sources: it canonicalizes the segment to point in the positive
direction and reports whether it exchanged the end points. The coordinates
are compared in order, x first and y when the x coordinates are equal. -/
def Line2F.makePositive (l : Line2F) : Line2F × Bool :=
  if l.min.x < l.max.x then (l, false)
  else if l.min.x > l.max.x then (l.reverse, true)
  else if l.min.y < l.max.y then (l, false)
  else if l.min.y > l.max.y then (l.reverse, true)
  else (l, false)

/-- Modelled from the spec: the convex polygon `PolyF` of the polygon
primitives, which are not among the sources: the sequence of its vertices. -/
structure PolyF where
  vertexes : List Vec2F
  deriving DecidableEq

/-- A polygon is null when it has no vertex. -/
def PolyF.isNull (p : PolyF) : Bool := p.vertexes.isEmpty

/-- The number of sides of a polygon, one for each vertex. -/
def PolyF.sides (p : PolyF) : Nat := p.vertexes.length

/-- The side `side(i)` of a polygon: from vertex `i` to the next vertex, the
last side returning to the first vertex. -/
def PolyF.side (p : PolyF) (i : Nat) : Line2F :=
  ⟨p.vertexes.getD i ⟨0, 0⟩, p.vertexes.getD ((i + 1) % p.vertexes.length) ⟨0, 0⟩⟩

/-- The operation `add(v)`: append a vertex. -/
def PolyF.add (p : PolyF) (v : Vec2F) : PolyF := ⟨p.vertexes ++ [v]⟩

/-- The two accumulator polygons `res` of the polygon walk and the selector
`polySelect` of the active one. -/
structure PolySplit where
  res0 : PolyF
  res1 : PolyF
  polySelect : Bool

/-- The statement `res[polySelect].add(v)`. -/
def PolySplit.add (st : PolySplit) (v : Vec2F) : PolySplit :=
  if st.polySelect then { st with res1 := st.res1.add v } else { st with res0 := st.res0.add v }

/-- The statement `polySelect = !polySelect`. -/
def PolySplit.toggle (st : PolySplit) : PolySplit := { st with polySelect := !st.polySelect }

namespace WorldGeometry

/-- The function `xwrap(float)`. -/
def xwrapF (g : WorldGeometry) (x : ℚ) : ℚ :=
  if !g.m_xWrap then x else pfmod x g.m_size.x

/-- The function `ywrap(float)`. -/
def ywrapF (g : WorldGeometry) (y : ℚ) : ℚ :=
  if !g.m_yWrap then y else pfmod y g.m_size.y

/-- The function `xwrap(Vec2F const&)`. -/
def xwrapVecF (g : WorldGeometry) (pos : Vec2F) : Vec2F := ⟨g.xwrapF pos.x, pos.y⟩

/-- The function `ywrap(Vec2F const&)`. -/
def ywrapVecF (g : WorldGeometry) (pos : Vec2F) : Vec2F := ⟨pos.x, g.ywrapF pos.y⟩

/-- The function `wrap(Vec2F const&)`. -/
def wrapF (g : WorldGeometry) (pos : Vec2F) : Vec2F := ⟨g.xwrapF pos.x, g.ywrapF pos.y⟩

/-- The function `splitRectX(RectF const&)`. -/
def splitRectXF (isNull : RectF → Bool) (g : WorldGeometry) (bbox : RectF) : List RectF :=
  if isNull bbox || !g.m_xWrap then [bbox]
  else
    let minWrap := g.xwrapVecF bbox.min
    let bboxWrap := RectF.ofCorners minWrap (minWrap.add bbox.size)
    if bboxWrap.xMax > (g.m_size.x : ℚ) then
      [⟨bboxWrap.xMin, bboxWrap.yMin, g.m_size.x, bboxWrap.yMax⟩,
       ⟨0, bboxWrap.yMin, bboxWrap.xMax - g.m_size.x, bboxWrap.yMax⟩]
    else [bboxWrap]

/-- The function `splitRectY(RectF const&)`. -/
def splitRectYF (isNull : RectF → Bool) (g : WorldGeometry) (bbox : RectF) : List RectF :=
  if isNull bbox || !g.m_yWrap then [bbox]
  else
    let minWrap := g.ywrapVecF bbox.min
    let bboxWrap := RectF.ofCorners minWrap (minWrap.add bbox.size)
    if bboxWrap.yMax > (g.m_size.y : ℚ) then
      [⟨bboxWrap.xMin, bboxWrap.yMin, bboxWrap.xMax, g.m_size.y⟩,
       ⟨bboxWrap.xMin, 0, bboxWrap.xMax, bboxWrap.yMax - g.m_size.y⟩]
    else [bboxWrap]

/-- The function `splitRect(RectF const&)`. -/
def splitRectF (isNull : RectF → Bool) (g : WorldGeometry) (bbox : RectF) :
    Option (List RectF) :=
  if isNull bbox || (!g.m_yWrap && !g.m_xWrap) then some [bbox]
  else
    let splitX := g.splitRectXF isNull bbox
    splitX[0]?.bind fun sx0 =>
    let splitY1 := g.splitRectYF isNull sx0
    splitY1[0]?.bind fun sy10 =>
    (if splitY1.length > 1 then splitY1[1]?.map fun r => [sy10] ++ [r]
      else some [sy10]).bind fun out =>
    if splitX.length > 1 then
      splitX[1]?.bind fun sx1 =>
      let splitY2 := g.splitRectYF isNull sx1
      splitY2[0]?.bind fun sy20 =>
      if splitY2.length > 1 then splitY2[1]?.map fun r => (out ++ [sy20]) ++ [r]
      else some (out ++ [sy20])
    else some out

/-- The function `rectContains`: the loop returns true at the first fragment
that contains the wrapped point. -/
def rectContains (isNull : RectF → Bool) (g : WorldGeometry) (rect : RectF) (pos : Vec2F) :
    Option Bool :=
  let wpos := g.wrapF pos
  (g.splitRectF isNull rect).map fun frags => frags.any fun r => r.contains wpos

/-- The function `rectIntersectsRect`, over the flat intersection test
`intersects` of the rectangle primitive. -/
def rectIntersectsRect (isNull : RectF → Bool) (intersects : RectF → RectF → Bool)
    (g : WorldGeometry) (rect1 rect2 : RectF) : Option Bool :=
  (g.splitRectF isNull rect1).bind fun frags1 =>
  (g.splitRectF isNull rect2).map fun frags2 =>
    frags1.any fun r1 => frags2.any fun r2 => intersects r1 r2

/-- The function `splitLineX`. The call `line.makePositive()` is evaluated
whatever `preserveDirection` is. -/
def splitLineX (isect : Line2F → Line2F → Vec2F) (g : WorldGeometry) (line : Line2F)
    (preserveDirection : Bool) : List Line2F :=
  if !g.m_xWrap then [line]
  else
    let positive := line.makePositive
    let line := positive.1
    let swapDirection := positive.2 && preserveDirection
    let minWrap := g.xwrapVecF line.min
    let lineWrap : Line2F := ⟨minWrap, minWrap.add line.diff⟩
    if lineWrap.max.x > (g.m_size.x : ℚ) then
      let intersection := isect lineWrap ⟨⟨g.m_size.x, 0⟩, ⟨g.m_size.x, g.m_size.y⟩⟩
      if swapDirection then
        [⟨lineWrap.max.sub ⟨g.m_size.x, 0⟩, ⟨0, intersection.y⟩⟩,
         ⟨⟨g.m_size.x, intersection.y⟩, lineWrap.min⟩]
      else
        [⟨lineWrap.min, ⟨g.m_size.x, intersection.y⟩⟩,
         ⟨⟨0, intersection.y⟩, lineWrap.max.sub ⟨g.m_size.x, 0⟩⟩]
    else [if swapDirection then lineWrap.reverse else lineWrap]

/-- The function `splitLineY`. -/
def splitLineY (isect : Line2F → Line2F → Vec2F) (g : WorldGeometry) (line : Line2F)
    (preserveDirection : Bool) : List Line2F :=
  if !g.m_yWrap then [line]
  else
    let positive := line.makePositive
    let line := positive.1
    let swapDirection := positive.2 && preserveDirection
    let minWrap := g.ywrapVecF line.min
    let lineWrap : Line2F := ⟨minWrap, minWrap.add line.diff⟩
    if lineWrap.max.y > (g.m_size.y : ℚ) then
      let intersection := isect lineWrap ⟨⟨0, g.m_size.y⟩, ⟨g.m_size.x, g.m_size.y⟩⟩
      if swapDirection then
        [⟨lineWrap.max.sub ⟨0, g.m_size.y⟩, ⟨intersection.x, 0⟩⟩,
         ⟨⟨intersection.x, g.m_size.y⟩, lineWrap.min⟩]
      else
        [⟨lineWrap.min, ⟨intersection.x, g.m_size.y⟩⟩,
         ⟨⟨intersection.x, 0⟩, lineWrap.max.sub ⟨0, g.m_size.y⟩⟩]
    else [if swapDirection then lineWrap.reverse else lineWrap]

/-- The function `splitLine(Line2F, bool)`. -/
def splitLine (isect : Line2F → Line2F → Vec2F) (g : WorldGeometry) (line : Line2F)
    (preserveDirection : Bool) : Option (List Line2F) :=
  if !g.m_yWrap && !g.m_xWrap then some [line]
  else
    let splitX := g.splitLineX isect line preserveDirection
    splitX[0]?.bind fun sx0 =>
    let splitY1 := g.splitLineY isect sx0 preserveDirection
    splitY1[0]?.bind fun sy10 =>
    (if splitY1.length > 1 then splitY1[1]?.map fun r => [sy10] ++ [r]
      else some [sy10]).bind fun out =>
    if splitX.length > 1 then
      splitX[1]?.bind fun sx1 =>
      let splitY2 := g.splitLineY isect sx1 preserveDirection
      splitY2[0]?.bind fun sy20 =>
      if splitY2.length > 1 then splitY2[1]?.map fun r => (out ++ [sy20]) ++ [r]
      else some (out ++ [sy20])
    else some out

/-- The body of the loop of `splitPolyX` for one side `segment`. -/
def splitPolyXStep (isect : Line2F → Line2F → Vec2F) (g : WorldGeometry) (st : PolySplit)
    (segment : Line2F) : PolySplit :=
  let worldBoundRight : Line2F := ⟨⟨g.m_size.x, 0⟩, ⟨g.m_size.x, 1⟩⟩
  let worldBoundLeft : Line2F := ⟨⟨0, 0⟩, ⟨0, 1⟩⟩
  if xor (decide (segment.min.x < 0)) (decide (segment.max.x < 0)) then
    let worldCorrect : Vec2F := ⟨g.m_size.x, 0⟩
    let intersect := isect segment worldBoundLeft
    if segment.min.x < 0 then
      (((st.add (segment.min.add worldCorrect)).add ⟨g.m_size.x, intersect.y⟩).toggle).add
        ⟨0, intersect.y⟩
    else
      (((st.add segment.min).add ⟨0, intersect.y⟩).toggle).add ⟨g.m_size.x, intersect.y⟩
  else if xor (decide (segment.min.x > (g.m_size.x : ℚ)))
      (decide (segment.max.x > (g.m_size.x : ℚ))) then
    let worldCorrect : Vec2F := ⟨g.m_size.x, 0⟩
    let intersect := isect segment worldBoundRight
    if segment.min.x > (g.m_size.x : ℚ) then
      (((st.add (segment.min.sub worldCorrect)).add ⟨0, intersect.y⟩).toggle).add
        ⟨g.m_size.x, intersect.y⟩
    else
      (((st.add segment.min).add ⟨g.m_size.x, intersect.y⟩).toggle).add ⟨0, intersect.y⟩
  else
    if segment.min.x < 0 then st.add (segment.min.add ⟨g.m_size.x, 0⟩)
    else if segment.min.x > (g.m_size.x : ℚ) then st.add (segment.min.sub ⟨g.m_size.x, 0⟩)
    else st.add segment.min

/-- The body of the loop of `splitPolyY` for one side `segment`. -/
def splitPolyYStep (isect : Line2F → Line2F → Vec2F) (g : WorldGeometry) (st : PolySplit)
    (segment : Line2F) : PolySplit :=
  let worldBoundTop : Line2F := ⟨⟨0, g.m_size.y⟩, ⟨1, g.m_size.y⟩⟩
  let worldBoundBottom : Line2F := ⟨⟨0, 0⟩, ⟨1, 0⟩⟩
  if xor (decide (segment.min.y < 0)) (decide (segment.max.y < 0)) then
    let worldCorrect : Vec2F := ⟨0, g.m_size.y⟩
    let intersect := isect segment worldBoundBottom
    if segment.min.y < 0 then
      (((st.add (segment.min.add worldCorrect)).add ⟨intersect.x, g.m_size.y⟩).toggle).add
        ⟨intersect.x, 0⟩
    else
      (((st.add segment.min).add ⟨intersect.x, 0⟩).toggle).add ⟨intersect.x, g.m_size.y⟩
  else if xor (decide (segment.min.y > (g.m_size.y : ℚ)))
      (decide (segment.max.y > (g.m_size.y : ℚ))) then
    let worldCorrect : Vec2F := ⟨0, g.m_size.y⟩
    let intersect := isect segment worldBoundTop
    if segment.min.y > (g.m_size.y : ℚ) then
      (((st.add (segment.min.sub worldCorrect)).add ⟨intersect.x, 0⟩).toggle).add
        ⟨intersect.x, g.m_size.y⟩
    else
      (((st.add segment.min).add ⟨intersect.x, g.m_size.y⟩).toggle).add ⟨intersect.x, 0⟩
  else
    if segment.min.y < 0 then st.add (segment.min.add ⟨0, g.m_size.y⟩)
    else if segment.min.y > (g.m_size.y : ℚ) then st.add (segment.min.sub ⟨0, g.m_size.y⟩)
    else st.add segment.min

/-- The end of `splitPolyX` and `splitPolyY`: the accumulators that received
vertices. -/
def polySplitResult (st : PolySplit) : List PolyF :=
  if st.res1.isNull then [st.res0]
  else if st.res0.isNull then [st.res1]
  else [st.res0, st.res1]

/-- The function `splitPolyX`: the sides are walked in order, from side 0. -/
def splitPolyX (isect : Line2F → Line2F → Vec2F) (g : WorldGeometry) (poly : PolyF) :
    List PolyF :=
  if poly.isNull || !g.m_xWrap then [poly]
  else polySplitResult ((List.range poly.sides).foldl
    (fun st i => g.splitPolyXStep isect st (poly.side i)) ⟨⟨[]⟩, ⟨[]⟩, false⟩)

/-- The function `splitPolyY`. -/
def splitPolyY (isect : Line2F → Line2F → Vec2F) (g : WorldGeometry) (poly : PolyF) :
    List PolyF :=
  if poly.isNull || !g.m_yWrap then [poly]
  else polySplitResult ((List.range poly.sides).foldl
    (fun st i => g.splitPolyYStep isect st (poly.side i)) ⟨⟨[]⟩, ⟨[]⟩, false⟩)

/-- The function `splitPoly(PolyF const&)`. -/
def splitPoly (isect : Line2F → Line2F → Vec2F) (g : WorldGeometry) (poly : PolyF) :
    Option (List PolyF) :=
  if poly.isNull || (!g.m_yWrap && !g.m_xWrap) then some [poly]
  else
    let splitX := g.splitPolyX isect poly
    splitX[0]?.bind fun sx0 =>
    let splitY1 := g.splitPolyY isect sx0
    splitY1[0]?.bind fun sy10 =>
    (if splitY1.length > 1 then splitY1[1]?.map fun r => [sy10] ++ [r]
      else some [sy10]).bind fun out =>
    if splitX.length > 1 then
      splitX[1]?.bind fun sx1 =>
      let splitY2 := g.splitPolyY isect sx1
      splitY2[0]?.bind fun sy20 =>
      if splitY2.length > 1 then splitY2[1]?.map fun r => (out ++ [sy20]) ++ [r]
      else some (out ++ [sy20])
    else some out

end WorldGeometry

/-! ## Wrapped differences, seam tests and box queries, in exact arithmetic -/

/-- Modelled from the spec: `wrapDiffF<float>` of StarMathCommon.hpp, which is
not among the sources, in exact arithmetic: the float counterpart of
`wrapDiff`, a single wrapped modulo of the difference into the range centred
on zero, the tie at exactly half the size going to the positive side. -/
def wrapDiffF (a b size : ℚ) : ℚ :=
  let d := pfmod (a - b) size
  if d > size / 2 then d - size else d

/-- Modelled from the spec: `clamp<float>` of StarMathCommon.hpp, which is not
among the sources: the value clamped into the closed range `[lo, hi]`. -/
def clampF (v lo hi : ℚ) : ℚ :=
  min (max v lo) hi

/-- Modelled from the spec: the centre of a rectangle, of the rectangle
primitives, which are not among the sources. -/
def RectF.center (r : RectF) : Vec2F := ⟨(r.xMin + r.xMax) / 2, (r.yMin + r.yMax) / 2⟩

/-- Modelled from the spec: the translation of a rectangle by a vector. -/
def RectF.translate (r : RectF) (c : Vec2F) : RectF :=
  ⟨r.xMin + c.x, r.yMin + c.y, r.xMax + c.x, r.yMax + c.y⟩

/-- Modelled from the spec: `setCenter(c)`, the translation of a rectangle
that moves its centre to `c`. -/
def RectF.setCenter (r : RectF) (c : Vec2F) : RectF := r.translate (c.sub r.center)

/-- Modelled from the spec: the flat nearest-point-in-box primitive
`nearestCoordTo`, which clamps each coordinate into the box. -/
def RectF.nearestCoordTo (r : RectF) (c : Vec2F) : Vec2F :=
  ⟨clampF c.x r.xMin r.xMax, clampF c.y r.yMin r.yMax⟩

/-- The square of the Euclidean length of a segment. -/
def Line2F.lengthSq (l : Line2F) : ℚ :=
  (l.max.x - l.min.x) ^ 2 + (l.max.y - l.min.y) ^ 2

/-- Two points are the same point of the world wrapped on x with width `W`:
same y, and x coordinates that differ by an integer multiple of `W`. -/
def Vec2F.sameModX (W : ℚ) (p q : Vec2F) : Prop :=
  p.y = q.y ∧ ∃ k : Int, p.x = q.x + (k : ℚ) * W

namespace WorldGeometry

/-- The function `xdiff(float, float)`. -/
def xdiffF (g : WorldGeometry) (x1 x2 : ℚ) : ℚ :=
  if !g.m_xWrap then x1 - x2 else wrapDiffF x1 x2 g.m_size.x

/-- The function `ydiff(float, float)`. -/
def ydiffF (g : WorldGeometry) (y1 y2 : ℚ) : ℚ :=
  if !g.m_yWrap then y1 - y2 else wrapDiffF y1 y2 g.m_size.y

/-- The function `diff(Vec2F const&, Vec2F const&)`. -/
def diffF (g : WorldGeometry) (p1 p2 : Vec2F) : Vec2F :=
  ⟨g.xdiffF p1.x p2.x, g.ydiffF p1.y p2.y⟩

/-- The function `crossesWrapX`. -/
def crossesWrapX (g : WorldGeometry) (xMin xMax : ℚ) : Bool :=
  g.m_xWrap && decide (g.xwrapF xMax < g.xwrapF xMin)

/-- The function `crossesWrapY`. -/
def crossesWrapY (g : WorldGeometry) (yMin yMax : ℚ) : Bool :=
  g.m_yWrap && decide (g.ywrapF yMax < g.ywrapF yMin)

/-- The function `splitXRegion(Vec2F const&)`. -/
def splitXRegionF (g : WorldGeometry) (xRegion : Vec2F) : List Vec2F :=
  if !g.m_xWrap then [xRegion]
  else
    let x1 := g.xwrapF xRegion.x
    let x2 := x1 + xRegion.y - xRegion.x
    if x2 > (g.m_size.x : ℚ) then [⟨x1, g.m_size.x⟩, ⟨0, x2 - g.m_size.x⟩]
    else [⟨x1, x2⟩]

/-- The function `nearestCoordInBox`. -/
def nearestCoordInBox (g : WorldGeometry) (box : RectF) (pos : Vec2F) : Vec2F :=
  let t := box
  let offset := t.center
  let r := g.diffF pos offset
  let t := t.setCenter ⟨0, 0⟩
  (t.nearestCoordTo r).add offset

/-- The function `diffToNearestCoordInBox`. -/
def diffToNearestCoordInBox (g : WorldGeometry) (box : RectF) (pos : Vec2F) : Vec2F :=
  let t := box
  let offset := t.center
  let r := g.diffF pos offset
  let t := t.setCenter ⟨0, 0⟩
  let coord := (t.nearestCoordTo r).add offset
  g.diffF pos coord

end WorldGeometry

/-- Every vertex collected so far by the polygon walk has `0 ≤ x ≤ W`. -/
def PolySplit.allIn (W : ℚ) (st : PolySplit) : Prop :=
  (∀ u ∈ st.res0.vertexes, 0 ≤ u.x ∧ u.x ≤ W) ∧ (∀ u ∈ st.res1.vertexes, 0 ≤ u.x ∧ u.x ≤ W)

/-- The polygon walk has collected the vertex `v`, with its y unchanged and its
x unchanged or moved by one width `W`. -/
def PolySplit.has (W : ℚ) (st : PolySplit) (v : Vec2F) : Prop :=
  ∃ u, (u ∈ st.res0.vertexes ∨ u ∈ st.res1.vertexes) ∧ u.y = v.y ∧
    (u.x = v.x ∨ u.x = v.x + W ∨ u.x = v.x - W)

/-! ## Polygon area and the pieces of a polygon along the seam -/

/-- The cross product of two vectors. -/
def Vec2F.cross (p q : Vec2F) : ℚ := p.x * q.y - p.y * q.x

/-- The sum of the cross products of consecutive points along the path that
starts at `prev` and runs through the list. -/
def pathFrom (prev : Vec2F) : List Vec2F → ℚ
  | [] => 0
  | a :: t => prev.cross a + pathFrom a t

/-- Twice the signed area of a polygon by the shoelace formula: the cross
products of consecutive vertices, the last vertex being followed by the
first. -/
def PolyF.shoelace (p : PolyF) : ℚ :=
  match p.vertexes with
  | [] => 0
  | a :: t => pathFrom a (t ++ [a])

/-- Modelled from the spec: the area computation `convexArea()` of the polygon
primitive, which is not among the sources: the absolute value of the sum of
half the cross products of consecutive vertices. -/
def PolyF.convexArea (p : PolyF) : ℚ := |p.shoelace| / 2

/-- A polygon is convex: walking its sides, every vertex lies on one and the
same side of (or on) the line through each side. The sign `σ` is the
orientation of the walk. -/
def PolyF.isConvex (p : PolyF) : Prop :=
  ∃ σ : ℚ, (σ = 1 ∨ σ = -1) ∧ ∀ i < p.sides, ∀ u ∈ p.vertexes,
    0 ≤ σ * (((p.side i).max.sub (p.side i).min).cross (u.sub (p.side i).min))

/-- The cross product of two points seen from the reference point `c`. -/
def crossAt (c p q : Vec2F) : ℚ := (p.sub c).cross (q.sub c)

/-- The path sum of `pathFrom`, with cross products seen from `c`. -/
def pathAt (c prev : Vec2F) : List Vec2F → ℚ
  | [] => 0
  | a :: t => crossAt c prev a + pathAt c a t

/-- The last point of the path that starts at `prev` and runs through the
list. -/
def lastOr (prev : Vec2F) : List Vec2F → Vec2F
  | [] => prev
  | a :: t => lastOr a t

/-- The vertices that side `k` of a walk contributes to the part of the
polygon on one side of the seam: `ins k` tells whether vertex `a k` is on that
side, and `X k` is the seam point of side `k`. -/
def seamPiece (ins : Nat → Bool) (a X : Nat → Vec2F) (k : Nat) : List Vec2F :=
  if ins k then (if ins (k + 1) then [a k] else [a k, X k])
  else (if ins (k + 1) then [X k] else [])

/-- The cross product, seen from `c`, of the part of side `k` that lies on the
side of the seam selected by `ins`. -/
def seamClip (c : Vec2F) (ins : Nat → Bool) (a X : Nat → Vec2F) (k : Nat) : ℚ :=
  if ins k then (if ins (k + 1) then crossAt c (a k) (a (k + 1)) else crossAt c (a k) (X k))
  else (if ins (k + 1) then crossAt c (X k) (a (k + 1)) else 0)

/-- The vertices collected on one side of the seam over the sides `0 .. m-1`. -/
def seamChain (ins : Nat → Bool) (a X : Nat → Vec2F) (m : Nat) : List Vec2F :=
  (List.range m).flatMap (seamPiece ins a X)

/-- Vertex `k` of a polygon, counted cyclically. -/
def PolyF.vtx (p : PolyF) (k : Nat) : Vec2F :=
  p.vertexes.getD (k % p.vertexes.length) ⟨0, 0⟩

/-- Whether vertex `k` lies strictly left of the seam `x = 0`. -/
def PolyF.isNeg (p : PolyF) (k : Nat) : Bool := decide ((p.vtx k).x < 0)

/-- The y that `splitPolyX` takes from the intersection of side `k` with the
left world bound. -/
def PolyF.seamY (isect : Line2F → Line2F → Vec2F) (p : PolyF) (k : Nat) : ℚ :=
  (isect (p.side k) ⟨⟨0, 0⟩, ⟨0, 1⟩⟩).y

/-- The vertices that the walk of `splitPolyX` collects right of the seam
`x = 0` over the sides `0 .. m-1`. -/
def PolyF.posChain (isect : Line2F → Line2F → Vec2F) (p : PolyF) (m : Nat) : List Vec2F :=
  seamChain (fun k => !p.isNeg k) p.vtx (fun k => ⟨0, p.seamY isect k⟩) m

/-- The vertices that the walk of `splitPolyX` collects left of the seam, moved
by the width `W`, over the sides `0 .. m-1`. -/
def PolyF.negChain (isect : Line2F → Line2F → Vec2F) (W : ℚ) (p : PolyF) (m : Nat) :
    List Vec2F :=
  seamChain p.isNeg (fun k => (p.vtx k).add ⟨W, 0⟩) (fun k => ⟨W, p.seamY isect k⟩) m

/-! ## Facts about the helpers -/

theorem pmod_pos (a m : Int) (hm : 0 < m) : pmod a m = some (a % m) := by
  unfold pmod
  rw [if_neg (by omega), Int.fmod_eq_emod a (le_of_lt hm)]

theorem xwrap_of_wrap (g : WorldGeometry) (x : Int) (hw : g.m_xWrap = true)
    (hpos : 0 < g.width) : g.xwrap x = some (x % (g.width : Int)) := by
  have h : (0 : Int) < (g.m_size.x : Int) := by
    have := hpos
    unfold WorldGeometry.width at this
    exact_mod_cast this
  simp [WorldGeometry.xwrap, hw, pmod_pos _ _ h, WorldGeometry.width]

theorem ywrap_of_wrap (g : WorldGeometry) (y : Int) (hw : g.m_yWrap = true)
    (hpos : 0 < g.height) : g.ywrap y = some (y % (g.height : Int)) := by
  have h : (0 : Int) < (g.m_size.y : Int) := by
    have := hpos
    unfold WorldGeometry.height at this
    exact_mod_cast this
  simp [WorldGeometry.ywrap, hw, pmod_pos _ _ h, WorldGeometry.height]

theorem wrapDiff_pos (a b W : Int) (hW : 0 < W) :
    wrapDiff a b W = some (if (a - b) % W > W / 2 then (a - b) % W - W
      else (a - b) % W) := by
  unfold wrapDiff
  rw [pmod_pos _ _ hW]
  simp only []
  split_ifs <;> rfl

/-- The result of `wrapDiff` is a representative of `a - b` modulo the size of
magnitude at most half the size. -/
theorem wrapDiff_repr (a b W : Int) (hW : 0 < W) :
    ∃ d k : Int, wrapDiff a b W = some d ∧ d = a - b + k * W ∧ 2 * |d| ≤ W := by
  have hd := Int.emod_add_ediv (a - b) W
  have hd0 := Int.emod_nonneg (a - b) (ne_of_gt hW)
  have hd1 := Int.emod_lt_of_pos (a - b) hW
  rw [wrapDiff_pos a b W hW]
  split_ifs with h1
  · refine ⟨_, -((a - b) / W) - 1, rfl, by linear_combination hd, ?_⟩
    rw [abs_of_nonpos (by omega)]
    omega
  · refine ⟨_, -((a - b) / W), rfl, by linear_combination hd, ?_⟩
    rw [abs_of_nonneg hd0]
    omega

/-- A value of magnitude at most half of `W` is a smallest representative of
its class modulo `W`. -/
theorem abs_le_abs_add_mul (d W : Int) (h : 2 * |d| ≤ W) (m : Int) :
    |d| ≤ |d + m * W| := by
  have hd := abs_nonneg d
  rcases lt_trichotomy m 0 with hm | hm | hm
  · have : m * W ≤ -W := by nlinarith
    have h1 : d + m * W ≤ 0 := by
      have := le_abs_self d
      linarith
    rw [abs_of_nonpos h1]
    have := le_abs_self d
    linarith
  · subst hm
    simp
  · have : W ≤ m * W := by nlinarith
    have h1 : 0 ≤ d + m * W := by
      have := neg_abs_le d
      linarith
    rw [abs_of_nonneg h1]
    have := neg_abs_le d
    linarith

theorem width_cast_pos (g : WorldGeometry) (hpos : 0 < g.width) :
    (0 : Int) < (g.m_size.x : Int) := by
  have := hpos
  unfold WorldGeometry.width at this
  exact_mod_cast this

theorem height_cast_pos (g : WorldGeometry) (hpos : 0 < g.height) :
    (0 : Int) < (g.m_size.y : Int) := by
  have := hpos
  unfold WorldGeometry.height at this
  exact_mod_cast this

theorem xdiff_of_wrap (g : WorldGeometry) (a b : Int) (hw : g.m_xWrap = true) :
    g.xdiff a b = wrapDiff a b (g.m_size.x : Int) := by
  simp [WorldGeometry.xdiff, hw]

/-- The result of `splitRectX` written out, when a wrapping x axis has positive
width. -/
theorem splitRectX_eq (isNull : RectI → Bool) (g : WorldGeometry) (b : RectI)
    (hx : g.m_xWrap = true → 0 < g.width) :
    g.splitRectX isNull b = some
      (if isNull b = true ∨ g.m_xWrap = false then [b]
      else if b.xMin % (g.m_size.x : Int) + (b.xMax - b.xMin) > (g.m_size.x : Int) then
        [⟨b.xMin % (g.m_size.x : Int), b.yMin, g.m_size.x, b.yMin + (b.yMax - b.yMin)⟩,
          ⟨0, b.yMin, b.xMin % (g.m_size.x : Int) + (b.xMax - b.xMin) - g.m_size.x,
            b.yMin + (b.yMax - b.yMin)⟩]
      else [⟨b.xMin % (g.m_size.x : Int), b.yMin,
        b.xMin % (g.m_size.x : Int) + (b.xMax - b.xMin), b.yMin + (b.yMax - b.yMin)⟩]) := by
  cases hn : isNull b
  · cases hw : g.m_xWrap
    · simp [WorldGeometry.splitRectX, hn, hw]
    · have hm := xwrap_of_wrap g b.xMin hw (hx hw)
      have hWw : (g.width : Int) = (g.m_size.x : Int) := rfl
      rw [hWw] at hm
      simp only [WorldGeometry.splitRectX, hn, hw, WorldGeometry.xwrapVec, RectI.min, hm,
        RectI.ofCorners, Vec2I.add, RectI.size]
      simp
  · simp [WorldGeometry.splitRectX, hn]

/-- The result of `splitRectY` written out, when a wrapping y axis has positive
height. -/
theorem splitRectY_eq (isNull : RectI → Bool) (g : WorldGeometry) (b : RectI)
    (hy : g.m_yWrap = true → 0 < g.height) :
    g.splitRectY isNull b = some
      (if isNull b = true ∨ g.m_yWrap = false then [b]
      else if b.yMin % (g.m_size.y : Int) + (b.yMax - b.yMin) > (g.m_size.y : Int) then
        [⟨b.xMin, b.yMin % (g.m_size.y : Int), b.xMin + (b.xMax - b.xMin), g.m_size.y⟩,
          ⟨b.xMin, 0, b.xMin + (b.xMax - b.xMin),
            b.yMin % (g.m_size.y : Int) + (b.yMax - b.yMin) - g.m_size.y⟩]
      else [⟨b.xMin, b.yMin % (g.m_size.y : Int), b.xMin + (b.xMax - b.xMin),
        b.yMin % (g.m_size.y : Int) + (b.yMax - b.yMin)⟩]) := by
  cases hn : isNull b
  · cases hw : g.m_yWrap
    · simp [WorldGeometry.splitRectY, hn, hw]
    · have hm := ywrap_of_wrap g b.yMin hw (hy hw)
      have hHh : (g.height : Int) = (g.m_size.y : Int) := rfl
      rw [hHh] at hm
      simp only [WorldGeometry.splitRectY, hn, hw, WorldGeometry.ywrapVec, RectI.min, hm,
        RectI.ofCorners, Vec2I.add, RectI.size]
      simp
  · simp [WorldGeometry.splitRectY, hn]

/-- The body of `splitRect` after its first test, on x pieces and y pieces of
one or two elements each. -/
theorem splitRect_of_pieces (isNull : RectI → Bool) (g : WorldGeometry) (b : RectI)
    (Lx : List RectI) (f : RectI → List RectI)
    (hX : g.splitRectX isNull b = some Lx)
    (hY : ∀ r, g.splitRectY isNull r = some (f r))
    (hLx : Lx.length = 1 ∨ Lx.length = 2)
    (hf : ∀ r, (f r).length = 1 ∨ (f r).length = 2)
    (hne : (isNull b || (!g.m_yWrap && !g.m_xWrap)) = false) :
    g.splitRect isNull b = some (Lx.flatMap f) := by
  unfold WorldGeometry.splitRect
  rw [hne, hX]
  rcases Lx with _ | ⟨a, _ | ⟨c, _ | ⟨e, t⟩⟩⟩
  · simp at hLx
  · have ha := hf a
    rcases hfa : f a with _ | ⟨p, _ | ⟨q, _ | ⟨u, v⟩⟩⟩
    · simp [hfa] at ha
    · simp [hY, hfa]
    · simp [hY, hfa]
    · simp [hfa] at ha
  · have ha := hf a
    have hc := hf c
    rcases hfa : f a with _ | ⟨p, _ | ⟨q, _ | ⟨u, v⟩⟩⟩
    · simp [hfa] at ha
    · rcases hfc : f c with _ | ⟨p2, _ | ⟨q2, _ | ⟨u2, v2⟩⟩⟩
      · simp [hfc] at hc
      · simp [hY, hfa, hfc]
      · simp [hY, hfa, hfc]
      · simp [hfc] at hc
    · rcases hfc : f c with _ | ⟨p2, _ | ⟨q2, _ | ⟨u2, v2⟩⟩⟩
      · simp [hfc] at hc
      · simp [hY, hfa, hfc]
      · simp [hY, hfa, hfc]
      · simp [hfc] at hc
    · simp [hfa] at ha
  · simp at hLx

/-- The function `splitRect` returns the y pieces of the x pieces, in order. -/
theorem splitRect_eq_flatMap (isNull : RectI → Bool) (g : WorldGeometry) (b : RectI)
    (hx : g.m_xWrap = true → 0 < g.width) (hy : g.m_yWrap = true → 0 < g.height) :
    ∃ Lx : List RectI, ∃ f : RectI → List RectI,
      g.splitRectX isNull b = some Lx ∧ (∀ r, g.splitRectY isNull r = some (f r)) ∧
      g.splitRect isNull b = some (Lx.flatMap f) := by
  refine ⟨_, _, splitRectX_eq isNull g b hx, fun r => splitRectY_eq isNull g r hy, ?_⟩
  by_cases hne : (isNull b || (!g.m_yWrap && !g.m_xWrap)) = false
  · refine splitRect_of_pieces isNull g b _ _ (splitRectX_eq isNull g b hx)
      (fun r => splitRectY_eq isNull g r hy) ?_ ?_ hne
    · split_ifs <;> simp
    · intro r
      split_ifs <;> simp
  · have hne2 : (isNull b || (!g.m_yWrap && !g.m_xWrap)) = true :=
      Bool.eq_true_of_not_eq_false hne
    unfold WorldGeometry.splitRect
    rw [hne2]
    cases hn : isNull b
    · rw [hn] at hne2
      have h2 : g.m_yWrap = false ∧ g.m_xWrap = false := by simpa using hne2
      simp [hn, h2.1, h2.2]
    · simp [hn]

theorem sum_area_flatMap (L : List RectI) (f : RectI → List RectI)
    (h : ∀ r, ((f r).map RectI.area).sum = r.area) :
    ((L.flatMap f).map RectI.area).sum = (L.map RectI.area).sum := by
  induction L with
  | nil => simp
  | cons a t ih => simp [List.flatMap_cons, h, ih]

theorem splitRectX_area (isNull : RectI → Bool) (g : WorldGeometry) (b : RectI)
    (Lx : List RectI) (hx : g.m_xWrap = true → 0 < g.width)
    (hX : g.splitRectX isNull b = some Lx) : (Lx.map RectI.area).sum = b.area := by
  rw [splitRectX_eq isNull g b hx] at hX
  rw [← Option.some.inj hX]
  split_ifs
  · simp
  · simp only [List.map_cons, List.map_nil, List.sum_cons, List.sum_nil, RectI.area]
    ring
  · simp only [List.map_cons, List.map_nil, List.sum_cons, List.sum_nil, RectI.area]
    ring

theorem splitRectY_area (isNull : RectI → Bool) (g : WorldGeometry) (b : RectI)
    (Ly : List RectI) (hy : g.m_yWrap = true → 0 < g.height)
    (hY : g.splitRectY isNull b = some Ly) : (Ly.map RectI.area).sum = b.area := by
  rw [splitRectY_eq isNull g b hy] at hY
  rw [← Option.some.inj hY]
  split_ifs
  · simp
  · simp only [List.map_cons, List.map_nil, List.sum_cons, List.sum_nil, RectI.area]
    ring
  · simp only [List.map_cons, List.map_nil, List.sum_cons, List.sum_nil, RectI.area]
    ring

/-- The x pieces of a non-null rectangle with ordered x corners and x extent
within the width: each keeps the y corners, has ordered x corners, and lies in
`[0, W]` on a wrapping x axis. -/
theorem splitRectX_pieces (isNull : RectI → Bool) (g : WorldGeometry) (b : RectI)
    (Lx : List RectI) (hx : g.m_xWrap = true → 0 < g.width)
    (hn : isNull b = false) (hxo : b.xMin ≤ b.xMax)
    (hxe : g.m_xWrap = true → b.xMax - b.xMin ≤ (g.width : Int))
    (hX : g.splitRectX isNull b = some Lx) :
    ∀ r ∈ Lx, r.yMin = b.yMin ∧ r.yMax = b.yMax ∧ r.xMin ≤ r.xMax ∧
      (g.m_xWrap = true → 0 ≤ r.xMin ∧ r.xMax ≤ (g.width : Int)) := by
  rw [splitRectX_eq isNull g b hx] at hX
  rw [← Option.some.inj hX]
  have hWw : (g.width : Int) = (g.m_size.x : Int) := rfl
  rw [hWw] at hxe ⊢
  cases hw : g.m_xWrap
  · intro r hr
    simp [hn] at hr
    subst hr
    simp [hxo]
  · have hW := width_cast_pos g (hx hw)
    have hm0 := Int.emod_nonneg b.xMin (ne_of_gt hW)
    have hm1 := Int.emod_lt_of_pos b.xMin hW
    have he := hxe hw
    intro r hr
    rw [if_neg (by simp [hn])] at hr
    split_ifs at hr with hc
    · simp only [List.mem_cons, List.mem_singleton, List.mem_nil_iff, or_false] at hr
      rcases hr with h | h <;> subst h <;> refine ⟨?_, ?_, ?_, fun _ => ⟨?_, ?_⟩⟩ <;>
        dsimp only <;> omega
    · simp only [List.mem_singleton] at hr
      subst hr
      refine ⟨?_, ?_, ?_, fun _ => ⟨?_, ?_⟩⟩ <;> dsimp only <;> omega

/-- The y pieces of a non-null rectangle with ordered y corners and y extent
within the height: each keeps the x corners, has ordered y corners, and lies
in `[0, H]` on a wrapping y axis. -/
theorem splitRectY_pieces (isNull : RectI → Bool) (g : WorldGeometry) (b : RectI)
    (Ly : List RectI) (hy : g.m_yWrap = true → 0 < g.height)
    (hn : isNull b = false) (hyo : b.yMin ≤ b.yMax)
    (hye : g.m_yWrap = true → b.yMax - b.yMin ≤ (g.height : Int))
    (hY : g.splitRectY isNull b = some Ly) :
    ∀ r ∈ Ly, r.xMin = b.xMin ∧ r.xMax = b.xMax ∧ r.yMin ≤ r.yMax ∧
      (g.m_yWrap = true → 0 ≤ r.yMin ∧ r.yMax ≤ (g.height : Int)) := by
  rw [splitRectY_eq isNull g b hy] at hY
  rw [← Option.some.inj hY]
  have hHh : (g.height : Int) = (g.m_size.y : Int) := rfl
  rw [hHh] at hye ⊢
  cases hw : g.m_yWrap
  · intro r hr
    simp [hn] at hr
    subst hr
    simp [hyo]
  · have hH := height_cast_pos g (hy hw)
    have hm0 := Int.emod_nonneg b.yMin (ne_of_gt hH)
    have hm1 := Int.emod_lt_of_pos b.yMin hH
    have he := hye hw
    intro r hr
    rw [if_neg (by simp [hn])] at hr
    split_ifs at hr with hc
    · simp only [List.mem_cons, List.mem_singleton, List.mem_nil_iff, or_false] at hr
      rcases hr with h | h <;> subst h <;> refine ⟨?_, ?_, ?_, fun _ => ⟨?_, ?_⟩⟩ <;>
        dsimp only <;> omega
    · simp only [List.mem_singleton] at hr
      subst hr
      refine ⟨?_, ?_, ?_, fun _ => ⟨?_, ?_⟩⟩ <;> dsimp only <;> omega

/-- The function `splitRectY` returns as many pieces for two non-null
rectangles with the same y corners. -/
theorem splitRectY_length_congr (isNull : RectI → Bool) (g : WorldGeometry) (a c : RectI)
    (La Lc : List RectI) (hy : g.m_yWrap = true → 0 < g.height)
    (hna : isNull a = false) (hnc : isNull c = false)
    (h1 : a.yMin = c.yMin) (h2 : a.yMax = c.yMax)
    (hA : g.splitRectY isNull a = some La) (hC : g.splitRectY isNull c = some Lc) :
    La.length = Lc.length := by
  rw [splitRectY_eq isNull g a hy] at hA
  rw [splitRectY_eq isNull g c hy] at hC
  rw [← Option.some.inj hA, ← Option.some.inj hC, hna, hnc, h1, h2]
  split_ifs <;> rfl

theorem splitRectY_length (isNull : RectI → Bool) (g : WorldGeometry) (a : RectI)
    (La : List RectI) (hy : g.m_yWrap = true → 0 < g.height)
    (hA : g.splitRectY isNull a = some La) : La.length = 1 ∨ La.length = 2 := by
  rw [splitRectY_eq isNull g a hy] at hA
  rw [← Option.some.inj hA]
  split_ifs <;> simp

/-! ## Facts about the exact-arithmetic helpers -/

theorem pfmod_pos (a W : ℚ) (hW : 0 < W) :
    pfmod a W = a - W * (⌊a / W⌋ : ℚ) ∧ 0 ≤ pfmod a W ∧ pfmod a W < W := by
  have h0 : pfmod a W = a - W * (⌊a / W⌋ : ℚ) := by
    unfold pfmod
    rw [if_neg (ne_of_gt hW)]
  have h1 := Int.floor_le (a / W)
  have h2 := Int.lt_floor_add_one (a / W)
  rw [le_div_iff₀ hW] at h1
  rw [div_lt_iff₀ hW] at h2
  refine ⟨h0, ?_, ?_⟩
  · rw [h0]
    linarith
  · rw [h0]
    linarith

theorem pfmod_id (a W : ℚ) (h0 : 0 ≤ a) (h1 : a < W) : pfmod a W = a := by
  have hW : 0 < W := lt_of_le_of_lt h0 h1
  have hf : ⌊a / W⌋ = 0 := by
    rw [Int.floor_eq_zero_iff]
    exact ⟨div_nonneg h0 (le_of_lt hW), (div_lt_one hW).mpr h1⟩
  rw [(pfmod_pos a W hW).1, hf]
  simp

theorem xwrapF_id (g : WorldGeometry) (x : ℚ) (h0 : 0 ≤ x) (h1 : x < (g.m_size.x : ℚ)) :
    g.xwrapF x = x := by
  unfold WorldGeometry.xwrapF
  split_ifs
  · rfl
  · exact pfmod_id x _ h0 h1

theorem ywrapF_id (g : WorldGeometry) (y : ℚ) (h0 : 0 ≤ y) (h1 : y < (g.m_size.y : ℚ)) :
    g.ywrapF y = y := by
  unfold WorldGeometry.ywrapF
  split_ifs
  · rfl
  · exact pfmod_id y _ h0 h1

theorem splitRectXF_inside (isNull : RectF → Bool) (g : WorldGeometry) (b : RectF)
    (h0 : 0 ≤ b.xMin) (h1 : b.xMin ≤ b.xMax) (h2 : b.xMax < (g.m_size.x : ℚ)) :
    g.splitRectXF isNull b = [b] := by
  unfold WorldGeometry.splitRectXF
  split_ifs with hc
  · rfl
  · have hm := xwrapF_id g b.xMin h0 (lt_of_le_of_lt h1 h2)
    simp only [WorldGeometry.xwrapVecF, RectF.min, RectF.ofCorners, Vec2F.add, RectF.size, hm]
    rw [if_neg (by linarith)]
    simp

theorem splitRectYF_inside (isNull : RectF → Bool) (g : WorldGeometry) (b : RectF)
    (h0 : 0 ≤ b.yMin) (h1 : b.yMin ≤ b.yMax) (h2 : b.yMax < (g.m_size.y : ℚ)) :
    g.splitRectYF isNull b = [b] := by
  unfold WorldGeometry.splitRectYF
  split_ifs with hc
  · rfl
  · have hm := ywrapF_id g b.yMin h0 (lt_of_le_of_lt h1 h2)
    simp only [WorldGeometry.ywrapVecF, RectF.min, RectF.ofCorners, Vec2F.add, RectF.size, hm]
    rw [if_neg (by linarith)]
    simp

theorem splitPolyXStep_inside (isect : Line2F → Line2F → Vec2F) (g : WorldGeometry)
    (st : PolySplit) (seg : Line2F) (h1 : 0 ≤ seg.min.x) (h2 : seg.min.x ≤ (g.m_size.x : ℚ))
    (h3 : 0 ≤ seg.max.x) (h4 : seg.max.x ≤ (g.m_size.x : ℚ)) :
    g.splitPolyXStep isect st seg = st.add seg.min := by
  unfold WorldGeometry.splitPolyXStep
  simp [not_lt.mpr h1, not_lt.mpr h2, not_lt.mpr h3, not_lt.mpr h4]

theorem splitPolyYStep_inside (isect : Line2F → Line2F → Vec2F) (g : WorldGeometry)
    (st : PolySplit) (seg : Line2F) (h1 : 0 ≤ seg.min.y) (h2 : seg.min.y ≤ (g.m_size.y : ℚ))
    (h3 : 0 ≤ seg.max.y) (h4 : seg.max.y ≤ (g.m_size.y : ℚ)) :
    g.splitPolyYStep isect st seg = st.add seg.min := by
  unfold WorldGeometry.splitPolyYStep
  simp [not_lt.mpr h1, not_lt.mpr h2, not_lt.mpr h3, not_lt.mpr h4]

theorem foldl_add_first (h : Nat → Vec2F) (idxs : List Nat) (vs : List Vec2F) :
    idxs.foldl (fun st i => PolySplit.add st (h i)) ⟨⟨vs⟩, ⟨[]⟩, false⟩
      = ⟨⟨vs ++ idxs.map h⟩, ⟨[]⟩, false⟩ := by
  induction idxs generalizing vs with
  | nil => simp
  | cons a t ih =>
    simp only [List.foldl_cons, List.map_cons]
    have : PolySplit.add ⟨⟨vs⟩, ⟨[]⟩, false⟩ (h a) = ⟨⟨vs ++ [h a]⟩, ⟨[]⟩, false⟩ := by
      simp [PolySplit.add, PolyF.add]
    rw [this, ih]
    simp

theorem map_getD_range (l : List Vec2F) (d : Vec2F) :
    (List.range l.length).map (fun i => l.getD i d) = l := by
  apply List.ext_getElem
  · simp
  · intro n h1 h2
    simp [List.getElem?_eq_getElem h2]

theorem getD_mem (l : List Vec2F) (d : Vec2F) (i : Nat) (hi : i < l.length) :
    l.getD i d ∈ l := by
  rw [List.getD_eq_getElem _ _ hi]
  exact List.getElem_mem hi

theorem foldl_congr_mem (step1 step2 : PolySplit → Nat → PolySplit) (idxs : List Nat)
    (st : PolySplit) (h : ∀ i ∈ idxs, ∀ s, step1 s i = step2 s i) :
    idxs.foldl step1 st = idxs.foldl step2 st := by
  induction idxs generalizing st with
  | nil => rfl
  | cons a t ih =>
    simp only [List.foldl_cons]
    rw [h a (List.mem_cons_self a t) st]
    exact ih _ (fun i hi s => h i (List.mem_cons_of_mem a hi) s)

theorem splitPolyX_inside (isect : Line2F → Line2F → Vec2F) (g : WorldGeometry) (poly : PolyF)
    (h : ∀ v ∈ poly.vertexes, 0 ≤ v.x ∧ v.x < (g.m_size.x : ℚ)) :
    g.splitPolyX isect poly = [poly] := by
  unfold WorldGeometry.splitPolyX
  split_ifs with hc
  · rfl
  · have hstep : ∀ i ∈ List.range poly.sides, ∀ s,
        g.splitPolyXStep isect s (poly.side i) = PolySplit.add s (poly.vertexes.getD i ⟨0, 0⟩) := by
      intro i hi s
      have hi2 : i < poly.vertexes.length := by simpa [PolyF.sides] using hi
      have hm := h _ (getD_mem poly.vertexes ⟨0, 0⟩ i hi2)
      have hn := h _ (getD_mem poly.vertexes ⟨0, 0⟩ ((i + 1) % poly.vertexes.length)
        (Nat.mod_lt _ (by omega)))
      exact splitPolyXStep_inside isect g s (poly.side i) hm.1 (le_of_lt hm.2) hn.1
        (le_of_lt hn.2)
    rw [foldl_congr_mem _ _ _ _ hstep, foldl_add_first, PolyF.sides, map_getD_range]
    simp [WorldGeometry.polySplitResult, PolyF.isNull]

theorem splitPolyY_inside (isect : Line2F → Line2F → Vec2F) (g : WorldGeometry) (poly : PolyF)
    (h : ∀ v ∈ poly.vertexes, 0 ≤ v.y ∧ v.y < (g.m_size.y : ℚ)) :
    g.splitPolyY isect poly = [poly] := by
  unfold WorldGeometry.splitPolyY
  split_ifs with hc
  · rfl
  · have hstep : ∀ i ∈ List.range poly.sides, ∀ s,
        g.splitPolyYStep isect s (poly.side i) = PolySplit.add s (poly.vertexes.getD i ⟨0, 0⟩) := by
      intro i hi s
      have hi2 : i < poly.vertexes.length := by simpa [PolyF.sides] using hi
      have hm := h _ (getD_mem poly.vertexes ⟨0, 0⟩ i hi2)
      have hn := h _ (getD_mem poly.vertexes ⟨0, 0⟩ ((i + 1) % poly.vertexes.length)
        (Nat.mod_lt _ (by omega)))
      exact splitPolyYStep_inside isect g s (poly.side i) hm.1 (le_of_lt hm.2) hn.1
        (le_of_lt hn.2)
    rw [foldl_congr_mem _ _ _ _ hstep, foldl_add_first, PolyF.sides, map_getD_range]
    simp [WorldGeometry.polySplitResult, PolyF.isNull]

theorem makePositive_cases (l : Line2F) :
    (l.makePositive = (l, false) ∧
      (l.min.x < l.max.x ∨ (l.min.x = l.max.x ∧ l.min.y ≤ l.max.y))) ∨
    (l.makePositive = (l.reverse, true) ∧
      (l.max.x < l.min.x ∨ (l.min.x = l.max.x ∧ l.max.y < l.min.y))) := by
  unfold Line2F.makePositive
  split_ifs with h1 h2 h3 h4
  · exact Or.inl ⟨rfl, Or.inl h1⟩
  · exact Or.inr ⟨rfl, Or.inl h2⟩
  · exact Or.inl ⟨rfl, Or.inr ⟨by linarith, le_of_lt h3⟩⟩
  · exact Or.inr ⟨rfl, Or.inr ⟨by linarith, h4⟩⟩
  · exact Or.inl ⟨rfl, Or.inr ⟨by linarith, by linarith⟩⟩

theorem makePositive_idem (l : Line2F) :
    (l.makePositive.1).makePositive = (l.makePositive.1, false) := by
  rcases makePositive_cases l with ⟨h, hc⟩ | ⟨h, hc⟩
  · rw [h]
    rcases makePositive_cases l with ⟨h2, _⟩ | ⟨h2, hc2⟩
    · exact h2
    · rcases hc with h3 | ⟨h3, h4⟩ <;> rcases hc2 with h5 | ⟨h5, h6⟩ <;> linarith
  · rw [h]
    rcases makePositive_cases l.reverse with ⟨h2, _⟩ | ⟨h2, hc2⟩
    · exact h2
    · simp only [Line2F.reverse] at hc2
      rcases hc with h3 | ⟨h3, h4⟩ <;> rcases hc2 with h5 | ⟨h5, h6⟩ <;> linarith

theorem vec_add_sub (a b : Vec2F) : a.add (b.sub a) = b := by
  cases a
  cases b
  simp [Vec2F.add, Vec2F.sub]

/-- A segment whose end points lie in `[0, W)` on a wrapping x axis comes back
from `splitLineX` as itself made positive, when direction is not preserved. -/
theorem splitLineX_inside (isect : Line2F → Line2F → Vec2F) (g : WorldGeometry) (line : Line2F)
    (h : g.m_xWrap = true → (0 ≤ line.min.x ∧ line.min.x < (g.m_size.x : ℚ)) ∧
      (0 ≤ line.max.x ∧ line.max.x < (g.m_size.x : ℚ))) :
    g.splitLineX isect line false = [if g.m_xWrap then line.makePositive.1 else line] := by
  unfold WorldGeometry.splitLineX
  cases hw : g.m_xWrap
  · simp
  · obtain ⟨hmin, hmax⟩ := h hw
    have hP : (0 ≤ line.makePositive.1.min.x ∧ line.makePositive.1.min.x < (g.m_size.x : ℚ)) ∧
        line.makePositive.1.max.x < (g.m_size.x : ℚ) := by
      rcases makePositive_cases line with ⟨h2, _⟩ | ⟨h2, _⟩ <;> rw [h2]
      · exact ⟨hmin, hmax.2⟩
      · exact ⟨hmax, hmin.2⟩
    have hm : g.xwrapVecF line.makePositive.1.min = line.makePositive.1.min := by
      simp [WorldGeometry.xwrapVecF, xwrapF_id g _ hP.1.1 hP.1.2]
    simp only [Bool.not_true, Bool.false_eq_true, if_false, Bool.and_false, hm, Line2F.diff,
      vec_add_sub, if_true]
    rw [if_neg (not_lt.mpr (le_of_lt hP.2))]

/-- A segment whose end points lie in `[0, H)` on a wrapping y axis comes back
from `splitLineY` as itself made positive, when direction is not preserved. -/
theorem splitLineY_inside (isect : Line2F → Line2F → Vec2F) (g : WorldGeometry) (line : Line2F)
    (h : g.m_yWrap = true → (0 ≤ line.min.y ∧ line.min.y < (g.m_size.y : ℚ)) ∧
      (0 ≤ line.max.y ∧ line.max.y < (g.m_size.y : ℚ))) :
    g.splitLineY isect line false = [if g.m_yWrap then line.makePositive.1 else line] := by
  unfold WorldGeometry.splitLineY
  cases hw : g.m_yWrap
  · simp
  · obtain ⟨hmin, hmax⟩ := h hw
    have hP : (0 ≤ line.makePositive.1.min.y ∧ line.makePositive.1.min.y < (g.m_size.y : ℚ)) ∧
        line.makePositive.1.max.y < (g.m_size.y : ℚ) := by
      rcases makePositive_cases line with ⟨h2, _⟩ | ⟨h2, _⟩ <;> rw [h2]
      · exact ⟨hmin, hmax.2⟩
      · exact ⟨hmax, hmin.2⟩
    have hm : g.ywrapVecF line.makePositive.1.min = line.makePositive.1.min := by
      simp [WorldGeometry.ywrapVecF, ywrapF_id g _ hP.1.1 hP.1.2]
    simp only [Bool.not_true, Bool.false_eq_true, if_false, Bool.and_false, hm, Line2F.diff,
      vec_add_sub, if_true]
    rw [if_neg (not_lt.mpr (le_of_lt hP.2))]

/-- The result of `splitRect` on a geometry wrapping on x only, for a non-null
rectangle, written out. -/
theorem splitRectF_x_only (isNull : RectF → Bool) (g : WorldGeometry) (rect : RectF)
    (hw : g.m_xWrap = true) (hyw : g.m_yWrap = false) (hnull : isNull rect = false) :
    g.splitRectF isNull rect = some
      (if pfmod rect.xMin (g.m_size.x : ℚ) + (rect.xMax - rect.xMin) > (g.m_size.x : ℚ) then
        [RectF.mk (pfmod rect.xMin (g.m_size.x : ℚ)) rect.yMin (g.m_size.x : ℚ)
            (rect.yMin + (rect.yMax - rect.yMin)),
          RectF.mk 0 rect.yMin
            (pfmod rect.xMin (g.m_size.x : ℚ) + (rect.xMax - rect.xMin) - (g.m_size.x : ℚ))
            (rect.yMin + (rect.yMax - rect.yMin))]
      else [RectF.mk (pfmod rect.xMin (g.m_size.x : ℚ)) rect.yMin
        (pfmod rect.xMin (g.m_size.x : ℚ) + (rect.xMax - rect.xMin))
        (rect.yMin + (rect.yMax - rect.yMin))]) := by
  have hY : ∀ r : RectF, g.splitRectYF isNull r = [r] := by
    intro r
    simp [WorldGeometry.splitRectYF, hyw]
  have hne : (isNull rect || (!g.m_yWrap && !g.m_xWrap)) = false := by simp [hnull, hw]
  unfold WorldGeometry.splitRectF
  rw [hne]
  by_cases hc : pfmod rect.xMin (g.m_size.x : ℚ) + (rect.xMax - rect.xMin) > (g.m_size.x : ℚ)
  · have hX : g.splitRectXF isNull rect
        = [RectF.mk (pfmod rect.xMin (g.m_size.x : ℚ)) rect.yMin (g.m_size.x : ℚ)
            (rect.yMin + (rect.yMax - rect.yMin)),
          RectF.mk 0 rect.yMin
            (pfmod rect.xMin (g.m_size.x : ℚ) + (rect.xMax - rect.xMin) - (g.m_size.x : ℚ))
            (rect.yMin + (rect.yMax - rect.yMin))] := by
      simp only [WorldGeometry.splitRectXF, hnull, hw, WorldGeometry.xwrapVecF,
        WorldGeometry.xwrapF, RectF.min, RectF.ofCorners, Vec2F.add, RectF.size]
      simp [hc]
    rw [if_pos hc, hX]
    simp [hY]
  · have hX : g.splitRectXF isNull rect
        = [RectF.mk (pfmod rect.xMin (g.m_size.x : ℚ)) rect.yMin
          (pfmod rect.xMin (g.m_size.x : ℚ) + (rect.xMax - rect.xMin))
          (rect.yMin + (rect.yMax - rect.yMin))] := by
      simp only [WorldGeometry.splitRectXF, hnull, hw, WorldGeometry.xwrapVecF,
        WorldGeometry.xwrapF, RectF.min, RectF.ofCorners, Vec2F.add, RectF.size]
      simp [hc]
    rw [if_neg hc, hX]
    simp [hY]

theorem any_any_comm (intersects : RectF → RectF → Bool)
    (hsym : ∀ a b, intersects a b = intersects b a) (L1 L2 : List RectF) :
    (L1.any fun r1 => L2.any fun r2 => intersects r1 r2)
      = (L2.any fun r2 => L1.any fun r1 => intersects r2 r1) := by
  rw [Bool.eq_iff_iff]
  simp only [List.any_eq_true]
  constructor
  · rintro ⟨a, ha, b, hb, h⟩
    exact ⟨b, hb, a, ha, by rw [hsym]; exact h⟩
  · rintro ⟨b, hb, a, ha, h⟩
    exact ⟨a, ha, b, hb, by rw [hsym]; exact h⟩

/-- The positive modulo is the representative in `[0, W)`. -/
theorem pfmod_unique (a W r : ℚ) (k : Int) (hW : 0 < W) (h : a = r + (k : ℚ) * W)
    (h0 : 0 ≤ r) (h1 : r < W) : pfmod a W = r := by
  have hf : ⌊a / W⌋ = k := by
    rw [Int.floor_eq_iff, le_div_iff₀ hW, div_lt_iff₀ hW]
    constructor
    · linarith
    · linarith
  rw [(pfmod_pos a W hW).1, hf, h]
  ring

theorem xwrapF_of_wrap (g : WorldGeometry) (x : ℚ) (hw : g.m_xWrap = true) :
    g.xwrapF x = pfmod x (g.m_size.x : ℚ) := by
  simp [WorldGeometry.xwrapF, hw]

/-- Two collinear pieces `t * d` and `(1 - t) * d` of a vector `d`, with
`0 ≤ t ≤ 1`, have lengths that add up to the length of `d`. -/
theorem sqrt_split (t D : ℚ) (a b : ℚ) (ht0 : 0 ≤ t) (ht1 : t ≤ 1)
    (ha : a = t ^ 2 * D) (hb : b = (1 - t) ^ 2 * D) :
    Real.sqrt (a : ℝ) + Real.sqrt (b : ℝ) = Real.sqrt (D : ℝ) := by
  have h0 : (0 : ℝ) ≤ (t : ℝ) := by exact_mod_cast ht0
  have h1 : (0 : ℝ) ≤ 1 - (t : ℝ) := by
    have : (t : ℝ) ≤ 1 := by exact_mod_cast ht1
    linarith
  rw [ha, hb]
  push_cast
  rw [Real.sqrt_mul (sq_nonneg _), Real.sqrt_sq h0, Real.sqrt_mul (sq_nonneg _),
    Real.sqrt_sq h1]
  ring

theorem lengthSq_makePositive (l : Line2F) : l.makePositive.1.lengthSq = l.lengthSq := by
  rcases makePositive_cases l with ⟨h, _⟩ | ⟨h, _⟩ <;> rw [h]
  simp only [Line2F.lengthSq, Line2F.reverse]
  ring

theorem sameModX_symm (W : ℚ) (p q : Vec2F) : p.sameModX W q ↔ q.sameModX W p := by
  constructor
  · rintro ⟨h, k, hk⟩
    exact ⟨h.symm, -k, by push_cast; linarith⟩
  · rintro ⟨h, k, hk⟩
    exact ⟨h.symm, -k, by push_cast; linarith⟩

theorem lengthSq_swap (a b : Vec2F) :
    Line2F.lengthSq ⟨b, a⟩ = Line2F.lengthSq ⟨a, b⟩ := by
  simp only [Line2F.lengthSq]
  ring

theorem pfmod_add_mul (a W : ℚ) (j : Int) (hW : 0 < W) :
    pfmod (a + (j : ℚ) * W) W = pfmod a W := by
  obtain ⟨he, h0, h1⟩ := pfmod_pos a W hW
  apply pfmod_unique _ W _ (⌊a / W⌋ + j) hW _ h0 h1
  rw [he]
  push_cast
  ring

/-- The result of `wrapDiffF` is a representative of `a - b` modulo the size,
of magnitude at most half the size. -/
theorem wrapDiffF_repr (a b S : ℚ) (hS : 0 < S) :
    ∃ k : Int, wrapDiffF a b S = a - b + (k : ℚ) * S ∧
      -(S / 2) ≤ wrapDiffF a b S ∧ wrapDiffF a b S ≤ S / 2 := by
  obtain ⟨hde, hd0, hd1⟩ := pfmod_pos (a - b) S hS
  unfold wrapDiffF
  simp only []
  split_ifs with h1
  · refine ⟨-⌊(a - b) / S⌋ - 1, ?_, by linarith, by linarith⟩
    rw [hde]
    push_cast
    ring
  · refine ⟨-⌊(a - b) / S⌋, ?_, by linarith, by linarith⟩
    rw [hde]
    push_cast
    ring

theorem wrapDiffF_copy (a S : ℚ) (j : Int) (hS : 0 < S) :
    wrapDiffF a (a + (j : ℚ) * S) S = 0 := by
  unfold wrapDiffF
  have h0 : pfmod (a - (a + (j : ℚ) * S)) S = 0 := by
    have h := pfmod_add_mul 0 S (-j) hS
    rw [pfmod_id 0 S (le_refl 0) hS] at h
    rw [← h]
    congr 1
    push_cast
    ring
  simp only [h0]
  rw [if_neg (by linarith)]

theorem clampF_range (v lo hi : ℚ) (h : lo ≤ hi) : lo ≤ clampF v lo hi ∧ clampF v lo hi ≤ hi := by
  unfold clampF
  exact ⟨le_min (le_max_right _ _) h, min_le_right _ _⟩

theorem clampF_id (v lo hi : ℚ) (h1 : lo ≤ v) (h2 : v ≤ hi) : clampF v lo hi = v := by
  unfold clampF
  rw [max_eq_left h1, min_eq_left h2]

/-- One wrapping axis of `diffToNearestCoordInBox`: when a copy of `p` lies in
`[lo, hi]`, the nearest coordinate is a copy of `p`. -/
theorem wrap_axis_nearest (S lo hi p : ℚ) (k : Int) (hS : 0 < S)
    (h1 : lo ≤ p + (k : ℚ) * S) (h2 : p + (k : ℚ) * S ≤ hi) :
    wrapDiffF p (clampF (wrapDiffF p ((lo + hi) / 2) S) (lo + (0 - (lo + hi) / 2))
      (hi + (0 - (lo + hi) / 2)) + (lo + hi) / 2) S = 0 := by
  obtain ⟨j, hj, hr0, hr1⟩ := wrapDiffF_repr p ((lo + hi) / 2) S hS
  have hin : lo + (0 - (lo + hi) / 2) ≤ wrapDiffF p ((lo + hi) / 2) S ∧
      wrapDiffF p ((lo + hi) / 2) S ≤ hi + (0 - (lo + hi) / 2) := by
    have hjk : j ≤ k - 1 ∨ j = k ∨ k + 1 ≤ j := by omega
    rcases hjk with h | h | h
    · have hq : (j : ℚ) ≤ (k : ℚ) - 1 := by exact_mod_cast h
      have := mul_le_mul_of_nonneg_right hq (le_of_lt hS)
      constructor <;> linarith
    · subst h
      constructor <;> linarith
    · have hq : (k : ℚ) + 1 ≤ (j : ℚ) := by exact_mod_cast h
      have := mul_le_mul_of_nonneg_right hq (le_of_lt hS)
      constructor <;> linarith
  rw [clampF_id _ _ _ hin.1 hin.2, hj]
  have : p - (lo + hi) / 2 + (j : ℚ) * S + (lo + hi) / 2 = p + (j : ℚ) * S := by ring
  rw [this]
  exact wrapDiffF_copy p S j hS

theorem allIn_add (W : ℚ) (st : PolySplit) (v : Vec2F) (h : st.allIn W)
    (hv : 0 ≤ v.x ∧ v.x ≤ W) : (st.add v).allIn W := by
  unfold PolySplit.add
  split_ifs
  · refine ⟨h.1, ?_⟩
    intro u hu
    simp only [PolyF.add, List.mem_append, List.mem_singleton] at hu
    rcases hu with hu | hu
    · exact h.2 u hu
    · rw [hu]
      exact hv
  · refine ⟨?_, h.2⟩
    intro u hu
    simp only [PolyF.add, List.mem_append, List.mem_singleton] at hu
    rcases hu with hu | hu
    · exact h.1 u hu
    · rw [hu]
      exact hv

theorem allIn_toggle (W : ℚ) (st : PolySplit) (h : st.allIn W) : st.toggle.allIn W := h

theorem has_add (W : ℚ) (st : PolySplit) (v w : Vec2F) (h : st.has W w) :
    (st.add v).has W w := by
  obtain ⟨u, hu, h1, h2⟩ := h
  refine ⟨u, ?_, h1, h2⟩
  unfold PolySplit.add
  split_ifs
  · rcases hu with hu | hu
    · exact Or.inl hu
    · exact Or.inr (by simp [PolyF.add, hu])
  · rcases hu with hu | hu
    · exact Or.inl (by simp [PolyF.add, hu])
    · exact Or.inr hu

theorem has_toggle (W : ℚ) (st : PolySplit) (w : Vec2F) (h : st.has W w) :
    st.toggle.has W w := h

theorem has_add_self (W : ℚ) (st : PolySplit) (v w : Vec2F) (h1 : v.y = w.y)
    (h2 : v.x = w.x ∨ v.x = w.x + W ∨ v.x = w.x - W) : (st.add v).has W w := by
  refine ⟨v, ?_, h1, h2⟩
  unfold PolySplit.add
  split_ifs
  · exact Or.inr (by simp [PolyF.add])
  · exact Or.inl (by simp [PolyF.add])

/-- One step of the walk of `splitPolyX` keeps every collected vertex in
`[0, W]`, keeps the vertices collected before, and collects the start of the
side. -/
theorem splitPolyXStep_inv (isect : Line2F → Line2F → Vec2F) (g : WorldGeometry)
    (st : PolySplit) (seg : Line2F) (hW : (0 : ℚ) < (g.m_size.x : ℚ))
    (h1 : -(g.m_size.x : ℚ) ≤ seg.min.x) (h2 : seg.min.x ≤ 2 * (g.m_size.x : ℚ))
    (h3 : |seg.min.x - seg.max.x| ≤ (g.m_size.x : ℚ)) (hst : st.allIn (g.m_size.x : ℚ)) :
    (g.splitPolyXStep isect st seg).allIn (g.m_size.x : ℚ) ∧
    (∀ w, st.has (g.m_size.x : ℚ) w → (g.splitPolyXStep isect st seg).has (g.m_size.x : ℚ) w) ∧
    (g.splitPolyXStep isect st seg).has (g.m_size.x : ℚ) seg.min := by
  have he := abs_le.mp h3
  have hseam0 : (0 : ℚ) ≤ 0 ∧ (0 : ℚ) ≤ (g.m_size.x : ℚ) := ⟨le_refl _, le_of_lt hW⟩
  have hseamW : (0 : ℚ) ≤ (g.m_size.x : ℚ) ∧ (g.m_size.x : ℚ) ≤ (g.m_size.x : ℚ) :=
    ⟨le_of_lt hW, le_refl _⟩
  unfold WorldGeometry.splitPolyXStep
  simp only []
  split_ifs with c1 c2 c3 c4 c5 c6
  · refine ⟨?_, fun w hw => ?_, ?_⟩
    · exact allIn_add _ _ _ (allIn_toggle _ _ (allIn_add _ _ _ (allIn_add _ _ _ hst
        ⟨by simp only [Vec2F.add]; linarith, by simp only [Vec2F.add]; linarith⟩) hseamW))
        hseam0
    · exact has_add _ _ _ _ (has_toggle _ _ _ (has_add _ _ _ _ (has_add _ _ _ _ hw)))
    · exact has_add _ _ _ _ (has_toggle _ _ _ (has_add _ _ _ _ (has_add_self _ _ _ _
        (by simp [Vec2F.add]) (Or.inr (Or.inl (by simp [Vec2F.add]))))))
  · have hmax : seg.max.x < 0 := by
      by_contra hn
      simp [c2, hn] at c1
    refine ⟨?_, fun w hw => ?_, ?_⟩
    · exact allIn_add _ _ _ (allIn_toggle _ _ (allIn_add _ _ _ (allIn_add _ _ _ hst
        ⟨by linarith, by linarith⟩) hseam0)) hseamW
    · exact has_add _ _ _ _ (has_toggle _ _ _ (has_add _ _ _ _ (has_add _ _ _ _ hw)))
    · exact has_add _ _ _ _ (has_toggle _ _ _ (has_add _ _ _ _ (has_add_self _ _ _ _
        rfl (Or.inl rfl))))
  · refine ⟨?_, fun w hw => ?_, ?_⟩
    · exact allIn_add _ _ _ (allIn_toggle _ _ (allIn_add _ _ _ (allIn_add _ _ _ hst
        ⟨by simp only [Vec2F.sub]; linarith, by simp only [Vec2F.sub]; linarith⟩) hseam0))
        hseamW
    · exact has_add _ _ _ _ (has_toggle _ _ _ (has_add _ _ _ _ (has_add _ _ _ _ hw)))
    · exact has_add _ _ _ _ (has_toggle _ _ _ (has_add _ _ _ _ (has_add_self _ _ _ _
        (by simp [Vec2F.sub]) (Or.inr (Or.inr (by simp [Vec2F.sub]))))))
  · have hmax : seg.max.x > (g.m_size.x : ℚ) := by
      by_contra hn
      simp [c4, hn] at c3
    refine ⟨?_, fun w hw => ?_, ?_⟩
    · exact allIn_add _ _ _ (allIn_toggle _ _ (allIn_add _ _ _ (allIn_add _ _ _ hst
        ⟨by linarith, by linarith⟩) hseamW)) hseam0
    · exact has_add _ _ _ _ (has_toggle _ _ _ (has_add _ _ _ _ (has_add _ _ _ _ hw)))
    · exact has_add _ _ _ _ (has_toggle _ _ _ (has_add _ _ _ _ (has_add_self _ _ _ _
        rfl (Or.inl rfl))))
  · exact ⟨allIn_add _ _ _ hst ⟨by simp only [Vec2F.add]; linarith,
      by simp only [Vec2F.add]; linarith⟩, fun w hw => has_add _ _ _ _ hw,
      has_add_self _ _ _ _ (by simp [Vec2F.add]) (Or.inr (Or.inl (by simp [Vec2F.add])))⟩
  · exact ⟨allIn_add _ _ _ hst ⟨by simp only [Vec2F.sub]; linarith,
      by simp only [Vec2F.sub]; linarith⟩, fun w hw => has_add _ _ _ _ hw,
      has_add_self _ _ _ _ (by simp [Vec2F.sub]) (Or.inr (Or.inr (by simp [Vec2F.sub])))⟩
  · exact ⟨allIn_add _ _ _ hst ⟨by linarith, by linarith⟩, fun w hw => has_add _ _ _ _ hw,
      has_add_self _ _ _ _ rfl (Or.inl rfl)⟩

/-- The walk of `splitPolyX` over a list of sides keeps every collected vertex
in `[0, W]` and collects the start of every side it visits. -/
theorem splitPolyX_fold_inv (isect : Line2F → Line2F → Vec2F) (g : WorldGeometry)
    (poly : PolyF) (hW : (0 : ℚ) < (g.m_size.x : ℚ))
    (hv : ∀ v ∈ poly.vertexes, -(g.m_size.x : ℚ) ≤ v.x ∧ v.x ≤ 2 * (g.m_size.x : ℚ))
    (hext : ∀ u ∈ poly.vertexes, ∀ v ∈ poly.vertexes, u.x - v.x ≤ (g.m_size.x : ℚ)) :
    ∀ (idxs : List Nat) (st : PolySplit), (∀ i ∈ idxs, i < poly.vertexes.length) →
      st.allIn (g.m_size.x : ℚ) →
      (idxs.foldl (fun st i => g.splitPolyXStep isect st (poly.side i)) st).allIn
        (g.m_size.x : ℚ) ∧
      (∀ w, st.has (g.m_size.x : ℚ) w →
        (idxs.foldl (fun st i => g.splitPolyXStep isect st (poly.side i)) st).has
          (g.m_size.x : ℚ) w) ∧
      (∀ i ∈ idxs,
        (idxs.foldl (fun st i => g.splitPolyXStep isect st (poly.side i)) st).has
          (g.m_size.x : ℚ) (poly.vertexes.getD i ⟨0, 0⟩)) := by
  intro idxs
  induction idxs with
  | nil =>
    intro st _ hst
    exact ⟨hst, fun w hw => hw, fun i hi => absurd hi (List.not_mem_nil i)⟩
  | cons a t ih =>
    intro st hidx hst
    have ha : a < poly.vertexes.length := hidx a (List.mem_cons_self a t)
    have hmin := getD_mem poly.vertexes ⟨0, 0⟩ a ha
    have hmax := getD_mem poly.vertexes ⟨0, 0⟩ ((a + 1) % poly.vertexes.length)
      (Nat.mod_lt _ (by omega))
    have hstep := splitPolyXStep_inv isect g st (poly.side a) hW (hv _ hmin).1 (hv _ hmin).2
      (abs_le.mpr ⟨by have := hext _ hmax _ hmin; simp only [PolyF.side]; linarith,
        by have := hext _ hmin _ hmax; simp only [PolyF.side]; linarith⟩) hst
    obtain ⟨h1, h2, h3⟩ := ih (g.splitPolyXStep isect st (poly.side a))
      (fun i hi => hidx i (List.mem_cons_of_mem a hi)) hstep.1
    simp only [List.foldl_cons]
    refine ⟨h1, fun w hw => h2 w (hstep.2.1 w hw), ?_⟩
    intro i hi
    rcases List.mem_cons.mp hi with h | h
    · rw [h]
      exact h2 _ hstep.2.2
    · exact h3 i h

/-! ## Facts about polygon areas -/

theorem lastOr_append (p : Vec2F) (A B : List Vec2F) :
    lastOr p (A ++ B) = lastOr (lastOr p A) B := by
  induction A generalizing p with
  | nil => rfl
  | cons a t ih =>
    show lastOr a (t ++ B) = lastOr (lastOr a t) B
    exact ih a

theorem pathAt_append (c p : Vec2F) (A B : List Vec2F) :
    pathAt c p (A ++ B) = pathAt c p A + pathAt c (lastOr p A) B := by
  induction A generalizing p with
  | nil => simp [pathAt, lastOr]
  | cons a t ih =>
    show crossAt c p a + pathAt c a (t ++ B)
      = crossAt c p a + pathAt c a t + pathAt c (lastOr a t) B
    rw [ih a]
    ring

theorem pathFrom_eq_pathAt (c p : Vec2F) (L : List Vec2F) :
    pathFrom p L = pathAt c p L + c.cross (lastOr p L) - c.cross p := by
  induction L generalizing p with
  | nil => simp [pathFrom, pathAt, lastOr]
  | cons a t ih =>
    simp only [pathFrom, pathAt, lastOr, ih a, crossAt, Vec2F.cross, Vec2F.sub]
    ring

theorem crossAt_self_left (c q : Vec2F) : crossAt c c q = 0 := by
  simp [crossAt, Vec2F.cross, Vec2F.sub]

theorem crossAt_self_right (c p : Vec2F) : crossAt c p c = 0 := by
  simp [crossAt, Vec2F.cross, Vec2F.sub]

theorem crossAt_seam (c p q : Vec2F) (hp : p.x = c.x) (hq : q.x = c.x) : crossAt c p q = 0 := by
  simp [crossAt, Vec2F.cross, Vec2F.sub, hp, hq]

/-- The shoelace sum of a non-empty vertex list, seen from any reference
point: the path sum from the reference point plus the closing term. -/
theorem shoelace_eq_pathAt (c a : Vec2F) (t : List Vec2F) :
    PolyF.shoelace ⟨a :: t⟩ = pathAt c c (a :: t) + crossAt c (lastOr c (a :: t)) a := by
  simp only [PolyF.shoelace]
  rw [pathFrom_eq_pathAt c a (t ++ [a]), lastOr_append, pathAt_append]
  simp only [lastOr, pathAt, crossAt_self_left]
  ring

theorem seamChain_succ (ins : Nat → Bool) (a X : Nat → Vec2F) (m : Nat) :
    seamChain ins a X (m + 1) = seamChain ins a X m ++ seamPiece ins a X m := by
  simp [seamChain, List.range_succ, List.flatMap_append]

/-- Invariant of the vertices collected on one side of the seam: the path sum
seen from a seam point `c`, closed towards the next vertex on that side,
equals the sum of the clipped cross products of the sides visited. -/
theorem seamChain_inv (c : Vec2F) (ins : Nat → Bool) (a X : Nat → Vec2F)
    (hX : ∀ k, (X k).x = c.x) : ∀ m : Nat,
    (pathAt c c (seamChain ins a X m)
        + crossAt c (lastOr c (seamChain ins a X m)) (if ins m then a m else c)
      = ((List.range m).map (seamClip c ins a X)).sum) ∧
    (ins m = false → (lastOr c (seamChain ins a X m)).x = c.x) ∧
    (∀ h, (seamChain ins a X m).head? = some h →
      (ins 0 = true → h = a 0) ∧ (ins 0 = false → h.x = c.x)) ∧
    (seamChain ins a X m = [] → ins m = ins 0 ∧ (ins 0 = true → m = 0)) := by
  intro m
  induction m with
  | zero =>
    refine ⟨?_, fun _ => ?_, fun h hh => ?_, fun _ => ⟨rfl, fun _ => rfl⟩⟩
    · simp [seamChain, pathAt, lastOr, crossAt_self_left]
    · simp [seamChain, lastOr]
    · simp [seamChain] at hh
  | succ m ih =>
    obtain ⟨i1, i2, i3, i4⟩ := ih
    rw [seamChain_succ]
    have hsum : ((List.range (m + 1)).map (seamClip c ins a X)).sum
        = ((List.range m).map (seamClip c ins a X)).sum + seamClip c ins a X m := by
      simp [List.range_succ]
    rw [hsum, ← i1, pathAt_append, lastOr_append]
    have hhead : ∀ h, (seamChain ins a X m ++ seamPiece ins a X m).head? = some h →
        (seamChain ins a X m).head? = some h ∨
        (seamChain ins a X m = [] ∧ (seamPiece ins a X m).head? = some h) := by
      intro h hh
      cases hC : seamChain ins a X m with
      | nil =>
        rw [hC] at hh
        exact Or.inr ⟨rfl, by simpa using hh⟩
      | cons b t =>
        rw [hC] at hh
        exact Or.inl (by simpa using hh)
    cases hm : ins m <;> cases hm1 : ins (m + 1)
    · have hP : seamPiece ins a X m = [] := by simp [seamPiece, hm, hm1]
      rw [hP]
      refine ⟨?_, fun _ => ?_, fun h hh => ?_, fun hC => ?_⟩
      · simp [pathAt, lastOr, seamClip, hm, hm1, crossAt_self_right]
      · simpa [lastOr] using i2 hm
      · rw [List.append_nil] at hh
        exact i3 h hh
      · rw [List.append_nil] at hC
        obtain ⟨h1, h2⟩ := i4 hC
        rw [hm] at h1
        exact ⟨h1, fun h0 => by rw [h0] at h1; exact absurd h1 (by decide)⟩
    · have hP : seamPiece ins a X m = [X m] := by simp [seamPiece, hm, hm1]
      rw [hP]
      refine ⟨?_, fun hc => absurd hc (by simp), fun h hh => ?_, fun hC => ?_⟩
      · simp only [pathAt, lastOr, seamClip, hm, hm1, if_true, Bool.false_eq_true, if_false,
          crossAt_self_right, crossAt_seam c _ _ (i2 hm) (hX m)]
        ring
      · rcases hhead h (by rw [hP] at *; exact hh) with h1 | ⟨hC, h1⟩
        · exact i3 h h1
        · obtain ⟨h2, _⟩ := i4 hC
          rw [hm] at h2
          simp only [hP, List.head?_cons, Option.some.injEq] at h1
          refine ⟨fun h0 => by rw [h0] at h2; exact absurd h2 (by decide), fun _ => ?_⟩
          rw [← h1]
          exact hX m
      · simp at hC
    · have hP : seamPiece ins a X m = [a m, X m] := by simp [seamPiece, hm, hm1]
      rw [hP]
      refine ⟨?_, fun _ => ?_, fun h hh => ?_, fun hC => ?_⟩
      · simp only [pathAt, lastOr, seamClip, hm, hm1, if_true, Bool.false_eq_true, if_false,
          crossAt_self_right]
        ring
      · simpa [lastOr] using hX m
      · rcases hhead h (by rw [hP] at *; exact hh) with h1 | ⟨hC, h1⟩
        · exact i3 h h1
        · obtain ⟨h2, h3⟩ := i4 hC
          rw [hm] at h2
          simp only [hP, List.head?_cons, Option.some.injEq] at h1
          refine ⟨fun h0 => ?_, fun h0 => by rw [h0] at h2; exact absurd h2 (by decide)⟩
          have := h3 h0
          subst this
          exact h1.symm
      · simp at hC
    · have hP : seamPiece ins a X m = [a m] := by simp [seamPiece, hm, hm1]
      rw [hP]
      refine ⟨?_, fun hc => absurd hc (by simp), fun h hh => ?_, fun hC => ?_⟩
      · simp only [pathAt, lastOr, seamClip, hm, hm1, if_true]
        ring
      · rcases hhead h (by rw [hP] at *; exact hh) with h1 | ⟨hC, h1⟩
        · exact i3 h h1
        · obtain ⟨h2, h3⟩ := i4 hC
          rw [hm] at h2
          simp only [hP, List.head?_cons, Option.some.injEq] at h1
          refine ⟨fun h0 => ?_, fun h0 => by rw [h0] at h2; exact absurd h2 (by decide)⟩
          have := h3 h0
          subst this
          exact h1.symm
      · simp at hC

/-- The shoelace sum of the vertices collected on one side of the seam over a
whole walk (`ins n = ins 0`, `a n = a 0`) is the sum of the clipped cross
products, seen from a seam point. -/
theorem seamChain_shoelace (c : Vec2F) (ins : Nat → Bool) (a X : Nat → Vec2F)
    (hX : ∀ k, (X k).x = c.x) (n : Nat) (hins : ins n = ins 0) (ha : a n = a 0)
    (hne : seamChain ins a X n ≠ []) :
    PolyF.shoelace ⟨seamChain ins a X n⟩ = ((List.range n).map (seamClip c ins a X)).sum := by
  obtain ⟨i1, i2, i3, _⟩ := seamChain_inv c ins a X hX n
  cases hC : seamChain ins a X n with
  | nil => exact absurd hC hne
  | cons b t =>
    rw [hC] at i1 i2 i3
    rw [shoelace_eq_pathAt c b t, ← i1]
    obtain ⟨h1, h2⟩ := i3 b rfl
    cases h0 : ins 0
    · rw [hins, h0]
      simp only [Bool.false_eq_true, if_false, crossAt_self_right]
      rw [crossAt_seam c _ _ (i2 (by rw [hins, h0])) (h2 h0)]
    · rw [hins, h0, ha, h1 h0]
      simp

theorem side_eq_vtx (p : PolyF) (m : Nat) (hm : m < p.vertexes.length) :
    p.side m = ⟨p.vtx m, p.vtx (m + 1)⟩ := by
  simp [PolyF.side, PolyF.vtx, Nat.mod_eq_of_lt hm]

theorem vtx_mem (p : PolyF) (k : Nat) (hn : 0 < p.vertexes.length) : p.vtx k ∈ p.vertexes :=
  getD_mem p.vertexes ⟨0, 0⟩ _ (Nat.mod_lt _ hn)

/-- The walk of `splitPolyX` over the sides `0 .. m-1` of a polygon whose
vertices all have `x ≤ W`: the accumulator of the side of vertex 0 and the
other accumulator hold the vertices collected on the two sides of the seam,
and the selector tells whether vertex `m` is on the side of vertex 0. -/
theorem splitPolyX_fold_chains (isect : Line2F → Line2F → Vec2F) (g : WorldGeometry)
    (poly : PolyF) (hlt : ∀ v ∈ poly.vertexes, v.x ≤ (g.m_size.x : ℚ)) :
    ∀ m, m ≤ poly.vertexes.length →
      (List.range m).foldl (fun st i => g.splitPolyXStep isect st (poly.side i))
          ⟨⟨[]⟩, ⟨[]⟩, false⟩
        = if poly.isNeg 0 then
            ⟨⟨poly.negChain isect g.m_size.x m⟩, ⟨poly.posChain isect m⟩, !poly.isNeg m⟩
          else ⟨⟨poly.posChain isect m⟩, ⟨poly.negChain isect g.m_size.x m⟩, poly.isNeg m⟩ := by
  intro m
  induction m with
  | zero =>
    intro _
    cases h0 : poly.isNeg 0 <;> simp [PolyF.posChain, PolyF.negChain, seamChain, h0]
  | succ m ih =>
    intro hm
    have hm2 : m < poly.vertexes.length := by omega
    have hn : 0 < poly.vertexes.length := by omega
    rw [List.range_succ, List.foldl_append, ih (by omega)]
    simp only [List.foldl_cons, List.foldl_nil]
    rw [side_eq_vtx poly m hm2]
    have hA := hlt _ (vtx_mem poly m hn)
    have hB := hlt _ (vtx_mem poly (m + 1) hn)
    have hy : (isect ⟨poly.vtx m, poly.vtx (m + 1)⟩ ⟨⟨0, 0⟩, ⟨0, 1⟩⟩).y
        = poly.seamY isect m := by
      simp [PolyF.seamY, side_eq_vtx poly m hm2]
    have hpos : poly.posChain isect (m + 1) = poly.posChain isect m
        ++ seamPiece (fun k => !poly.isNeg k) poly.vtx (fun k => ⟨0, poly.seamY isect k⟩) m :=
      seamChain_succ _ _ _ m
    have hneg : poly.negChain isect g.m_size.x (m + 1) = poly.negChain isect g.m_size.x m
        ++ seamPiece poly.isNeg (fun k => (poly.vtx k).add ⟨g.m_size.x, 0⟩)
          (fun k => ⟨g.m_size.x, poly.seamY isect k⟩) m :=
      seamChain_succ _ _ _ m
    rw [hpos, hneg]
    cases h0 : poly.isNeg 0 <;> cases ha : poly.isNeg m <;> cases hb : poly.isNeg (m + 1) <;>
      simp only [PolyF.isNeg, decide_eq_true_eq, decide_eq_false_iff_not] at ha hb <;>
      simp [WorldGeometry.splitPolyXStep, PolySplit.add, PolySplit.toggle, PolyF.add,
        seamPiece, PolyF.isNeg, ha, hb, hy, not_lt.mpr hA, not_lt.mpr hB]

theorem seamChain_ne_nil (ins : Nat → Bool) (a X : Nat → Vec2F) (m k : Nat) (hk : k < m)
    (hin : ins k = true) : seamChain ins a X m ≠ [] := by
  intro h
  have hmem : a k ∈ seamChain ins a X m := by
    unfold seamChain
    rw [List.mem_flatMap]
    refine ⟨k, List.mem_range.mpr hk, ?_⟩
    simp only [seamPiece, hin, if_true]
    split_ifs <;> simp
  rw [h] at hmem
  exact absurd hmem (List.not_mem_nil _)

theorem seamChain_all_inside (a X : Nat → Vec2F) (m : Nat) :
    seamChain (fun _ => true) a X m = (List.range m).map a := by
  induction m with
  | zero => simp [seamChain]
  | succ m ih => simp [seamChain_succ, ih, seamPiece, List.range_succ]

theorem vtx_range (p : PolyF) : (List.range p.vertexes.length).map p.vtx = p.vertexes := by
  have h : (List.range p.vertexes.length).map p.vtx
      = (List.range p.vertexes.length).map (fun i => p.vertexes.getD i ⟨0, 0⟩) := by
    apply List.map_congr_left
    intro i hi
    simp [PolyF.vtx, Nat.mod_eq_of_lt (List.mem_range.mp hi)]
  rw [h, map_getD_range]

/-- Sums over the sides of a walk: clipped parts that add up termwise and have
one sign add up in total and keep that sign. -/
theorem sum_range_split (f1 f2 f : Nat → ℚ) (σ : ℚ) (m : Nat)
    (H : ∀ k < m, f1 k + f2 k = f k ∧ 0 ≤ σ * f1 k ∧ 0 ≤ σ * f2 k) :
    ((List.range m).map f1).sum + ((List.range m).map f2).sum = ((List.range m).map f).sum ∧
    0 ≤ σ * ((List.range m).map f1).sum ∧ 0 ≤ σ * ((List.range m).map f2).sum := by
  induction m with
  | zero => simp
  | succ m ih =>
    obtain ⟨h1, h2, h3⟩ := ih (fun k hk => H k (by omega))
    obtain ⟨e1, e2, e3⟩ := H m (by omega)
    simp only [List.range_succ, List.map_append, List.map_cons, List.map_nil, List.sum_append,
      List.sum_cons, List.sum_nil, add_zero]
    refine ⟨by linarith, ?_, ?_⟩
    · rw [mul_add]
      linarith
    · rw [mul_add]
      linarith

/-- The two clipped parts of one side, right of the seam and left of it (moved
by `W`), add up to the cross product of the side, and keep its sign. -/
theorem clip_split (c A B : Vec2F) (W iy σ : ℚ) (hK : 0 ≤ σ * crossAt c A B)
    (hiy : A.x ≠ B.x → (iy - A.y) * (B.x - A.x) = (0 - A.x) * (B.y - A.y)) :
    (A.x < 0 → B.x < 0 →
      crossAt ⟨c.x + W, c.y⟩ (A.add ⟨W, 0⟩) (B.add ⟨W, 0⟩) = crossAt c A B) ∧
    (A.x < 0 → ¬ B.x < 0 →
      crossAt c ⟨0, iy⟩ B + crossAt ⟨c.x + W, c.y⟩ (A.add ⟨W, 0⟩) ⟨W, iy⟩ = crossAt c A B ∧
      0 ≤ σ * crossAt c ⟨0, iy⟩ B ∧
      0 ≤ σ * crossAt ⟨c.x + W, c.y⟩ (A.add ⟨W, 0⟩) ⟨W, iy⟩) ∧
    (¬ A.x < 0 → B.x < 0 →
      crossAt c A ⟨0, iy⟩ + crossAt ⟨c.x + W, c.y⟩ ⟨W, iy⟩ (B.add ⟨W, 0⟩) = crossAt c A B ∧
      0 ≤ σ * crossAt c A ⟨0, iy⟩ ∧
      0 ≤ σ * crossAt ⟨c.x + W, c.y⟩ ⟨W, iy⟩ (B.add ⟨W, 0⟩)) := by
  refine ⟨fun _ _ => ?_, fun hA hB => ?_, fun hA hB => ?_⟩
  · simp only [crossAt, Vec2F.cross, Vec2F.sub, Vec2F.add]
    ring
  · have hD : 0 < B.x - A.x := by linarith [not_lt.mp hB]
    have hne : A.x ≠ B.x := by
      intro h
      linarith
    have hy : iy = A.y + (0 - A.x) / (B.x - A.x) * (B.y - A.y) := by
      have := hiy hne
      field_simp
      linarith
    have ht0 : 0 ≤ (0 - A.x) / (B.x - A.x) := div_nonneg (by linarith) (le_of_lt hD)
    have ht1 : (0 - A.x) / (B.x - A.x) ≤ 1 := (div_le_one hD).mpr (by linarith [not_lt.mp hB])
    have e1 : crossAt c ⟨0, iy⟩ B = (1 - (0 - A.x) / (B.x - A.x)) * crossAt c A B := by
      simp only [crossAt, Vec2F.cross, Vec2F.sub]
      rw [hy]
      field_simp
      ring
    have e2 : crossAt ⟨c.x + W, c.y⟩ (A.add ⟨W, 0⟩) ⟨W, iy⟩
        = (0 - A.x) / (B.x - A.x) * crossAt c A B := by
      simp only [crossAt, Vec2F.cross, Vec2F.sub, Vec2F.add]
      rw [hy]
      field_simp
      ring
    refine ⟨by rw [e1, e2]; ring, ?_, ?_⟩
    · rw [e1]
      have := mul_nonneg (by linarith : 0 ≤ 1 - (0 - A.x) / (B.x - A.x)) hK
      linarith
    · rw [e2]
      have := mul_nonneg ht0 hK
      linarith
  · have hD : 0 < A.x - B.x := by linarith [not_lt.mp hA]
    have hne : A.x ≠ B.x := by
      intro h
      linarith
    have hne2 : B.x - A.x ≠ 0 := by
      intro h
      exact hne (by linarith)
    have hy : iy = A.y + (0 - A.x) / (B.x - A.x) * (B.y - A.y) := by
      have := hiy hne
      field_simp
      linarith
    have ht0 : 0 ≤ (0 - A.x) / (B.x - A.x) :=
      div_nonneg_of_nonpos (by linarith [not_lt.mp hA]) (by linarith)
    have ht1 : (0 - A.x) / (B.x - A.x) ≤ 1 := by
      rw [div_le_one_iff]
      right
      right
      exact ⟨by linarith, by linarith⟩
    have e1 : crossAt c A ⟨0, iy⟩ = (0 - A.x) / (B.x - A.x) * crossAt c A B := by
      simp only [crossAt, Vec2F.cross, Vec2F.sub]
      rw [hy]
      field_simp
      ring
    have e2 : crossAt ⟨c.x + W, c.y⟩ ⟨W, iy⟩ (B.add ⟨W, 0⟩)
        = (1 - (0 - A.x) / (B.x - A.x)) * crossAt c A B := by
      simp only [crossAt, Vec2F.cross, Vec2F.sub, Vec2F.add]
      rw [hy]
      field_simp
      ring
    refine ⟨by rw [e1, e2]; ring, ?_, ?_⟩
    · rw [e1]
      have := mul_nonneg ht0 hK
      linarith
    · rw [e2]
      have := mul_nonneg (by linarith : 0 ≤ 1 - (0 - A.x) / (B.x - A.x)) hK
      linarith

/-! ## Claims -/

/-- C1: on a wrapping x axis of width `W > 0`, `xwrap x` returns a value `r`
with `0 ≤ r < W` that is congruent to `x` modulo `W` (for negative `x` too);
the same holds for `ywrap` with the height; on a non-wrapping axis both
return their argument unchanged. -/
theorem xwrap_ywrap_range_congr (g : WorldGeometry) (v : Int) :
    (g.m_xWrap = true → 0 < g.width →
      ∃ r, g.xwrap v = some r ∧ 0 ≤ r ∧ r < g.width ∧ (g.width : Int) ∣ (r - v)) ∧
    (g.m_yWrap = true → 0 < g.height →
      ∃ r, g.ywrap v = some r ∧ 0 ≤ r ∧ r < g.height ∧ (g.height : Int) ∣ (r - v)) ∧
    (g.m_xWrap = false → g.xwrap v = some v) ∧
    (g.m_yWrap = false → g.ywrap v = some v) := by
  refine ⟨?_, ?_, ?_, ?_⟩
  · intro hw hpos
    have hW : (0 : Int) < (g.width : Int) := by exact_mod_cast hpos
    refine ⟨v % (g.width : Int), xwrap_of_wrap g v hw hpos, Int.emod_nonneg _ (ne_of_gt hW),
      Int.emod_lt_of_pos _ hW, ?_⟩
    exact ⟨-(v / (g.width : Int)), by have := Int.emod_add_ediv v (g.width : Int); linarith⟩
  · intro hw hpos
    have hH : (0 : Int) < (g.height : Int) := by exact_mod_cast hpos
    refine ⟨v % (g.height : Int), ywrap_of_wrap g v hw hpos, Int.emod_nonneg _ (ne_of_gt hH),
      Int.emod_lt_of_pos _ hH, ?_⟩
    exact ⟨-(v / (g.height : Int)), by have := Int.emod_add_ediv v (g.height : Int); linarith⟩
  · intro hw
    simp [WorldGeometry.xwrap, hw]
  · intro hw
    simp [WorldGeometry.ywrap, hw]

/-- Witness for C1 on the 100 x 100 world wrapping on x, at `x = -7`. -/
theorem xwrap_ywrap_range_congr_witness :
    ∃ r, (WorldGeometry.ofWidthHeight 100 100).xwrap (-7) = some r ∧ 0 ≤ r ∧
      r < (WorldGeometry.ofWidthHeight 100 100).width ∧
      (((WorldGeometry.ofWidthHeight 100 100).width : Nat) : Int) ∣ (r - (-7)) :=
  (xwrap_ywrap_range_congr (WorldGeometry.ofWidthHeight 100 100) (-7)).1 (by decide) (by decide)

/-- C2: on a wrapping x axis of width `W > 0`, `xdiff a b` returns a
representative `d` of `a - b` modulo `W` (`d - (a - b)` is a multiple of `W`)
with `2 * |d| ≤ W`. -/
theorem xdiff_repr_half_width (g : WorldGeometry) (a b : Int)
    (hw : g.m_xWrap = true) (hpos : 0 < g.width) :
    ∃ d, g.xdiff a b = some d ∧ (g.width : Int) ∣ (d - (a - b)) ∧
      2 * |d| ≤ (g.width : Int) := by
  obtain ⟨d, k, hd, hk, hb⟩ := wrapDiff_repr a b _ (width_cast_pos g hpos)
  refine ⟨d, by rw [xdiff_of_wrap g a b hw, hd], ⟨k, ?_⟩, hb⟩
  rw [hk]
  unfold WorldGeometry.width
  ring

/-- Witness for C2 on the 100 x 100 world wrapping on x, at `a = 250`,
`b = -30`. -/
theorem xdiff_repr_half_width_witness :
    ∃ d, (WorldGeometry.ofWidthHeight 100 100).xdiff 250 (-30) = some d ∧
      (((WorldGeometry.ofWidthHeight 100 100).width : Nat) : Int) ∣ (d - (250 - (-30))) ∧
      2 * |d| ≤ (((WorldGeometry.ofWidthHeight 100 100).width : Nat) : Int) :=
  xdiff_repr_half_width (WorldGeometry.ofWidthHeight 100 100) 250 (-30) (by decide) (by decide)

/-- C4, as stated, fails: on the 100 x 100 world wrapping on x,
`xdiff 230 0 = 30`, which is none of `230`, `330`, `130`. -/
theorem xdiff_not_among_three_candidates :
    (WorldGeometry.ofWidthHeight 100 100).xdiff 230 0 = some 30 ∧
    ¬ ∃ d : Int, (WorldGeometry.ofWidthHeight 100 100).xdiff 230 0 = some d ∧
      (d = 230 - 0 ∨ d = 230 - 0 + 100 ∨ d = 230 - 0 - 100) := by
  have h : (WorldGeometry.ofWidthHeight 100 100).xdiff 230 0 = some 30 := by decide
  refine ⟨h, ?_⟩
  rintro ⟨d, hd, hcase⟩
  rw [h] at hd
  have hd30 : d = 30 := (Option.some.inj hd).symm
  omega

/-- C4, amended: on a wrapping x axis of width `W > 0`, for all integers `a`,
`b` with `2 * |a - b| < 3 * W` (which covers all `a`, `b` inside `[0, W)`),
`xdiff a b` is a member of `{a - b, a - b + W, a - b - W}` and no member of
that set has a smaller absolute value. On the 100 x 100 world wrapping on x
only, `xdiff 5 95 = 10` and `xdiff 95 5 = -10`. -/
theorem xdiff_min_of_three (g : WorldGeometry) (a b : Int)
    (hw : g.m_xWrap = true) (hpos : 0 < g.width)
    (hnear : 2 * |a - b| < 3 * (g.width : Int)) :
    (∃ d, g.xdiff a b = some d ∧
      (d = a - b ∨ d = a - b + g.width ∨ d = a - b - g.width) ∧
      |d| ≤ |a - b| ∧ |d| ≤ |a - b + g.width| ∧ |d| ≤ |a - b - g.width|) ∧
    (WorldGeometry.ofWidthHeight 100 100).xdiff 5 95 = some 10 ∧
    (WorldGeometry.ofWidthHeight 100 100).xdiff 95 5 = some (-10) := by
  refine ⟨?_, by decide, by decide⟩
  have hW := width_cast_pos g hpos
  obtain ⟨d, k, hd, hk, hb⟩ := wrapDiff_repr a b _ hW
  have hWw : (g.width : Int) = (g.m_size.x : Int) := rfl
  rw [hWw] at hnear ⊢
  have hm := abs_le_abs_add_mul d _ hb
  refine ⟨d, by rw [xdiff_of_wrap g a b hw, hd], ?_, ?_, ?_, ?_⟩
  · have hk1 : -2 < k ∧ k < 2 := by
      have h1 := abs_le.mp (le_refl |d|)
      have h2 := abs_le.mp (le_refl |a - b|)
      constructor
      · by_contra hc
        have : k * (g.m_size.x : Int) ≤ -2 * (g.m_size.x : Int) := by nlinarith
        linarith [h1.1, h1.2, h2.1, h2.2]
      · by_contra hc
        have : 2 * (g.m_size.x : Int) ≤ k * (g.m_size.x : Int) := by nlinarith
        linarith [h1.1, h1.2, h2.1, h2.2]
    have hk3 : k = -1 ∨ k = 0 ∨ k = 1 := by omega
    rcases hk3 with h | h | h <;> subst h
    · right; right; rw [hk]; ring
    · left; rw [hk]; ring
    · right; left; rw [hk]; ring
  · have := hm (-k)
    rwa [show d + -k * (g.m_size.x : Int) = a - b by rw [hk]; ring] at this
  · have := hm (-k + 1)
    rwa [show d + (-k + 1) * (g.m_size.x : Int) = a - b + (g.m_size.x : Int) by
      rw [hk]; ring] at this
  · have := hm (-k - 1)
    rwa [show d + (-k - 1) * (g.m_size.x : Int) = a - b - (g.m_size.x : Int) by
      rw [hk]; ring] at this

/-- Witness for the amended C4 on the 100 x 100 world wrapping on x, at
`a = 130`, `b = -10`. -/
theorem xdiff_min_of_three_witness :
    ∃ d, (WorldGeometry.ofWidthHeight 100 100).xdiff 130 (-10) = some d ∧
      (d = 130 - (-10) ∨
        d = 130 - (-10) + (((WorldGeometry.ofWidthHeight 100 100).width : Nat) : Int) ∨
        d = 130 - (-10) - (((WorldGeometry.ofWidthHeight 100 100).width : Nat) : Int)) ∧
      |d| ≤ |130 - (-10)| ∧
      |d| ≤ |130 - (-10) + (((WorldGeometry.ofWidthHeight 100 100).width : Nat) : Int)| ∧
      |d| ≤ |130 - (-10) - (((WorldGeometry.ofWidthHeight 100 100).width : Nat) : Int)| :=
  (xdiff_min_of_three (WorldGeometry.ofWidthHeight 100 100) 130 (-10) (by decide) (by decide)
    (by decide)).1

/-- C5 fails on the code: with x size 0 and the x wrap flag stored as true by
the three-argument constructor, `xwrap`, `xpdiff` and `xdiff` all reach the
modulo by the zero size and produce no result, for every argument; likewise
`ywrap`, `ypdiff` and `ydiff` with y size 0 and the y flag true. Only `xlimit`
and `ylimit`, which test the size first, return their argument. -/
theorem zero_size_wrap_reaches_zero_modulus (n : Nat) (flag : Bool) (x a b : Int) :
    (WorldGeometry.ofSizeWrap ⟨0, n⟩ true flag).xwrap x = none ∧
    (WorldGeometry.ofSizeWrap ⟨0, n⟩ true flag).xpdiff a b = none ∧
    (WorldGeometry.ofSizeWrap ⟨0, n⟩ true flag).xdiff a b = none ∧
    (WorldGeometry.ofSizeWrap ⟨n, 0⟩ flag true).ywrap x = none ∧
    (WorldGeometry.ofSizeWrap ⟨n, 0⟩ flag true).ypdiff a b = none ∧
    (WorldGeometry.ofSizeWrap ⟨n, 0⟩ flag true).ydiff a b = none ∧
    (WorldGeometry.ofSizeWrap ⟨0, n⟩ true flag).xlimit x = some x ∧
    (WorldGeometry.ofSizeWrap ⟨n, 0⟩ flag true).ylimit x = some x := by
  simp [WorldGeometry.ofSizeWrap, WorldGeometry.xwrap, WorldGeometry.xpdiff,
    WorldGeometry.xdiff, WorldGeometry.ywrap, WorldGeometry.ypdiff, WorldGeometry.ydiff,
    WorldGeometry.xlimit, WorldGeometry.ylimit, pmod, wrapDiff]

/-- C6: on a wrapping x axis of width `W > 0`, `nearestToX source target`
returns `target + k * W` for some integer `k`, and no `target + j * W` is
closer to `source`; on a non-wrapping axis it returns `target`. -/
theorem nearestToX_closest_repr (g : WorldGeometry) (source target : Int) :
    (g.m_xWrap = true → 0 < g.width →
      ∃ r, g.nearestToX source target = some r ∧
        (∃ k : Int, r = target + k * (g.width : Int)) ∧
        ∀ j : Int, |r - source| ≤ |target + j * (g.width : Int) - source|) ∧
    (g.m_xWrap = false → g.nearestToX source target = some target) := by
  constructor
  · intro hw hpos
    have hW := width_cast_pos g hpos
    have hWw : (g.width : Int) = (g.m_size.x : Int) := rfl
    rw [hWw]
    by_cases hc : |target - source| < ((g.m_size.x / 2 : Nat) : Int)
    · refine ⟨target, ?_, ⟨0, by ring⟩, ?_⟩
      · rw [WorldGeometry.nearestToX, decide_eq_true hc]
        simp
      · intro j
        have hb : 2 * |target - source| ≤ (g.m_size.x : Int) := by omega
        have := abs_le_abs_add_mul _ _ hb j
        rwa [show target - source + j * (g.m_size.x : Int)
          = target + j * (g.m_size.x : Int) - source by ring] at this
    · obtain ⟨d, k, hd, hk, hb⟩ := wrapDiff_repr target source _ hW
      refine ⟨d + source, ?_, ⟨k, by rw [hk]; ring⟩, ?_⟩
      · rw [WorldGeometry.nearestToX, decide_eq_false hc, xdiff_of_wrap g target source hw, hd]
        simp [hw]
      · intro j
        have := abs_le_abs_add_mul _ _ hb (j - k)
        rw [show d + (j - k) * (g.m_size.x : Int)
          = target + j * (g.m_size.x : Int) - source by rw [hk]; ring] at this
        rwa [show d + source - source = d by ring]
  · intro hw
    simp [WorldGeometry.nearestToX, hw]

/-- Witness for C6 on the 100 x 100 world wrapping on x: from source 5 the
nearest copy of target 95 is found. -/
theorem nearestToX_closest_repr_witness :
    ∃ r, (WorldGeometry.ofWidthHeight 100 100).nearestToX 5 95 = some r ∧
      (∃ k : Int, r = 95 + k * (((WorldGeometry.ofWidthHeight 100 100).width : Nat) : Int)) ∧
      ∀ j : Int, |r - 5| ≤
        |95 + j * (((WorldGeometry.ofWidthHeight 100 100).width : Nat) : Int) - 5| :=
  (nearestToX_closest_repr (WorldGeometry.ofWidthHeight 100 100) 5 95).1 (by decide) (by decide)

/-- C7: on a wrapping x axis of width `W > 0`, `xpdiff a b` returns `p` with
`0 ≤ p < W` and `xwrap (b + p) = xwrap a`: the rightward distance from `b` to
`a` modulo `W`. -/
theorem xpdiff_range_rightward (g : WorldGeometry) (a b : Int)
    (hw : g.m_xWrap = true) (hpos : 0 < g.width) :
    ∃ p, g.xpdiff a b = some p ∧ 0 ≤ p ∧ p < (g.width : Int) ∧
      g.xwrap (b + p) = g.xwrap a := by
  have hW := width_cast_pos g hpos
  have hWw : (g.width : Int) = (g.m_size.x : Int) := rfl
  refine ⟨(a - b) % (g.m_size.x : Int), ?_, Int.emod_nonneg _ (ne_of_gt hW), ?_, ?_⟩
  · simp [WorldGeometry.xpdiff, hw, pmod_pos _ _ hW]
  · rw [hWw]
    exact Int.emod_lt_of_pos _ hW
  · rw [xwrap_of_wrap g _ hw hpos, xwrap_of_wrap g _ hw hpos, hWw, Int.add_emod_emod]
    congr 2
    ring

/-- Witness for C7 on the 100 x 100 world wrapping on x, at `a = 5`,
`b = 95`. -/
theorem xpdiff_range_rightward_witness :
    ∃ p, (WorldGeometry.ofWidthHeight 100 100).xpdiff 5 95 = some p ∧ 0 ≤ p ∧
      p < (((WorldGeometry.ofWidthHeight 100 100).width : Nat) : Int) ∧
      (WorldGeometry.ofWidthHeight 100 100).xwrap (95 + p)
        = (WorldGeometry.ofWidthHeight 100 100).xwrap 5 :=
  xpdiff_range_rightward (WorldGeometry.ofWidthHeight 100 100) 5 95 (by decide) (by decide)

/-- C8: with width `W > 0`, `xlimit x = xwrap x` when the x axis wraps, and
when it does not wrap `xlimit x` is `x` clamped into `[0, W]` (0 below 0, `W`
above `W`, `x` otherwise); in both cases `xlimit` applied to its own result
returns that result. -/
theorem xlimit_wrap_or_clamp_idem (g : WorldGeometry) (x : Int) (hpos : 0 < g.width) :
    (g.m_xWrap = true → g.xlimit x = g.xwrap x) ∧
    (g.m_xWrap = false →
      g.xlimit x = some (if x < 0 then 0 else if x > (g.width : Int) then (g.width : Int)
        else x)) ∧
    (∃ r, g.xlimit x = some r ∧ g.xlimit r = some r) := by
  have hW := width_cast_pos g hpos
  have hne : g.m_size.x ≠ 0 := by
    intro h
    rw [h] at hW
    exact lt_irrefl _ hW
  have hWw : (g.width : Int) = (g.m_size.x : Int) := rfl
  rw [hWw]
  refine ⟨?_, ?_, ?_⟩
  · intro hw
    simp [WorldGeometry.xlimit, WorldGeometry.xwrap, hw, hne]
  · intro hw
    simp only [WorldGeometry.xlimit, hw, hne, if_false, Bool.not_false, if_true, clamp]
    congr 1
    split_ifs <;> omega
  · cases hw : g.m_xWrap
    · refine ⟨clamp x 0 (g.m_size.x : Int), by simp [WorldGeometry.xlimit, hw, hne], ?_⟩
      simp only [WorldGeometry.xlimit, hw, hne, if_false, Bool.not_false, if_true, clamp]
      congr 1
      omega
    · refine ⟨x % (g.m_size.x : Int), by simp [WorldGeometry.xlimit, hw, hne, pmod_pos _ _ hW],
        ?_⟩
      simp [WorldGeometry.xlimit, hw, hne, pmod_pos _ _ hW]

/-- Witness for C8 on the non-wrapping 100 x 100 world, at `x = 250`. -/
theorem xlimit_wrap_or_clamp_idem_witness :
    ∃ r, (WorldGeometry.ofSizeWrap ⟨100, 100⟩ false false).xlimit 250 = some r ∧
      (WorldGeometry.ofSizeWrap ⟨100, 100⟩ false false).xlimit r = some r :=
  (xlimit_wrap_or_clamp_idem (WorldGeometry.ofSizeWrap ⟨100, 100⟩ false false) 250
    (by decide)).2.2

/-- C9: when every wrapping axis has positive size (in each of the four wrap
configurations), `wrap p` returns a point `q` with `wrap q = q`; a component of
`q` on a wrapping axis of size `S` lies in `[0, S)` and a component on a
non-wrapping axis is that of `p`. -/
theorem wrap_idem_range (g : WorldGeometry) (p : Vec2I)
    (hx : g.m_xWrap = true → 0 < g.width) (hy : g.m_yWrap = true → 0 < g.height) :
    ∃ q, g.wrap p = some q ∧ g.wrap q = some q ∧
      (g.m_xWrap = true → 0 ≤ q.x ∧ q.x < (g.width : Int)) ∧
      (g.m_yWrap = true → 0 ≤ q.y ∧ q.y < (g.height : Int)) ∧
      (g.m_xWrap = false → q.x = p.x) ∧
      (g.m_yWrap = false → q.y = p.y) := by
  have hxs : ∃ u, g.xwrap p.x = some u ∧ g.xwrap u = some u ∧
      (g.m_xWrap = true → 0 ≤ u ∧ u < (g.width : Int)) ∧ (g.m_xWrap = false → u = p.x) := by
    cases hw : g.m_xWrap
    · exact ⟨p.x, by simp [WorldGeometry.xwrap, hw], by simp [WorldGeometry.xwrap, hw],
        by simp, by simp⟩
    · have hpos := hx hw
      have hW : (0 : Int) < (g.width : Int) := by exact_mod_cast hpos
      refine ⟨p.x % (g.width : Int), xwrap_of_wrap g _ hw hpos, ?_, ?_, by simp⟩
      · rw [xwrap_of_wrap g _ hw hpos, Int.emod_emod_of_dvd _ (dvd_refl _)]
      · intro _
        exact ⟨Int.emod_nonneg _ (ne_of_gt hW), Int.emod_lt_of_pos _ hW⟩
  have hys : ∃ v, g.ywrap p.y = some v ∧ g.ywrap v = some v ∧
      (g.m_yWrap = true → 0 ≤ v ∧ v < (g.height : Int)) ∧ (g.m_yWrap = false → v = p.y) := by
    cases hw : g.m_yWrap
    · exact ⟨p.y, by simp [WorldGeometry.ywrap, hw], by simp [WorldGeometry.ywrap, hw],
        by simp, by simp⟩
    · have hpos := hy hw
      have hH : (0 : Int) < (g.height : Int) := by exact_mod_cast hpos
      refine ⟨p.y % (g.height : Int), ywrap_of_wrap g _ hw hpos, ?_, ?_, by simp⟩
      · rw [ywrap_of_wrap g _ hw hpos, Int.emod_emod_of_dvd _ (dvd_refl _)]
      · intro _
        exact ⟨Int.emod_nonneg _ (ne_of_gt hH), Int.emod_lt_of_pos _ hH⟩
  obtain ⟨u, hu1, hu2, hu3, hu4⟩ := hxs
  obtain ⟨v, hv1, hv2, hv3, hv4⟩ := hys
  exact ⟨⟨u, v⟩, by simp [WorldGeometry.wrap, hu1, hv1], by simp [WorldGeometry.wrap, hu2, hv2],
    hu3, hv3, hu4, hv4⟩

/-- Witness for C9 on the 100 x 50 world wrapping on both axes, at the point
`(-7, 120)`. -/
theorem wrap_idem_range_witness :
    ∃ q, (WorldGeometry.ofSizeWrap ⟨100, 50⟩ true true).wrap ⟨-7, 120⟩ = some q ∧
      (WorldGeometry.ofSizeWrap ⟨100, 50⟩ true true).wrap q = some q ∧
      ((WorldGeometry.ofSizeWrap ⟨100, 50⟩ true true).m_xWrap = true →
        0 ≤ q.x ∧ q.x < (((WorldGeometry.ofSizeWrap ⟨100, 50⟩ true true).width : Nat) : Int)) ∧
      ((WorldGeometry.ofSizeWrap ⟨100, 50⟩ true true).m_yWrap = true →
        0 ≤ q.y ∧ q.y < (((WorldGeometry.ofSizeWrap ⟨100, 50⟩ true true).height : Nat) : Int)) ∧
      ((WorldGeometry.ofSizeWrap ⟨100, 50⟩ true true).m_xWrap = false → q.x = (-7 : Int)) ∧
      ((WorldGeometry.ofSizeWrap ⟨100, 50⟩ true true).m_yWrap = false → q.y = (120 : Int)) :=
  wrap_idem_range (WorldGeometry.ofSizeWrap ⟨100, 50⟩ true true) ⟨-7, 120⟩
    (fun _ => by decide) (fun _ => by decide)

/-- C10: on a geometry wrapping on x only with width `W > 0`, for a non-null
rectangle with `0 ≤ xMax - xMin ≤ W`, `xwrap xMin` returns some `m`, and when
`m + (xMax - xMin) > W`, `splitRect` returns exactly the two fragments
`[m, W] x [yMin, yMax]` and `[0, m + (xMax - xMin) - W] x [yMin, yMax]`, in
that order; moving the second by `+W` in x makes it start where the first
ends and end at `m + (xMax - xMin)`, and the two fragments are proper
intervals that do not overlap. On the 100 x 100 world the rectangle
x:90..105, y:10..20 splits into (90..100, 10..20) and (0..5, 10..20). -/
theorem splitRect_x_crossing (isNull : RectI → Bool) (g : WorldGeometry) (bbox : RectI)
    (hw : g.m_xWrap = true) (hyw : g.m_yWrap = false) (hpos : 0 < g.width)
    (hnull : isNull bbox = false)
    (_hlo : 0 ≤ bbox.xMax - bbox.xMin) (hhi : bbox.xMax - bbox.xMin ≤ (g.width : Int)) :
    (∃ m, g.xwrap bbox.xMin = some m ∧
      (m + (bbox.xMax - bbox.xMin) > (g.width : Int) →
        ∃ f1 f2 : RectI, g.splitRect isNull bbox = some [f1, f2] ∧
          f1 = ⟨m, bbox.yMin, g.width, bbox.yMax⟩ ∧
          f2 = ⟨0, bbox.yMin, m + (bbox.xMax - bbox.xMin) - g.width, bbox.yMax⟩ ∧
          f2.xMin + (g.width : Int) = f1.xMax ∧
          f2.xMax + (g.width : Int) = m + (bbox.xMax - bbox.xMin) ∧
          f1.xMin ≤ f1.xMax ∧ f2.xMin ≤ f2.xMax ∧ f2.xMax ≤ f1.xMin)) ∧
    (WorldGeometry.ofWidthHeight 100 100).splitRect (fun _ => false) ⟨90, 10, 105, 20⟩
      = some [⟨90, 10, 100, 20⟩, ⟨0, 10, 5, 20⟩] := by
  refine ⟨?_, by decide⟩
  have hW := width_cast_pos g hpos
  have hWw : (g.width : Int) = (g.m_size.x : Int) := rfl
  have hm := xwrap_of_wrap g bbox.xMin hw hpos
  have hm0 := Int.emod_nonneg bbox.xMin (ne_of_gt hW)
  have hm1 := Int.emod_lt_of_pos bbox.xMin hW
  rw [hWw] at hm hhi ⊢
  refine ⟨_, hm, ?_⟩
  intro hcross
  refine ⟨_, _, ?_, rfl, rfl, by simp, by simp, ?_, ?_, ?_⟩
  · have hX : g.splitRectX isNull bbox
        = some [⟨bbox.xMin % (g.m_size.x : Int), bbox.yMin, g.m_size.x, bbox.yMax⟩,
            ⟨0, bbox.yMin,
              bbox.xMin % (g.m_size.x : Int) + (bbox.xMax - bbox.xMin) - g.m_size.x,
              bbox.yMax⟩] := by
      simp [WorldGeometry.splitRectX, hw, hnull, WorldGeometry.xwrapVec, RectI.min, hm,
        RectI.ofCorners, Vec2I.add, RectI.size, hcross]
    have hY : ∀ r : RectI, g.splitRectY isNull r = some [r] := by
      intro r
      simp [WorldGeometry.splitRectY, hyw]
    simp [WorldGeometry.splitRect, hw, hyw, hnull, hX, hY]
  · show bbox.xMin % (g.m_size.x : Int) ≤ (g.m_size.x : Int)
    omega
  · show (0 : Int) ≤ bbox.xMin % (g.m_size.x : Int) + (bbox.xMax - bbox.xMin) - g.m_size.x
    omega
  · show bbox.xMin % (g.m_size.x : Int) + (bbox.xMax - bbox.xMin) - g.m_size.x
      ≤ bbox.xMin % (g.m_size.x : Int)
    omega

/-- Witness for C10 on the 100 x 100 world wrapping on x only, with the
rectangle x:-10..5, y:10..20, whose wrapped minimum is 90. -/
theorem splitRect_x_crossing_witness :
    (WorldGeometry.ofWidthHeight 100 100).xwrap (-10) = some 90 ∧
    ∃ m, (WorldGeometry.ofWidthHeight 100 100).xwrap (⟨-10, 10, 5, 20⟩ : RectI).xMin = some m ∧
      (m + ((⟨-10, 10, 5, 20⟩ : RectI).xMax - (⟨-10, 10, 5, 20⟩ : RectI).xMin)
          > (((WorldGeometry.ofWidthHeight 100 100).width : Nat) : Int) →
        ∃ f1 f2 : RectI,
          (WorldGeometry.ofWidthHeight 100 100).splitRect (fun _ => false) ⟨-10, 10, 5, 20⟩
            = some [f1, f2] ∧
          f1 = ⟨m, (⟨-10, 10, 5, 20⟩ : RectI).yMin,
            (((WorldGeometry.ofWidthHeight 100 100).width : Nat) : Int),
            (⟨-10, 10, 5, 20⟩ : RectI).yMax⟩ ∧
          f2 = ⟨0, (⟨-10, 10, 5, 20⟩ : RectI).yMin,
            m + ((⟨-10, 10, 5, 20⟩ : RectI).xMax - (⟨-10, 10, 5, 20⟩ : RectI).xMin)
              - (((WorldGeometry.ofWidthHeight 100 100).width : Nat) : Int),
            (⟨-10, 10, 5, 20⟩ : RectI).yMax⟩ ∧
          f2.xMin + (((WorldGeometry.ofWidthHeight 100 100).width : Nat) : Int) = f1.xMax ∧
          f2.xMax + (((WorldGeometry.ofWidthHeight 100 100).width : Nat) : Int)
            = m + ((⟨-10, 10, 5, 20⟩ : RectI).xMax - (⟨-10, 10, 5, 20⟩ : RectI).xMin) ∧
          f1.xMin ≤ f1.xMax ∧ f2.xMin ≤ f2.xMax ∧ f2.xMax ≤ f1.xMin) :=
  ⟨by decide, (splitRect_x_crossing (fun _ => false) (WorldGeometry.ofWidthHeight 100 100)
    ⟨-10, 10, 5, 20⟩ (by decide) (by decide) (by decide) rfl (by decide) (by decide)).1⟩

/-- C11: in each of the four wrap configurations, with positive size on each
wrapping axis, `splitRect` returns fragments whose areas (width times height)
sum to the area of the input rectangle. The equality holds for every integer
rectangle, so in particular for the non-null ones with ordered corners whose
extent does not exceed the size of a wrapping axis. -/
theorem splitRect_area_sum (isNull : RectI → Bool) (g : WorldGeometry) (b : RectI)
    (hx : g.m_xWrap = true → 0 < g.width) (hy : g.m_yWrap = true → 0 < g.height) :
    ∃ L, g.splitRect isNull b = some L ∧ (L.map RectI.area).sum = b.area := by
  obtain ⟨Lx, f, hX, hY, hS⟩ := splitRect_eq_flatMap isNull g b hx hy
  refine ⟨_, hS, ?_⟩
  rw [sum_area_flatMap Lx f (fun r => splitRectY_area isNull g r (f r) hy (hY r))]
  exact splitRectX_area isNull g b Lx hx hX

/-- Witness for C11 on the 100 x 50 world wrapping on both axes, with the
rectangle x:90..105, y:40..60, which crosses both seams. -/
theorem splitRect_area_sum_witness :
    ∃ L, (WorldGeometry.ofSizeWrap ⟨100, 50⟩ true true).splitRect (fun _ => false)
        ⟨90, 40, 105, 60⟩ = some L ∧
      (L.map RectI.area).sum = (⟨90, 40, 105, 60⟩ : RectI).area :=
  splitRect_area_sum (fun _ => false) (WorldGeometry.ofSizeWrap ⟨100, 50⟩ true true)
    ⟨90, 40, 105, 60⟩ (fun _ => by decide) (fun _ => by decide)

/-- C12: with positive size on each wrapping axis, for a non-null integer
rectangle with `xMin ≤ xMax`, `yMin ≤ yMax` whose extent along each wrapping
axis does not exceed the size of that axis, every fragment returned by
`splitRect` satisfies `0 ≤ xMin ≤ xMax ≤ width` if x wraps and
`0 ≤ yMin ≤ yMax ≤ height` if y wraps. The null test of the rectangle
primitive is a parameter; it is assumed to hold only of boxes whose x corners
are inverted, so that a rectangle with ordered corners is not null. -/
theorem splitRect_fragments_non_wrapping (isNull : RectI → Bool) (g : WorldGeometry)
    (b : RectI) (hlaw : ∀ r, isNull r = true → r.xMax < r.xMin)
    (hx : g.m_xWrap = true → 0 < g.width) (hy : g.m_yWrap = true → 0 < g.height)
    (hxo : b.xMin ≤ b.xMax) (hyo : b.yMin ≤ b.yMax)
    (hxe : g.m_xWrap = true → b.xMax - b.xMin ≤ (g.width : Int))
    (hye : g.m_yWrap = true → b.yMax - b.yMin ≤ (g.height : Int)) :
    ∃ L, g.splitRect isNull b = some L ∧ ∀ r ∈ L,
      (g.m_xWrap = true → 0 ≤ r.xMin ∧ r.xMin ≤ r.xMax ∧ r.xMax ≤ (g.width : Int)) ∧
      (g.m_yWrap = true → 0 ≤ r.yMin ∧ r.yMin ≤ r.yMax ∧ r.yMax ≤ (g.height : Int)) := by
  have hnn : ∀ r : RectI, r.xMin ≤ r.xMax → isNull r = false := by
    intro r hr
    cases h : isNull r
    · rfl
    · have := hlaw r h
      omega
  obtain ⟨Lx, f, hX, hY, hS⟩ := splitRect_eq_flatMap isNull g b hx hy
  refine ⟨_, hS, ?_⟩
  intro r hr
  obtain ⟨a, ha, hra⟩ := List.mem_flatMap.mp hr
  obtain ⟨ha1, ha2, ha3, ha4⟩ := splitRectX_pieces isNull g b Lx hx (hnn b hxo) hxo hxe hX a ha
  obtain ⟨hr1, hr2, hr3, hr4⟩ := splitRectY_pieces isNull g a (f a) hy (hnn a ha3)
    (by rw [ha1, ha2]; exact hyo) (by rw [ha1, ha2]; exact hye) (hY a) r hra
  refine ⟨fun hw => ?_, fun hw => ?_⟩
  · obtain ⟨h1, h2⟩ := ha4 hw
    rw [hr1, hr2]
    exact ⟨h1, ha3, h2⟩
  · obtain ⟨h1, h2⟩ := hr4 hw
    exact ⟨h1, hr3, h2⟩

/-- Witness for C12 on the 100 x 50 world wrapping on both axes, with the
rectangle x:90..105, y:40..60 and the null test of the box primitive. -/
theorem splitRect_fragments_non_wrapping_witness :
    ∃ L, (WorldGeometry.ofSizeWrap ⟨100, 50⟩ true true).splitRect
        (fun r => decide (r = ⟨2147483647, 2147483647, -2147483648, -2147483648⟩))
        ⟨90, 40, 105, 60⟩ = some L ∧ ∀ r ∈ L,
      ((WorldGeometry.ofSizeWrap ⟨100, 50⟩ true true).m_xWrap = true →
        0 ≤ r.xMin ∧ r.xMin ≤ r.xMax ∧
        r.xMax ≤ (((WorldGeometry.ofSizeWrap ⟨100, 50⟩ true true).width : Nat) : Int)) ∧
      ((WorldGeometry.ofSizeWrap ⟨100, 50⟩ true true).m_yWrap = true →
        0 ≤ r.yMin ∧ r.yMin ≤ r.yMax ∧
        r.yMax ≤ (((WorldGeometry.ofSizeWrap ⟨100, 50⟩ true true).height : Nat) : Int)) :=
  splitRect_fragments_non_wrapping
    (fun r => decide (r = ⟨2147483647, 2147483647, -2147483648, -2147483648⟩))
    (WorldGeometry.ofSizeWrap ⟨100, 50⟩ true true) ⟨90, 40, 105, 60⟩
    (fun r hr => by
      have h : r = ⟨2147483647, 2147483647, -2147483648, -2147483648⟩ := of_decide_eq_true hr
      rw [h]
      decide)
    (fun _ => by decide) (fun _ => by decide) (by decide) (by decide)
    (fun _ => by decide) (fun _ => by decide)

/-- C13 fails on the code for a geometry whose x size is 0 while its x wrap
flag is stored as true: for every non-null rectangle `splitRect` reaches the
modulo by the zero size through `splitRectX` and `xwrap` and returns no
fragment list at all. With positive size on each wrapping axis it does return
1, 2 or 4 fragments, for every rectangle (the null test of the rectangle
primitive being assumed to hold only of boxes whose x corners are
inverted). -/
theorem splitRect_count_or_zero_modulus (isNull : RectI → Bool) :
    (∀ (n : Nat) (flag : Bool) (b : RectI), isNull b = false →
      (WorldGeometry.ofSizeWrap ⟨0, n⟩ true flag).splitRect isNull b = none) ∧
    (∀ (g : WorldGeometry) (b : RectI), (∀ r, isNull r = true → r.xMax < r.xMin) →
      (g.m_xWrap = true → 0 < g.width) → (g.m_yWrap = true → 0 < g.height) →
      ∃ L, g.splitRect isNull b = some L ∧
        (L.length = 1 ∨ L.length = 2 ∨ L.length = 4)) := by
  constructor
  · intro n flag b hn
    simp [WorldGeometry.ofSizeWrap, WorldGeometry.splitRect, WorldGeometry.splitRectX,
      WorldGeometry.xwrapVec, WorldGeometry.xwrap, pmod, hn]
  · intro g b hlaw hx hy
    obtain ⟨Lx, f, hX, hY, hS⟩ := splitRect_eq_flatMap isNull g b hx hy
    refine ⟨_, hS, ?_⟩
    have hlen := fun r => splitRectY_length isNull g r (f r) hy (hY r)
    have hXe := splitRectX_eq isNull g b hx
    rw [hX] at hXe
    rw [Option.some.inj hXe]
    split_ifs with h1 h2
    · simp only [List.flatMap_cons, List.flatMap_nil, List.append_nil]
      rcases hlen b with h | h <;> omega
    · have hw : g.m_xWrap = true := by
        cases hw : g.m_xWrap
        · exact absurd (Or.inr hw) h1
        · rfl
      have hW := width_cast_pos g (hx hw)
      have hm0 := Int.emod_nonneg b.xMin (ne_of_gt hW)
      have hm1 := Int.emod_lt_of_pos b.xMin hW
      have hnn : ∀ r : RectI, r.xMin ≤ r.xMax → isNull r = false := by
        intro r hr
        cases h : isNull r
        · rfl
        · have := hlaw r h
          omega
      have hcong := splitRectY_length_congr isNull g
        ⟨b.xMin % (g.m_size.x : Int), b.yMin, g.m_size.x, b.yMin + (b.yMax - b.yMin)⟩
        ⟨0, b.yMin, b.xMin % (g.m_size.x : Int) + (b.xMax - b.xMin) - g.m_size.x,
          b.yMin + (b.yMax - b.yMin)⟩ _ _ hy
        (hnn _ (by dsimp only; omega)) (hnn _ (by dsimp only; omega)) rfl rfl (hY _) (hY _)
      simp only [List.flatMap_cons, List.flatMap_nil, List.append_nil, List.length_append]
      rw [hcong]
      rcases hlen ⟨0, b.yMin, b.xMin % (g.m_size.x : Int) + (b.xMax - b.xMin) - g.m_size.x,
          b.yMin + (b.yMax - b.yMin)⟩ with h | h <;> omega
    · simp only [List.flatMap_cons, List.flatMap_nil, List.append_nil]
      rcases hlen ⟨b.xMin % (g.m_size.x : Int), b.yMin,
        b.xMin % (g.m_size.x : Int) + (b.xMax - b.xMin), b.yMin + (b.yMax - b.yMin)⟩
        with h | h <;> omega

/-- Witness for C13: the geometry of size 0 x 0 with the x flag true and the
rectangle x:0..1, y:0..1, and the 100 x 50 world wrapping on both axes with
the rectangle x:90..105, y:40..60. -/
theorem splitRect_count_or_zero_modulus_witness :
    (WorldGeometry.ofSizeWrap ⟨0, 0⟩ true false).splitRect (fun _ => false) ⟨0, 0, 1, 1⟩
      = none ∧
    ∃ L, (WorldGeometry.ofSizeWrap ⟨100, 50⟩ true true).splitRect (fun _ => false)
        ⟨90, 40, 105, 60⟩ = some L ∧ (L.length = 1 ∨ L.length = 2 ∨ L.length = 4) :=
  ⟨(splitRect_count_or_zero_modulus (fun _ => false)).1 0 false ⟨0, 0, 1, 1⟩ rfl,
    (splitRect_count_or_zero_modulus (fun _ => false)).2
      (WorldGeometry.ofSizeWrap ⟨100, 50⟩ true true) ⟨90, 40, 105, 60⟩
      (fun _ h => absurd h (by decide)) (fun _ => by decide) (fun _ => by decide)⟩

/-- C14: on a wrapping x axis of width `W > 0`, for a region `(lo, hi)` with
`0 ≤ hi - lo ≤ W`, `splitXRegion` returns one or two intervals, the first
starting at `xwrap lo`; every returned interval `(a, b)` has
`0 ≤ a ≤ b ≤ W`; and the lengths `b - a` sum to `hi - lo`. On a non-wrapping
x axis it returns exactly the input region. -/
theorem splitXRegion_intervals (g : WorldGeometry) (region : Vec2I) :
    (g.m_xWrap = true → 0 < g.width → 0 ≤ region.y - region.x →
      region.y - region.x ≤ (g.width : Int) →
      ∃ L, g.splitXRegion region = some L ∧ (L.length = 1 ∨ L.length = 2) ∧
        (L.head?.map fun v => v.x) = g.xwrap region.x ∧
        (∀ v ∈ L, 0 ≤ v.x ∧ v.x ≤ v.y ∧ v.y ≤ (g.width : Int)) ∧
        (L.map fun v => v.y - v.x).sum = region.y - region.x) ∧
    (g.m_xWrap = false → g.splitXRegion region = some [region]) := by
  constructor
  · intro hw hpos hlo hhi
    have hW := width_cast_pos g hpos
    have hWw : (g.width : Int) = (g.m_size.x : Int) := rfl
    have hm := xwrap_of_wrap g region.x hw hpos
    have hm0 := Int.emod_nonneg region.x (ne_of_gt hW)
    have hm1 := Int.emod_lt_of_pos region.x hW
    rw [hWw] at hm hhi ⊢
    by_cases hc : region.x % (g.m_size.x : Int) + region.y - region.x > (g.m_size.x : Int)
    · refine ⟨[⟨region.x % (g.m_size.x : Int), g.m_size.x⟩,
        ⟨0, region.x % (g.m_size.x : Int) + region.y - region.x - g.m_size.x⟩], ?_, by simp,
        by simp [hm], ?_, ?_⟩
      · simp [WorldGeometry.splitXRegion, hw, hm, hc]
      · intro v hv
        simp only [List.mem_cons, List.mem_singleton, List.mem_nil_iff, or_false] at hv
        rcases hv with h | h <;> subst h <;> dsimp only <;> omega
      · simp only [List.map_cons, List.map_nil, List.sum_cons, List.sum_nil]
        omega
    · refine ⟨[⟨region.x % (g.m_size.x : Int),
        region.x % (g.m_size.x : Int) + region.y - region.x⟩], ?_, by simp, by simp [hm], ?_, ?_⟩
      · simp [WorldGeometry.splitXRegion, hw, hm, hc]
      · intro v hv
        simp only [List.mem_singleton] at hv
        subst hv
        dsimp only
        omega
      · simp only [List.map_cons, List.map_nil, List.sum_cons, List.sum_nil]
        omega
  · intro hw
    simp [WorldGeometry.splitXRegion, hw]

/-- Witness for C14 on the 100 x 100 world wrapping on x, with the region
`(90, 105)`. -/
theorem splitXRegion_intervals_witness :
    ∃ L, (WorldGeometry.ofWidthHeight 100 100).splitXRegion ⟨90, 105⟩ = some L ∧
      (L.length = 1 ∨ L.length = 2) ∧
      (L.head?.map fun v => v.x) = (WorldGeometry.ofWidthHeight 100 100).xwrap
        (⟨90, 105⟩ : Vec2I).x ∧
      (∀ v ∈ L, 0 ≤ v.x ∧ v.x ≤ v.y ∧
        v.y ≤ (((WorldGeometry.ofWidthHeight 100 100).width : Nat) : Int)) ∧
      (L.map fun v => v.y - v.x).sum = (⟨90, 105⟩ : Vec2I).y - (⟨90, 105⟩ : Vec2I).x :=
  (splitXRegion_intervals (WorldGeometry.ofWidthHeight 100 100) ⟨90, 105⟩).1 (by decide)
    (by decide) (by decide) (by decide)

/-- C15, as stated, fails: on the 100 x 100 world wrapping on x only, the
point (100, 5) lies on the right edge of the rectangle x:50..100, y:0..10 (the
copy with `k = 0` is inside the closed box), yet `rectContains` is false: the
point wraps to x = 0, and the rectangle, which ends exactly on the seam, is
not split. -/
theorem rectContains_misses_seam_edge :
    (WorldGeometry.ofWidthHeight 100 100).rectContains (fun _ => false) ⟨50, 0, 100, 10⟩
        ⟨100, 5⟩ = some false ∧
      ∃ k : Int, (⟨50, 0, 100, 10⟩ : RectF).contains ⟨100 + (k : ℚ) * 100, 5⟩ = true := by
  constructor
  · have h50 : pfmod 50 100 = 50 := pfmod_id 50 100 (by norm_num) (by norm_num)
    have h100 : pfmod 100 100 = 0 := by
      rw [(pfmod_pos 100 100 (by norm_num)).1]
      norm_num
    have hS := splitRectF_x_only (fun _ => false) (WorldGeometry.ofWidthHeight 100 100)
      ⟨50, 0, 100, 10⟩ (by decide) (by decide) rfl
    unfold WorldGeometry.rectContains
    rw [hS]
    norm_num [WorldGeometry.ofWidthHeight, WorldGeometry.wrapF, WorldGeometry.xwrapF,
      WorldGeometry.ywrapF, h50, h100, RectF.contains]
  · exact ⟨0, by norm_num [RectF.contains]⟩

/-- C15, amended: in exact arithmetic, on a geometry wrapping on x only with
width `W > 0`, for a non-null rectangle with `0 ≤ xMax - xMin ≤ W` and a point
`p`, `rectContains` returns a result, and it is true if and only if some copy
`(p.x + k * W, p.y)` of `p` lies in the closed rectangle and the point is not
the one seam point the code leaves out: `p` wrapping to x = 0 while the
wrapped rectangle starts after 0 and ends exactly at `W`. -/
theorem rectContains_iff_copy_inside (isNull : RectF → Bool) (g : WorldGeometry)
    (rect : RectF) (pos : Vec2F)
    (hw : g.m_xWrap = true) (hyw : g.m_yWrap = false) (hpos : 0 < g.width)
    (hnull : isNull rect = false)
    (hlo : 0 ≤ rect.xMax - rect.xMin) (hhi : rect.xMax - rect.xMin ≤ (g.width : ℚ)) :
    (∃ res, g.rectContains isNull rect pos = some res) ∧
    (g.rectContains isNull rect pos = some true ↔
      ((∃ k : Int, rect.contains ⟨pos.x + (k : ℚ) * (g.width : ℚ), pos.y⟩ = true) ∧
        ¬ (g.xwrapF pos.x = 0 ∧ 0 < g.xwrapF rect.xMin ∧
          g.xwrapF rect.xMin + (rect.xMax - rect.xMin) = (g.width : ℚ)))) := by
  have hWw : (g.width : ℚ) = (g.m_size.x : ℚ) := rfl
  have hW : (0 : ℚ) < (g.m_size.x : ℚ) := by
    have := hpos
    unfold WorldGeometry.width at this
    exact_mod_cast this
  rw [hWw] at hhi ⊢
  have hS := splitRectF_x_only isNull g rect hw hyw hnull
  obtain ⟨hme, hm0, hm1⟩ := pfmod_pos rect.xMin _ hW
  obtain ⟨hpe, hp0, hp1⟩ := pfmod_pos pos.x _ hW
  have hxw : ∀ v, g.xwrapF v = pfmod v g.m_size.x := by
    intro v
    simp [WorldGeometry.xwrapF, hw]
  refine ⟨⟨_, by unfold WorldGeometry.rectContains; rw [hS]; rfl⟩, ?_⟩
  unfold WorldGeometry.rectContains
  rw [hS, hxw, hxw]
  simp only [Option.map_some', Option.some.injEq, WorldGeometry.wrapF, WorldGeometry.ywrapF,
    hyw, hxw, Bool.not_false, if_true]
  generalize hfm : (⌊rect.xMin / (g.m_size.x : ℚ)⌋ : Int) = fm at hme
  generalize hfp : (⌊pos.x / (g.m_size.x : ℚ)⌋ : Int) = fp at hpe
  generalize pfmod rect.xMin g.m_size.x = m at *
  generalize pfmod pos.x g.m_size.x = wx at *
  generalize (g.m_size.x : ℚ) = W at *
  have hbound : ∀ k : Int, m ≤ wx + (k : ℚ) * W → wx + (k : ℚ) * W ≤ m + (rect.xMax - rect.xMin)
      → k = 0 ∨ k = 1 := by
    intro k h1 h2
    have hk : k ≤ -1 ∨ k = 0 ∨ k = 1 ∨ 2 ≤ k := by omega
    rcases hk with h | h | h | h
    · exfalso
      have hq : (k : ℚ) ≤ -1 := by exact_mod_cast h
      have := mul_le_mul_of_nonneg_right hq (le_of_lt hW)
      linarith
    · exact Or.inl h
    · exact Or.inr h
    · exfalso
      have hq : (2 : ℚ) ≤ (k : ℚ) := by exact_mod_cast h
      have := mul_le_mul_of_nonneg_right hq (le_of_lt hW)
      linarith
  split_ifs with hc
  · simp only [List.any_cons, List.any_nil, Bool.or_false, Bool.or_eq_true, RectF.contains,
      Bool.and_eq_true, decide_eq_true_eq]
    constructor
    · intro h
      refine ⟨?_, fun hex => by linarith [hex.2.2]⟩
      rcases h with ⟨⟨⟨h1, h2⟩, h3⟩, h4⟩ | ⟨⟨⟨h1, h2⟩, h3⟩, h4⟩
      · refine ⟨fm - fp, ⟨⟨?_, ?_⟩, h3⟩, by linarith⟩ <;> push_cast <;> linarith
      · refine ⟨fm - fp + 1, ⟨⟨?_, ?_⟩, h3⟩, by linarith⟩ <;> push_cast <;> linarith
    · rintro ⟨⟨k, ⟨⟨h1, h2⟩, h3⟩, h4⟩, _⟩
      have hk := hbound (k + fp - fm) (by push_cast; linarith) (by push_cast; linarith)
      rcases hk with hk | hk
      · have hq : ((k + fp - fm : Int) : ℚ) = 0 := by exact_mod_cast hk
        push_cast at hq
        left
        refine ⟨⟨⟨?_, ?_⟩, h3⟩, by linarith⟩
        · have : (k : ℚ) * W = (fm : ℚ) * W - (fp : ℚ) * W := by
            have : (k : ℚ) = (fm : ℚ) - (fp : ℚ) := by linarith
            rw [this]
            ring
          linarith
        · linarith
      · have hq : ((k + fp - fm : Int) : ℚ) = 1 := by exact_mod_cast hk
        push_cast at hq
        right
        refine ⟨⟨⟨hp0, ?_⟩, h3⟩, by linarith⟩
        have : (k : ℚ) * W = (fm : ℚ) * W - (fp : ℚ) * W + W := by
          have : (k : ℚ) = (fm : ℚ) - (fp : ℚ) + 1 := by linarith
          rw [this]
          ring
        linarith
  · simp only [List.any_cons, List.any_nil, Bool.or_false, RectF.contains,
      Bool.and_eq_true, decide_eq_true_eq]
    constructor
    · rintro ⟨⟨⟨h1, h2⟩, h3⟩, h4⟩
      refine ⟨⟨fm - fp, ⟨⟨?_, ?_⟩, h3⟩, by linarith⟩, fun hex => by linarith [hex.1, hex.2.1]⟩ <;>
        push_cast <;> linarith
    · rintro ⟨⟨k, ⟨⟨h1, h2⟩, h3⟩, h4⟩, hex⟩
      have hk := hbound (k + fp - fm) (by push_cast; linarith) (by push_cast; linarith)
      rcases hk with hk | hk
      · have hq : ((k + fp - fm : Int) : ℚ) = 0 := by exact_mod_cast hk
        push_cast at hq
        have : (k : ℚ) * W = (fm : ℚ) * W - (fp : ℚ) * W := by
          have : (k : ℚ) = (fm : ℚ) - (fp : ℚ) := by linarith
          rw [this]
          ring
        refine ⟨⟨⟨?_, ?_⟩, h3⟩, by linarith⟩ <;> linarith
      · have hq : ((k + fp - fm : Int) : ℚ) = 1 := by exact_mod_cast hk
        push_cast at hq
        have hkW : (k : ℚ) * W = (fm : ℚ) * W - (fp : ℚ) * W + W := by
          have : (k : ℚ) = (fm : ℚ) - (fp : ℚ) + 1 := by linarith
          rw [this]
          ring
        have hwx : wx = 0 := by linarith
        have hend : m + (rect.xMax - rect.xMin) = W := by linarith
        have hm00 : m = 0 := by
          by_contra hne
          exact hex ⟨hwx, lt_of_le_of_ne hm0 (Ne.symm hne), hend⟩
        refine ⟨⟨⟨?_, ?_⟩, h3⟩, by linarith⟩ <;> linarith

/-- Witness for the amended C15 on the 100 x 100 world wrapping on x only, with
the rectangle x:90..105, y:10..20 and the point (2, 15). -/
theorem rectContains_iff_copy_inside_witness :
    ∃ res, (WorldGeometry.ofWidthHeight 100 100).rectContains (fun _ => false)
      ⟨90, 10, 105, 20⟩ ⟨2, 15⟩ = some res :=
  (rectContains_iff_copy_inside (fun _ => false) (WorldGeometry.ofWidthHeight 100 100)
    ⟨90, 10, 105, 20⟩ ⟨2, 15⟩ (by decide) (by decide) (by decide) rfl (by norm_num)
    (by norm_num [WorldGeometry.ofWidthHeight, WorldGeometry.width])).1

/-- C16: in each of the four wrap configurations and for all rectangles `A`
and `B`, `rectIntersectsRect A B = rectIntersectsRect B A`, given that the
flat rectangle intersection test it is built on is symmetric. -/
theorem rectIntersectsRect_symm (isNull : RectF → Bool) (intersects : RectF → RectF → Bool)
    (g : WorldGeometry) (rectA rectB : RectF)
    (hsym : ∀ a b, intersects a b = intersects b a) :
    g.rectIntersectsRect isNull intersects rectA rectB
      = g.rectIntersectsRect isNull intersects rectB rectA := by
  unfold WorldGeometry.rectIntersectsRect
  cases hA : g.splitRectF isNull rectA <;> cases hB : g.splitRectF isNull rectB
  · rfl
  · rfl
  · rfl
  · simp only [Option.some_bind, Option.map_some', Option.some.injEq]
    exact any_any_comm intersects hsym _ _

/-- Witness for C16 on the 100 x 50 world wrapping on both axes, with the
closed-box overlap test as the flat intersection test. -/
theorem rectIntersectsRect_symm_witness :
    (WorldGeometry.ofSizeWrap ⟨100, 50⟩ true true).rectIntersectsRect (fun _ => false)
        (fun a b => decide (a.xMin ≤ b.xMax ∧ b.xMin ≤ a.xMax ∧ a.yMin ≤ b.yMax ∧
          b.yMin ≤ a.yMax)) ⟨90, 40, 105, 60⟩ ⟨0, 0, 10, 10⟩
      = (WorldGeometry.ofSizeWrap ⟨100, 50⟩ true true).rectIntersectsRect (fun _ => false)
        (fun a b => decide (a.xMin ≤ b.xMax ∧ b.xMin ≤ a.xMax ∧ a.yMin ≤ b.yMax ∧
          b.yMin ≤ a.yMax)) ⟨0, 0, 10, 10⟩ ⟨90, 40, 105, 60⟩ :=
  rectIntersectsRect_symm (fun _ => false)
    (fun a b => decide (a.xMin ≤ b.xMax ∧ b.xMin ≤ a.xMax ∧ a.yMin ≤ b.yMax ∧
      b.yMin ≤ a.yMax)) (WorldGeometry.ofSizeWrap ⟨100, 50⟩ true true)
    ⟨90, 40, 105, 60⟩ ⟨0, 0, 10, 10⟩
    (fun a b => by
      apply Bool.decide_congr
      constructor <;> rintro ⟨h1, h2, h3, h4⟩ <;> exact ⟨h2, h1, h4, h3⟩)

/-- C17: in exact arithmetic, for a rectangle with `0 ≤ min ≤ max < S` on each
wrapping axis of size `S`, `splitRect` returns exactly one fragment, equal to
the input rectangle; and for a polygon whose vertices all have coordinates in
`[0, S)` on each wrapping axis, `splitPoly` returns exactly one fragment with
the same vertices in the same order. The bounds are only needed on the
wrapping axes (they force the size of such an axis to be positive), and the
result holds for null shapes as well. -/
theorem split_inside_single_fragment (isNull : RectF → Bool)
    (isect : Line2F → Line2F → Vec2F) (g : WorldGeometry) (rect : RectF) (poly : PolyF)
    (hrx : g.m_xWrap = true →
      0 ≤ rect.xMin ∧ rect.xMin ≤ rect.xMax ∧ rect.xMax < (g.width : ℚ))
    (hry : g.m_yWrap = true →
      0 ≤ rect.yMin ∧ rect.yMin ≤ rect.yMax ∧ rect.yMax < (g.height : ℚ))
    (hpx : g.m_xWrap = true → ∀ v ∈ poly.vertexes, 0 ≤ v.x ∧ v.x < (g.width : ℚ))
    (hpy : g.m_yWrap = true → ∀ v ∈ poly.vertexes, 0 ≤ v.y ∧ v.y < (g.height : ℚ)) :
    g.splitRectF isNull rect = some [rect] ∧ g.splitPoly isect poly = some [poly] := by
  have hRX : g.splitRectXF isNull rect = [rect] := by
    cases hw : g.m_xWrap
    · simp [WorldGeometry.splitRectXF, hw]
    · obtain ⟨h0, h1, h2⟩ := hrx hw
      exact splitRectXF_inside isNull g rect h0 h1 h2
  have hRY : g.splitRectYF isNull rect = [rect] := by
    cases hw : g.m_yWrap
    · simp [WorldGeometry.splitRectYF, hw]
    · obtain ⟨h0, h1, h2⟩ := hry hw
      exact splitRectYF_inside isNull g rect h0 h1 h2
  have hPX : g.splitPolyX isect poly = [poly] := by
    cases hw : g.m_xWrap
    · simp [WorldGeometry.splitPolyX, hw]
    · exact splitPolyX_inside isect g poly (hpx hw)
  have hPY : g.splitPolyY isect poly = [poly] := by
    cases hw : g.m_yWrap
    · simp [WorldGeometry.splitPolyY, hw]
    · exact splitPolyY_inside isect g poly (hpy hw)
  constructor
  · unfold WorldGeometry.splitRectF
    split_ifs
    · rfl
    · simp [hRX, hRY]
  · unfold WorldGeometry.splitPoly
    split_ifs
    · rfl
    · simp [hPX, hPY]

/-- Witness for C17 on the 100 x 50 world wrapping on both axes, with the
rectangle x:10..20, y:5..30 and the triangle (1,1), (30,2), (10,40). -/
theorem split_inside_single_fragment_witness :
    (WorldGeometry.ofSizeWrap ⟨100, 50⟩ true true).splitRectF (fun _ => false)
        ⟨10, 5, 20, 30⟩ = some [⟨10, 5, 20, 30⟩] ∧
      (WorldGeometry.ofSizeWrap ⟨100, 50⟩ true true).splitPoly (fun _ _ => ⟨0, 0⟩)
        ⟨[⟨1, 1⟩, ⟨30, 2⟩, ⟨10, 40⟩]⟩ = some [⟨[⟨1, 1⟩, ⟨30, 2⟩, ⟨10, 40⟩]⟩] :=
  split_inside_single_fragment (fun _ => false) (fun _ _ => ⟨0, 0⟩)
    (WorldGeometry.ofSizeWrap ⟨100, 50⟩ true true) ⟨10, 5, 20, 30⟩
    ⟨[⟨1, 1⟩, ⟨30, 2⟩, ⟨10, 40⟩]⟩
    (fun _ => by norm_num [WorldGeometry.ofSizeWrap, WorldGeometry.width])
    (fun _ => by norm_num [WorldGeometry.ofSizeWrap, WorldGeometry.height])
    (fun _ v hv => by
      simp only [List.mem_cons, List.mem_singleton, List.mem_nil_iff, or_false] at hv
      rcases hv with h | h | h <;> subst h <;>
        norm_num [WorldGeometry.ofSizeWrap, WorldGeometry.width])
    (fun _ v hv => by
      simp only [List.mem_cons, List.mem_singleton, List.mem_nil_iff, or_false] at hv
      rcases hv with h | h | h <;> subst h <;>
        norm_num [WorldGeometry.ofSizeWrap, WorldGeometry.height])

/-- C18, as stated, fails: on the 100 x 100 world wrapping on x, the segment
from (50, 0) to (10, 0) lies inside the world, and `splitLine` without
direction preservation returns the single fragment from (10, 0) to (50, 0),
whose start and end are those of the input exchanged. -/
theorem splitLine_exchanges_end_points :
    (WorldGeometry.ofSizeWrap ⟨100, 100⟩ true false).splitLine (fun _ _ => ⟨0, 0⟩)
        ⟨⟨50, 0⟩, ⟨10, 0⟩⟩ false = some [⟨⟨10, 0⟩, ⟨50, 0⟩⟩] ∧
      (WorldGeometry.ofSizeWrap ⟨100, 100⟩ true false).splitLine (fun _ _ => ⟨0, 0⟩)
        ⟨⟨50, 0⟩, ⟨10, 0⟩⟩ false ≠ some [⟨⟨50, 0⟩, ⟨10, 0⟩⟩] := by
  have hX : (WorldGeometry.ofSizeWrap ⟨100, 100⟩ true false).splitLineX (fun _ _ => ⟨0, 0⟩)
      ⟨⟨50, 0⟩, ⟨10, 0⟩⟩ false = [⟨⟨10, 0⟩, ⟨50, 0⟩⟩] := by
    rw [splitLineX_inside _ _ _ (fun _ => by norm_num [WorldGeometry.ofSizeWrap])]
    norm_num [WorldGeometry.ofSizeWrap, Line2F.makePositive, Line2F.reverse]
  have h : (WorldGeometry.ofSizeWrap ⟨100, 100⟩ true false).splitLine (fun _ _ => ⟨0, 0⟩)
      ⟨⟨50, 0⟩, ⟨10, 0⟩⟩ false = some [⟨⟨10, 0⟩, ⟨50, 0⟩⟩] := by
    unfold WorldGeometry.splitLine
    rw [hX]
    simp [WorldGeometry.ofSizeWrap, WorldGeometry.splitLineY]
  refine ⟨h, ?_⟩
  rw [h]
  intro hc
  have h1 := congrArg (fun l : Line2F => l.min.x) (List.head_eq_of_cons_eq (Option.some.inj hc))
  norm_num at h1

/-- C18, amended: in exact arithmetic, on a geometry with at least one wrapping
axis, for a segment whose two end points have coordinates in `[0, S)` on each
wrapping axis of size `S`, `splitLine` without direction preservation returns
exactly one fragment, the input segment made positive: the input itself when
its start comes first (smaller x, or equal x and y not larger), and the input
with start and end exchanged otherwise. -/
theorem splitLine_inside_made_positive (isect : Line2F → Line2F → Vec2F) (g : WorldGeometry)
    (line : Line2F) (hwrap : g.m_xWrap = true ∨ g.m_yWrap = true)
    (hx : g.m_xWrap = true → (0 ≤ line.min.x ∧ line.min.x < (g.width : ℚ)) ∧
      (0 ≤ line.max.x ∧ line.max.x < (g.width : ℚ)))
    (hy : g.m_yWrap = true → (0 ≤ line.min.y ∧ line.min.y < (g.height : ℚ)) ∧
      (0 ≤ line.max.y ∧ line.max.y < (g.height : ℚ))) :
    g.splitLine isect line false = some [line.makePositive.1] ∧
    ((line.min.x < line.max.x ∨ (line.min.x = line.max.x ∧ line.min.y ≤ line.max.y)) →
      line.makePositive.1 = line) ∧
    (¬ (line.min.x < line.max.x ∨ (line.min.x = line.max.x ∧ line.min.y ≤ line.max.y)) →
      line.makePositive.1 = line.reverse) := by
  refine ⟨?_, ?_, ?_⟩
  · have hX := splitLineX_inside isect g line hx
    have hne : (!g.m_yWrap && !g.m_xWrap) = false := by
      rcases hwrap with h | h <;> simp [h]
    unfold WorldGeometry.splitLine
    rw [hne, hX]
    cases hwx : g.m_xWrap
    · have hwy : g.m_yWrap = true := by
        rcases hwrap with h | h
        · rw [hwx] at h
          exact absurd h (by decide)
        · exact h
      have hY := splitLineY_inside isect g line hy
      simp [hY, hwy]
    · have hY := splitLineY_inside isect g line.makePositive.1 (fun hw => by
        obtain ⟨hmin, hmax⟩ := hy hw
        rcases makePositive_cases line with ⟨h2, _⟩ | ⟨h2, _⟩ <;> rw [h2]
        · exact ⟨hmin, hmax⟩
        · exact ⟨hmax, hmin⟩)
      rw [makePositive_idem] at hY
      simp [hY]
  · intro hc
    rcases makePositive_cases line with ⟨h2, _⟩ | ⟨h2, hc2⟩
    · rw [h2]
    · rcases hc with h3 | ⟨h3, h4⟩ <;> rcases hc2 with h5 | ⟨h5, h6⟩ <;> linarith
  · intro hc
    rcases makePositive_cases line with ⟨h2, hc2⟩ | ⟨h2, _⟩
    · exact absurd hc2 hc
    · rw [h2]

/-- Witness for the amended C18 on the 100 x 100 world wrapping on x, with the
segment from (50, 0) to (10, 0). -/
theorem splitLine_inside_made_positive_witness :
    (WorldGeometry.ofSizeWrap ⟨100, 100⟩ true false).splitLine (fun _ _ => ⟨0, 0⟩)
        ⟨⟨50, 0⟩, ⟨10, 0⟩⟩ false
      = some [(⟨⟨50, 0⟩, ⟨10, 0⟩⟩ : Line2F).makePositive.1] :=
  (splitLine_inside_made_positive (fun _ _ => ⟨0, 0⟩)
    (WorldGeometry.ofSizeWrap ⟨100, 100⟩ true false) ⟨⟨50, 0⟩, ⟨10, 0⟩⟩ (Or.inl rfl)
    (fun _ => by norm_num [WorldGeometry.ofSizeWrap, WorldGeometry.width])
    (fun h => absurd h (by decide))).1

/-- C19 fails on the code: on the 100 x 100 world wrapping on y, the segment
from (0, 10) to (10, -5), whose end points differ in y by 15, is returned by
`splitLineY` as one fragment, unchanged, for either value of
`preserveDirection`; the end of that fragment has `y = -5 < 0`. The segment
already counts as positive, because `makePositive` compares x first, so its
start is not its lowest point, and the test against the height misses the
crossing of `y = 0`. -/
theorem splitLineY_keeps_negative_y (isect : Line2F → Line2F → Vec2F)
    (preserveDirection : Bool) :
    (WorldGeometry.ofSizeWrap ⟨100, 100⟩ false true).splitLineY isect
        ⟨⟨0, 10⟩, ⟨10, -5⟩⟩ preserveDirection = [⟨⟨0, 10⟩, ⟨10, -5⟩⟩] ∧
      (∃ l ∈ (WorldGeometry.ofSizeWrap ⟨100, 100⟩ false true).splitLineY isect
        ⟨⟨0, 10⟩, ⟨10, -5⟩⟩ preserveDirection, l.max.y < 0) ∧
      |(10 : ℚ) - (-5)| ≤ 100 := by
  have hP : (⟨⟨0, 10⟩, ⟨10, -5⟩⟩ : Line2F).makePositive = (⟨⟨0, 10⟩, ⟨10, -5⟩⟩, false) := by
    norm_num [Line2F.makePositive]
  have hm : pfmod 10 100 = 10 := pfmod_id 10 100 (by norm_num) (by norm_num)
  have h : (WorldGeometry.ofSizeWrap ⟨100, 100⟩ false true).splitLineY isect
      ⟨⟨0, 10⟩, ⟨10, -5⟩⟩ preserveDirection = [⟨⟨0, 10⟩, ⟨10, -5⟩⟩] := by
    unfold WorldGeometry.splitLineY
    simp only [hP]
    norm_num [WorldGeometry.ofSizeWrap, WorldGeometry.ywrapVecF, WorldGeometry.ywrapF, hm,
      Line2F.diff, Vec2F.add, Vec2F.sub]
  refine ⟨h, ?_, by norm_num [abs_le]⟩
  rw [h]
  exact ⟨_, List.mem_singleton.mpr rfl, by norm_num⟩

/-- C20: in exact arithmetic, on a wrapping x axis of width `W > 0`, for a
segment whose end points differ in x by at most `W` and either value of
`preserveDirection`, `splitLineX` returns one or two fragments and both end
points of every fragment have `0 ≤ x ≤ W`. -/
theorem splitLineX_fragments_in_range (isect : Line2F → Line2F → Vec2F) (g : WorldGeometry)
    (line : Line2F) (preserveDirection : Bool)
    (hw : g.m_xWrap = true) (hpos : 0 < g.width)
    (hext : |line.min.x - line.max.x| ≤ (g.width : ℚ)) :
    ((g.splitLineX isect line preserveDirection).length = 1 ∨
      (g.splitLineX isect line preserveDirection).length = 2) ∧
    ∀ l ∈ g.splitLineX isect line preserveDirection,
      (0 ≤ l.min.x ∧ l.min.x ≤ (g.width : ℚ)) ∧ (0 ≤ l.max.x ∧ l.max.x ≤ (g.width : ℚ)) := by
  have hWw : (g.width : ℚ) = (g.m_size.x : ℚ) := rfl
  have hW : (0 : ℚ) < (g.m_size.x : ℚ) := by
    have := hpos
    unfold WorldGeometry.width at this
    exact_mod_cast this
  rw [hWw] at hext ⊢
  have hP : line.makePositive.1.min.x ≤ line.makePositive.1.max.x ∧
      line.makePositive.1.max.x - line.makePositive.1.min.x ≤ (g.m_size.x : ℚ) := by
    have he := abs_le.mp hext
    rcases makePositive_cases line with ⟨h2, hc⟩ | ⟨h2, hc⟩ <;> rw [h2]
    · constructor
      · rcases hc with h | ⟨h, _⟩ <;> linarith
      · linarith [he.1]
    · simp only [Line2F.reverse]
      constructor
      · rcases hc with h | ⟨h, _⟩ <;> linarith
      · linarith [he.2]
  obtain ⟨_, hm0, hm1⟩ := pfmod_pos line.makePositive.1.min.x _ hW
  unfold WorldGeometry.splitLineX
  simp only [hw, Bool.not_true, Bool.false_eq_true, if_false, WorldGeometry.xwrapVecF,
    WorldGeometry.xwrapF, Vec2F.add, Line2F.diff, Vec2F.sub, Line2F.reverse]
  split_ifs with h1 h2 h3
  · refine ⟨Or.inr rfl, ?_⟩
    intro l hl
    simp only [List.mem_cons, List.mem_singleton, List.mem_nil_iff, or_false] at hl
    rcases hl with h | h <;> subst h <;> dsimp only at h1 ⊢ <;>
      refine ⟨⟨?_, ?_⟩, ⟨?_, ?_⟩⟩ <;> linarith [hP.1, hP.2]
  · refine ⟨Or.inr rfl, ?_⟩
    intro l hl
    simp only [List.mem_cons, List.mem_singleton, List.mem_nil_iff, or_false] at hl
    rcases hl with h | h <;> subst h <;> dsimp only at h1 ⊢ <;>
      refine ⟨⟨?_, ?_⟩, ⟨?_, ?_⟩⟩ <;> linarith [hP.1, hP.2]
  · refine ⟨Or.inl rfl, ?_⟩
    intro l hl
    simp only [List.mem_singleton] at hl
    subst hl
    dsimp only at h1 ⊢
    refine ⟨⟨?_, ?_⟩, ⟨?_, ?_⟩⟩ <;> linarith [hP.1, hP.2]
  · refine ⟨Or.inl rfl, ?_⟩
    intro l hl
    simp only [List.mem_singleton] at hl
    subst hl
    dsimp only at h1 ⊢
    refine ⟨⟨?_, ?_⟩, ⟨?_, ?_⟩⟩ <;> linarith [hP.1, hP.2]

/-- Witness for C20 on the 100 x 100 world wrapping on x, with the segment
from (95, 0) to (110, 10) and direction preservation. -/
theorem splitLineX_fragments_in_range_witness :
    ((WorldGeometry.ofWidthHeight 100 100).splitLineX (fun _ _ => ⟨0, 0⟩)
        ⟨⟨95, 0⟩, ⟨110, 10⟩⟩ true).length = 1 ∨
      ((WorldGeometry.ofWidthHeight 100 100).splitLineX (fun _ _ => ⟨0, 0⟩)
        ⟨⟨95, 0⟩, ⟨110, 10⟩⟩ true).length = 2 :=
  (splitLineX_fragments_in_range (fun _ _ => ⟨0, 0⟩) (WorldGeometry.ofWidthHeight 100 100)
    ⟨⟨95, 0⟩, ⟨110, 10⟩⟩ true (by decide) (by decide)
    (by norm_num [WorldGeometry.ofWidthHeight, WorldGeometry.width, abs_le])).1

/-- C21, as stated, fails: on the 100 x 100 world wrapping on x, with the
intersection primitive returning the point of the segment on the seam, the
segment from (50, 0) to (150, 0) splits into (50,0)-(100,0) and
(0,0)-(50,0). The seam point (100, 0) ends the first fragment but is no end
point of the second, whose seam end is the other image (0, 0); the one end
point the two fragments have in common is (50, 0), which is not the seam
intersection; and modulo the width the fragments meet at both ends, not at
exactly one. -/
theorem splitLineX_seam_point_not_shared :
    ∃ f1 f2 : Line2F,
      (WorldGeometry.ofWidthHeight 100 100).splitLineX
        (fun l b => ⟨b.min.x,
          l.min.y + (b.min.x - l.min.x) * (l.max.y - l.min.y) / (l.max.x - l.min.x)⟩)
        ⟨⟨50, 0⟩, ⟨150, 0⟩⟩ false = [f1, f2] ∧
      f1.max = ⟨100, 0⟩ ∧ f1.max ≠ f2.min ∧ f1.max ≠ f2.max ∧
      f1.min = f2.max ∧ f1.min ≠ ⟨100, 0⟩ ∧
      f1.max.sameModX 100 f2.min ∧ f1.min.sameModX 100 f2.max := by
  have h50 : pfmod 50 100 = 50 := pfmod_id 50 100 (by norm_num) (by norm_num)
  have hP : (⟨⟨50, 0⟩, ⟨150, 0⟩⟩ : Line2F).makePositive = (⟨⟨50, 0⟩, ⟨150, 0⟩⟩, false) := by
    norm_num [Line2F.makePositive]
  refine ⟨⟨⟨50, 0⟩, ⟨100, 0⟩⟩, ⟨⟨0, 0⟩, ⟨50, 0⟩⟩, ?_, rfl, ?_, ?_, rfl, ?_, ?_, ?_⟩
  · unfold WorldGeometry.splitLineX
    simp only [hP]
    norm_num [WorldGeometry.ofWidthHeight, WorldGeometry.xwrapVecF, WorldGeometry.xwrapF, h50,
      Line2F.diff, Vec2F.add, Vec2F.sub]
  · intro h
    have := congrArg Vec2F.x h
    norm_num at this
  · intro h
    have := congrArg Vec2F.x h
    norm_num at this
  · intro h
    have := congrArg Vec2F.x h
    norm_num at this
  · exact ⟨rfl, 1, by norm_num⟩
  · exact ⟨rfl, 0, by norm_num⟩

/-- C21, amended: in exact arithmetic, on a wrapping x axis of width `W > 0`,
for either value of `preserveDirection`, let `lw` be a segment made positive
with its start wrapped, of x extent at most `W` and with its end at `x > W`,
and let the intersection primitive return the y of the point of `lw` on the
seam `x = W`. Then `splitLineX` returns exactly two segments. Unless
`preserveDirection` is set and making the segment positive exchanged its end
points, the first runs from the wrapped start to the seam point on `x = W` and
the second from its image on `x = 0`, at the same y, to the end moved back by
`W`; when `preserveDirection` is set and the end points were exchanged, the
same two fragments are returned reversed and in the opposite order, so that
the first ends on `x = 0` and the second starts on `x = W`. In both cases the
end of the first fragment and the start of the second meet modulo `W` (and no
other pair of end points does, unless the segment is horizontal with x extent
exactly `W`); and the sum of the two Euclidean lengths equals the length of
the original segment. -/
theorem splitLineX_crossing_two_fragments (isect : Line2F → Line2F → Vec2F)
    (g : WorldGeometry) (line lw : Line2F) (preserveDirection : Bool)
    (hw : g.m_xWrap = true) (hpos : 0 < g.width)
    (hlw : lw = ⟨g.xwrapVecF line.makePositive.1.min,
      (g.xwrapVecF line.makePositive.1.min).add line.makePositive.1.diff⟩)
    (hext : |line.min.x - line.max.x| ≤ (g.width : ℚ))
    (hcross : lw.max.x > (g.width : ℚ))
    (hisect : ((isect lw ⟨⟨g.m_size.x, 0⟩, ⟨g.m_size.x, g.m_size.y⟩⟩).y - lw.min.y)
        * (lw.max.x - lw.min.x) = ((g.width : ℚ) - lw.min.x) * (lw.max.y - lw.min.y)) :
    ∃ f1 f2 : Line2F, g.splitLineX isect line preserveDirection = [f1, f2] ∧
      ((line.makePositive.2 && preserveDirection) = false →
        f1.min = lw.min ∧
        f1.max = ⟨g.width, (isect lw ⟨⟨g.m_size.x, 0⟩, ⟨g.m_size.x, g.m_size.y⟩⟩).y⟩ ∧
        f2.min = ⟨0, (isect lw ⟨⟨g.m_size.x, 0⟩, ⟨g.m_size.x, g.m_size.y⟩⟩).y⟩ ∧
        f2.max = lw.max.sub ⟨g.width, 0⟩) ∧
      ((line.makePositive.2 && preserveDirection) = true →
        f1.min = lw.max.sub ⟨g.width, 0⟩ ∧
        f1.max = ⟨0, (isect lw ⟨⟨g.m_size.x, 0⟩, ⟨g.m_size.x, g.m_size.y⟩⟩).y⟩ ∧
        f2.min = ⟨g.width, (isect lw ⟨⟨g.m_size.x, 0⟩, ⟨g.m_size.x, g.m_size.y⟩⟩).y⟩ ∧
        f2.max = lw.min) ∧
      f1.max.sameModX (g.width : ℚ) f2.min ∧
      ¬ f1.min.sameModX (g.width : ℚ) f2.min ∧
      ¬ f1.max.sameModX (g.width : ℚ) f2.max ∧
      (f1.min.sameModX (g.width : ℚ) f2.max ↔
        (lw.max.x - lw.min.x = (g.width : ℚ) ∧ lw.max.y = lw.min.y)) ∧
      Real.sqrt (f1.lengthSq : ℝ) + Real.sqrt (f2.lengthSq : ℝ)
        = Real.sqrt (line.lengthSq : ℝ) := by
  have hWw : (g.width : ℚ) = (g.m_size.x : ℚ) := rfl
  have hW : (0 : ℚ) < (g.m_size.x : ℚ) := by
    have := hpos
    unfold WorldGeometry.width at this
    exact_mod_cast this
  rw [hWw] at hext hcross hisect ⊢
  have hP : line.makePositive.1.min.x ≤ line.makePositive.1.max.x ∧
      line.makePositive.1.max.x - line.makePositive.1.min.x ≤ (g.m_size.x : ℚ) := by
    have he := abs_le.mp hext
    rcases makePositive_cases line with ⟨h2, hc⟩ | ⟨h2, hc⟩ <;> rw [h2]
    · constructor
      · rcases hc with h | ⟨h, _⟩ <;> linarith
      · linarith [he.1]
    · simp only [Line2F.reverse]
      constructor
      · rcases hc with h | ⟨h, _⟩ <;> linarith
      · linarith [he.2]
  obtain ⟨_, hm0, hm1⟩ := pfmod_pos line.makePositive.1.min.x _ hW
  have hlen := lengthSq_makePositive line
  have hminx : lw.min.x = pfmod line.makePositive.1.min.x (g.m_size.x : ℚ) := by
    rw [hlw]
    simp [WorldGeometry.xwrapVecF, WorldGeometry.xwrapF, hw]
  have hdx : lw.max.x - lw.min.x
      = line.makePositive.1.max.x - line.makePositive.1.min.x := by
    rw [hlw]
    simp [Vec2F.add, Line2F.diff, Vec2F.sub]
  have hD : lw.lengthSq = line.lengthSq := by
    rw [← hlen, hlw]
    simp [Line2F.lengthSq, Vec2F.add, Line2F.diff, Vec2F.sub, WorldGeometry.xwrapVecF]
  have hS : g.splitLineX isect line preserveDirection
      = if (line.makePositive.2 && preserveDirection) = true then
          [⟨lw.max.sub ⟨g.m_size.x, 0⟩,
              ⟨0, (isect lw ⟨⟨g.m_size.x, 0⟩, ⟨g.m_size.x, g.m_size.y⟩⟩).y⟩⟩,
            ⟨⟨g.m_size.x, (isect lw ⟨⟨g.m_size.x, 0⟩, ⟨g.m_size.x, g.m_size.y⟩⟩).y⟩,
              lw.min⟩]
        else
          [⟨lw.min, ⟨g.m_size.x,
              (isect lw ⟨⟨g.m_size.x, 0⟩, ⟨g.m_size.x, g.m_size.y⟩⟩).y⟩⟩,
            ⟨⟨0, (isect lw ⟨⟨g.m_size.x, 0⟩, ⟨g.m_size.x, g.m_size.y⟩⟩).y⟩,
              lw.max.sub ⟨g.m_size.x, 0⟩⟩] := by
    have h1 : g.xwrapVecF line.makePositive.1.min = lw.min := by rw [hlw]
    have h2 : (g.xwrapVecF line.makePositive.1.min).add line.makePositive.1.diff = lw.max := by
      rw [hlw]
    unfold WorldGeometry.splitLineX
    simp only [hw, Bool.not_true, Bool.false_eq_true, if_false, ← hlw]
    rw [h2, h1, if_pos hcross]
  generalize (isect lw ⟨⟨g.m_size.x, 0⟩, ⟨g.m_size.x, g.m_size.y⟩⟩).y = iy at hisect hS
  rw [← hminx] at hm0 hm1
  rw [← hdx] at hP
  have hdpos : 0 < lw.max.x - lw.min.x := by linarith
  -- the seam point and its image are the same point of the wrapped world
  have hA : Vec2F.sameModX (g.m_size.x : ℚ) ⟨g.m_size.x, iy⟩ ⟨0, iy⟩ := ⟨rfl, 1, by simp⟩
  have hB : ¬ Vec2F.sameModX (g.m_size.x : ℚ) lw.min ⟨0, iy⟩ := by
    rintro ⟨_, k, hk⟩
    simp only [] at hk
    have hkk : k ≤ 0 ∨ 1 ≤ k := by omega
    rcases hkk with h | h
    · have hq : (k : ℚ) ≤ 0 := by exact_mod_cast h
      have := mul_le_mul_of_nonneg_right hq (le_of_lt hW)
      linarith
    · have hq : (1 : ℚ) ≤ (k : ℚ) := by exact_mod_cast h
      have := mul_le_mul_of_nonneg_right hq (le_of_lt hW)
      linarith
  have hC : ¬ Vec2F.sameModX (g.m_size.x : ℚ) ⟨g.m_size.x, iy⟩
      (lw.max.sub ⟨g.m_size.x, 0⟩) := by
    rintro ⟨_, k, hk⟩
    simp only [Vec2F.sub] at hk
    have hkk : k ≤ 0 ∨ 1 ≤ k := by omega
    rcases hkk with h | h
    · have hq : (k : ℚ) ≤ 0 := by exact_mod_cast h
      have := mul_le_mul_of_nonneg_right hq (le_of_lt hW)
      linarith
    · have hq : (1 : ℚ) ≤ (k : ℚ) := by exact_mod_cast h
      have := mul_le_mul_of_nonneg_right hq (le_of_lt hW)
      linarith
  have hE : Vec2F.sameModX (g.m_size.x : ℚ) lw.min (lw.max.sub ⟨g.m_size.x, 0⟩) ↔
      (lw.max.x - lw.min.x = (g.m_size.x : ℚ) ∧ lw.max.y = lw.min.y) := by
    constructor
    · rintro ⟨hy, k, hk⟩
      simp only [Vec2F.sub] at hk hy
      have hkk : k ≤ -1 ∨ k = 0 ∨ 1 ≤ k := by omega
      rcases hkk with h | h | h
      · have hq : (k : ℚ) ≤ -1 := by exact_mod_cast h
        have := mul_le_mul_of_nonneg_right hq (le_of_lt hW)
        linarith
      · subst h
        simp only [Int.cast_zero, zero_mul, add_zero] at hk
        exact ⟨by linarith, by linarith⟩
      · have hq : (1 : ℚ) ≤ (k : ℚ) := by exact_mod_cast h
        have := mul_le_mul_of_nonneg_right hq (le_of_lt hW)
        linarith
    · rintro ⟨h1, h2⟩
      refine ⟨?_, 0, ?_⟩
      · simp only [Vec2F.sub]
        linarith
      · simp only [Vec2F.sub, Int.cast_zero, zero_mul, add_zero]
        linarith
  have hL : Real.sqrt ((Line2F.lengthSq ⟨lw.min, ⟨g.m_size.x, iy⟩⟩ : ℚ) : ℝ)
      + Real.sqrt ((Line2F.lengthSq ⟨⟨0, iy⟩, lw.max.sub ⟨g.m_size.x, 0⟩⟩ : ℚ) : ℝ)
      = Real.sqrt (line.lengthSq : ℝ) := by
    rw [← hD]
    have hiy : iy = lw.min.y
        + ((g.m_size.x : ℚ) - lw.min.x) / (lw.max.x - lw.min.x) * (lw.max.y - lw.min.y) := by
      field_simp
      linarith
    refine sqrt_split (((g.m_size.x : ℚ) - lw.min.x) / (lw.max.x - lw.min.x)) _ _ _
      (div_nonneg (by linarith) (le_of_lt hdpos)) ((div_le_one hdpos).mpr (by linarith)) ?_ ?_
    · simp only [Line2F.lengthSq]
      rw [hiy]
      field_simp
      ring
    · simp only [Line2F.lengthSq, Vec2F.sub]
      rw [hiy]
      field_simp
      ring
  cases hsw : (line.makePositive.2 && preserveDirection)
  · rw [hsw] at hS
    refine ⟨_, _, hS, fun _ => ⟨rfl, rfl, rfl, rfl⟩, fun h => absurd h (by simp), hA, hB, hC,
      hE, hL⟩
  · rw [hsw] at hS
    refine ⟨_, _, hS, fun h => absurd h (by simp), fun _ => ⟨rfl, rfl, rfl, rfl⟩,
      (sameModX_symm _ _ _).mp hA, fun h => hC ((sameModX_symm _ _ _).mp h),
      fun h => hB ((sameModX_symm _ _ _).mp h), (sameModX_symm _ _ _).trans hE, ?_⟩
    rw [lengthSq_swap (⟨0, iy⟩ : Vec2F) (lw.max.sub ⟨g.m_size.x, 0⟩),
      lengthSq_swap lw.min (⟨g.m_size.x, iy⟩ : Vec2F), add_comm]
    exact hL

/-- Witness for the amended C21 on the 100 x 100 world wrapping on x, with
`preserveDirection` set and the segment from (110, 20) to (90, 0), which
points in the negative direction and meets the seam at (100, 10). -/
theorem splitLineX_crossing_two_fragments_witness :
    ∃ f1 f2 : Line2F,
      (WorldGeometry.ofWidthHeight 100 100).splitLineX
        (fun l b => ⟨b.min.x,
          l.min.y + (b.min.x - l.min.x) * (l.max.y - l.min.y) / (l.max.x - l.min.x)⟩)
        ⟨⟨110, 20⟩, ⟨90, 0⟩⟩ true = [f1, f2] ∧
      Real.sqrt (f1.lengthSq : ℝ) + Real.sqrt (f2.lengthSq : ℝ)
        = Real.sqrt ((⟨⟨110, 20⟩, ⟨90, 0⟩⟩ : Line2F).lengthSq : ℝ) :=
  have h90 : pfmod 90 100 = 90 := pfmod_id 90 100 (by norm_num) (by norm_num)
  have hP : (⟨⟨110, 20⟩, ⟨90, 0⟩⟩ : Line2F).makePositive = (⟨⟨90, 0⟩, ⟨110, 20⟩⟩, true) := by
    norm_num [Line2F.makePositive, Line2F.reverse]
  let ⟨f1, f2, h1, _, _, _, _, _, _, h2⟩ := splitLineX_crossing_two_fragments
    (fun l b => ⟨b.min.x,
      l.min.y + (b.min.x - l.min.x) * (l.max.y - l.min.y) / (l.max.x - l.min.x)⟩)
    (WorldGeometry.ofWidthHeight 100 100) ⟨⟨110, 20⟩, ⟨90, 0⟩⟩ ⟨⟨90, 0⟩, ⟨110, 20⟩⟩ true
    (by decide) (by decide)
    (by
      rw [hP]
      norm_num [WorldGeometry.ofWidthHeight, WorldGeometry.xwrapVecF, WorldGeometry.xwrapF, h90,
        Line2F.diff, Vec2F.add, Vec2F.sub])
    (by norm_num [WorldGeometry.ofWidthHeight, WorldGeometry.width, abs_le])
    (by norm_num [WorldGeometry.ofWidthHeight, WorldGeometry.width])
    (by norm_num [WorldGeometry.ofWidthHeight, WorldGeometry.width])
  ⟨f1, f2, h1, h2⟩

/-- C22: in exact arithmetic, on a wrapping x axis of width `W > 0`, for a
convex polygon whose vertices all have x strictly between `-W` and `W`, with
at least one vertex at `x < 0` and at least one at `x > 0`, the intersection
primitive returning the y of the point of each crossing side on the seam
`x = 0`: `splitPolyX` returns exactly two polygons, and the sum of their areas
equals the area of the input polygon. -/
theorem splitPolyX_straddling_area (isect : Line2F → Line2F → Vec2F) (g : WorldGeometry)
    (poly : PolyF) (hw : g.m_xWrap = true) (_hpos : 0 < g.width) (hconv : poly.isConvex)
    (hrange : ∀ v ∈ poly.vertexes, -(g.width : ℚ) < v.x ∧ v.x < (g.width : ℚ))
    (hneg : ∃ v ∈ poly.vertexes, v.x < 0) (hposv : ∃ v ∈ poly.vertexes, 0 < v.x)
    (hisect : ∀ i < poly.sides, (poly.side i).min.x ≠ (poly.side i).max.x →
      ((isect (poly.side i) ⟨⟨0, 0⟩, ⟨0, 1⟩⟩).y - (poly.side i).min.y)
          * ((poly.side i).max.x - (poly.side i).min.x)
        = (0 - (poly.side i).min.x) * ((poly.side i).max.y - (poly.side i).min.y)) :
    ∃ q1 q2 : PolyF, g.splitPolyX isect poly = [q1, q2] ∧
      q1.convexArea + q2.convexArea = poly.convexArea := by
  have hWw : (g.width : ℚ) = (g.m_size.x : ℚ) := rfl
  rw [hWw] at hrange
  obtain ⟨u, hu, hux⟩ := hneg
  obtain ⟨w, hwm, hwx⟩ := hposv
  obtain ⟨σ, hσ, hcv⟩ := hconv
  have hn : 0 < poly.vertexes.length := List.length_pos_of_mem hu
  have hidx : ∀ v ∈ poly.vertexes, ∃ i, i < poly.vertexes.length ∧ poly.vtx i = v := by
    intro v hv
    obtain ⟨i, hi, hiv⟩ := List.getElem_of_mem hv
    exact ⟨i, hi, by simp [PolyF.vtx, Nat.mod_eq_of_lt hi, List.getElem?_eq_getElem hi, hiv]⟩
  obtain ⟨iu, hiu, hvu⟩ := hidx u hu
  obtain ⟨iw, hiw, hvw⟩ := hidx w hwm
  have hcyc : poly.vtx poly.vertexes.length = poly.vtx 0 := by
    simp [PolyF.vtx]
  have hcycN : poly.isNeg poly.vertexes.length = poly.isNeg 0 := by
    simp [PolyF.isNeg, hcyc]
  -- a reference point on the seam, inside the polygon
  have hD : 0 < w.x - u.x := by linarith
  have ht0 : 0 ≤ (0 - u.x) / (w.x - u.x) := div_nonneg (by linarith) (le_of_lt hD)
  have ht1 : (0 - u.x) / (w.x - u.x) ≤ 1 := (div_le_one hD).mpr (by linarith)
  obtain ⟨c, hc0, hcK⟩ : ∃ c : Vec2F, c.x = 0 ∧ ∀ A B : Vec2F,
      crossAt c A B = (1 - (0 - u.x) / (w.x - u.x)) * ((B.sub A).cross (u.sub A))
        + (0 - u.x) / (w.x - u.x) * ((B.sub A).cross (w.sub A)) := by
    refine ⟨⟨u.x + (0 - u.x) / (w.x - u.x) * (w.x - u.x),
      u.y + (0 - u.x) / (w.x - u.x) * (w.y - u.y)⟩, ?_, ?_⟩
    · show u.x + (0 - u.x) / (w.x - u.x) * (w.x - u.x) = 0
      field_simp
    · intro A B
      simp only [crossAt, Vec2F.cross, Vec2F.sub]
      ring
  -- the walk
  have hfold := splitPolyX_fold_chains isect g poly (fun v hv => le_of_lt (hrange v hv).2)
    poly.vertexes.length le_rfl
  have hposne : poly.posChain isect poly.vertexes.length ≠ [] :=
    seamChain_ne_nil _ _ _ _ iw hiw (by simp [PolyF.isNeg, hvw, not_lt.mpr (le_of_lt hwx)])
  have hnegne : poly.negChain isect g.m_size.x poly.vertexes.length ≠ [] :=
    seamChain_ne_nil _ _ _ _ iu hiu (by simp [PolyF.isNeg, hvu, hux])
  -- the three shoelace sums
  have hSpos : PolyF.shoelace ⟨poly.posChain isect poly.vertexes.length⟩
      = ((List.range poly.vertexes.length).map (seamClip c (fun k => !poly.isNeg k) poly.vtx
          (fun k => ⟨0, poly.seamY isect k⟩))).sum :=
    seamChain_shoelace c _ _ _ (fun k => hc0.symm) _ (by simp [hcycN]) hcyc hposne
  have hSneg : PolyF.shoelace ⟨poly.negChain isect g.m_size.x poly.vertexes.length⟩
      = ((List.range poly.vertexes.length).map (seamClip ⟨c.x + g.m_size.x, c.y⟩ poly.isNeg
          (fun k => (poly.vtx k).add ⟨g.m_size.x, 0⟩)
          (fun k => ⟨g.m_size.x, poly.seamY isect k⟩))).sum :=
    seamChain_shoelace ⟨c.x + g.m_size.x, c.y⟩ _ _ _ (fun k => by simp [hc0]) _ hcycN
      (by simp [hcyc]) hnegne
  have hSpoly : poly.shoelace = ((List.range poly.vertexes.length).map
      (fun k => crossAt c (poly.vtx k) (poly.vtx (k + 1)))).sum := by
    have hall := seamChain_shoelace c (fun _ => true) poly.vtx (fun _ => c) (fun _ => rfl)
      poly.vertexes.length rfl hcyc (seamChain_ne_nil _ _ _ _ iu hiu rfl)
    rw [seamChain_all_inside, vtx_range] at hall
    rw [hall]
    rfl
  -- the sides, one by one
  have hsplit := sum_range_split
    (seamClip c (fun k => !poly.isNeg k) poly.vtx (fun k => ⟨0, poly.seamY isect k⟩))
    (seamClip ⟨c.x + g.m_size.x, c.y⟩ poly.isNeg (fun k => (poly.vtx k).add ⟨g.m_size.x, 0⟩)
      (fun k => ⟨g.m_size.x, poly.seamY isect k⟩))
    (fun k => crossAt c (poly.vtx k) (poly.vtx (k + 1))) σ poly.vertexes.length
    (by
      intro k hk
      have hside := side_eq_vtx poly k hk
      have hcu := hcv k hk u hu
      have hcw := hcv k hk w hwm
      rw [hside] at hcu hcw
      have hK : 0 ≤ σ * crossAt c (poly.vtx k) (poly.vtx (k + 1)) := by
        rw [hcK, mul_add]
        have h1 := mul_nonneg (by linarith : 0 ≤ 1 - (0 - u.x) / (w.x - u.x)) hcu
        have h2 := mul_nonneg ht0 hcw
        have e1 : σ * ((1 - (0 - u.x) / (w.x - u.x))
            * ((poly.vtx (k + 1)).sub (poly.vtx k)).cross (u.sub (poly.vtx k)))
            = (1 - (0 - u.x) / (w.x - u.x))
              * (σ * ((poly.vtx (k + 1)).sub (poly.vtx k)).cross (u.sub (poly.vtx k))) := by
          ring
        have e2 : σ * ((0 - u.x) / (w.x - u.x)
            * ((poly.vtx (k + 1)).sub (poly.vtx k)).cross (w.sub (poly.vtx k)))
            = (0 - u.x) / (w.x - u.x)
              * (σ * ((poly.vtx (k + 1)).sub (poly.vtx k)).cross (w.sub (poly.vtx k))) := by
          ring
        rw [e1, e2]
        exact add_nonneg h1 h2
      have hiy : (poly.vtx k).x ≠ (poly.vtx (k + 1)).x →
          (poly.seamY isect k - (poly.vtx k).y) * ((poly.vtx (k + 1)).x - (poly.vtx k).x)
            = (0 - (poly.vtx k).x) * ((poly.vtx (k + 1)).y - (poly.vtx k).y) := by
        intro hne
        have := hisect k hk (by rw [hside]; exact hne)
        rw [hside] at this
        simpa [PolyF.seamY, hside] using this
      obtain ⟨c1, c2, c3⟩ := clip_split c (poly.vtx k) (poly.vtx (k + 1)) g.m_size.x
        (poly.seamY isect k) σ hK hiy
      by_cases hA : (poly.vtx k).x < 0 <;> by_cases hB : (poly.vtx (k + 1)).x < 0
      · have := c1 hA hB
        simp only [seamClip, PolyF.isNeg, hA, hB, decide_True, Bool.not_true,
          Bool.false_eq_true, if_false, if_true, zero_add, mul_zero, le_refl, true_and]
        exact ⟨this, by rw [this]; exact hK⟩
      · obtain ⟨e, s1, s2⟩ := c2 hA hB
        simp only [seamClip, PolyF.isNeg, hA, hB, decide_True, decide_False, Bool.not_true,
          Bool.not_false, Bool.false_eq_true, if_false, if_true]
        exact ⟨e, s1, s2⟩
      · obtain ⟨e, s1, s2⟩ := c3 hA hB
        simp only [seamClip, PolyF.isNeg, hA, hB, decide_True, decide_False, Bool.not_true,
          Bool.not_false, Bool.false_eq_true, if_false, if_true]
        exact ⟨e, s1, s2⟩
      · simp only [seamClip, PolyF.isNeg, hA, hB, decide_False, Bool.not_false,
          Bool.false_eq_true, if_false, if_true, add_zero, mul_zero, le_refl, and_true,
          true_and]
        exact hK)
  obtain ⟨hsum, hs1, hs2⟩ := hsplit
  rw [← hSpos] at hsum hs1
  rw [← hSneg] at hsum hs2
  rw [← hSpoly] at hsum
  have harea : |PolyF.shoelace ⟨poly.posChain isect poly.vertexes.length⟩|
      + |PolyF.shoelace ⟨poly.negChain isect g.m_size.x poly.vertexes.length⟩|
      = |poly.shoelace| := by
    rw [← hsum]
    rcases hσ with h | h <;> rw [h] at hs1 hs2
    · rw [abs_of_nonneg (by linarith), abs_of_nonneg (by linarith),
        abs_of_nonneg (by linarith)]
    · rw [abs_of_nonpos (by linarith), abs_of_nonpos (by linarith),
        abs_of_nonpos (by linarith)]
      ring
  -- the result of the function
  have hnull : poly.isNull = false := by
    simp only [PolyF.isNull, List.isEmpty_eq_false_iff_exists_mem]
    exact ⟨u, hu⟩
  unfold WorldGeometry.splitPolyX
  rw [hnull, hw]
  simp only [Bool.not_true, Bool.or_self, Bool.false_eq_true, if_false, PolyF.sides]
  rw [hfold]
  have hp1 : (⟨poly.posChain isect poly.vertexes.length⟩ : PolyF).isNull = false := by
    simp only [PolyF.isNull]
    cases h : poly.posChain isect poly.vertexes.length with
    | nil => exact absurd h hposne
    | cons b t => rfl
  have hn1 : (⟨poly.negChain isect g.m_size.x poly.vertexes.length⟩ : PolyF).isNull
      = false := by
    simp only [PolyF.isNull]
    cases h : poly.negChain isect g.m_size.x poly.vertexes.length with
    | nil => exact absurd h hnegne
    | cons b t => rfl
  cases h0 : poly.isNeg 0
  · refine ⟨⟨poly.posChain isect poly.vertexes.length⟩,
      ⟨poly.negChain isect g.m_size.x poly.vertexes.length⟩, ?_, ?_⟩
    · simp [WorldGeometry.polySplitResult, hp1, hn1]
    · simp only [PolyF.convexArea]
      linarith
  · refine ⟨⟨poly.negChain isect g.m_size.x poly.vertexes.length⟩,
      ⟨poly.posChain isect poly.vertexes.length⟩, ?_, ?_⟩
    · simp [WorldGeometry.polySplitResult, hp1, hn1]
    · simp only [PolyF.convexArea]
      linarith

/-- Witness for C22 on the 100 x 100 world wrapping on x, with the triangle
(-20, 0), (30, 0), (10, 40) and the exact intersection of a side with a
vertical line. -/
theorem splitPolyX_straddling_area_witness :
    ∃ q1 q2 : PolyF,
      (WorldGeometry.ofWidthHeight 100 100).splitPolyX
          (fun l b => ⟨b.min.x,
            l.min.y + (b.min.x - l.min.x) * (l.max.y - l.min.y) / (l.max.x - l.min.x)⟩)
          ⟨[⟨-20, 0⟩, ⟨30, 0⟩, ⟨10, 40⟩]⟩ = [q1, q2] ∧
        q1.convexArea + q2.convexArea = PolyF.convexArea ⟨[⟨-20, 0⟩, ⟨30, 0⟩, ⟨10, 40⟩]⟩ :=
  splitPolyX_straddling_area
    (fun l b => ⟨b.min.x,
      l.min.y + (b.min.x - l.min.x) * (l.max.y - l.min.y) / (l.max.x - l.min.x)⟩)
    (WorldGeometry.ofWidthHeight 100 100) ⟨[⟨-20, 0⟩, ⟨30, 0⟩, ⟨10, 40⟩]⟩ rfl (by decide)
    ⟨1, Or.inl rfl, fun i hi u hu => by
      simp only [PolyF.sides, List.length_cons, List.length_nil] at hi
      simp only [List.mem_cons, List.mem_singleton, List.mem_nil_iff, or_false] at hu
      interval_cases i <;> rcases hu with h | h | h <;> subst h <;>
        norm_num [PolyF.side, Vec2F.cross, Vec2F.sub]⟩
    (fun v hv => by
      simp only [List.mem_cons, List.mem_singleton, List.mem_nil_iff, or_false] at hv
      rcases hv with h | h | h <;> subst h <;>
        norm_num [WorldGeometry.ofWidthHeight, WorldGeometry.width])
    ⟨⟨-20, 0⟩, by simp, by norm_num⟩ ⟨⟨30, 0⟩, by simp, by norm_num⟩
    (fun i hi _ => by
      simp only [PolyF.sides, List.length_cons, List.length_nil] at hi
      interval_cases i <;> norm_num [PolyF.side])

/-- C23: for the default-constructed geometry, of size (0, 0) and without
wrapping, every operation is its flat counterpart: `xwrap`, `ywrap`, `xlimit`
and `ylimit` return their argument, `xdiff`, `ydiff`, `xpdiff` and `ypdiff`
return `a - b`, `nearestToX` and `nearestToY` return the target,
`crossesWrapX` and `crossesWrapY` are false, and `splitRect`, `splitLine`,
`splitPoly` and `splitXRegion` return exactly one fragment, equal to their
input (for the `int` overloads and for the `float` overloads in exact
arithmetic). -/
theorem null_geometry_is_flat (isNullI : RectI → Bool) (isNullF : RectF → Bool)
    (isect : Line2F → Line2F → Vec2F) (v a b : Int) (u c d : ℚ) (rectI : RectI)
    (rectF : RectF) (line : Line2F) (preserveDirection : Bool) (poly : PolyF)
    (regionI : Vec2I) (regionF : Vec2F) :
    (WorldGeometry.null.xwrap v = some v ∧ WorldGeometry.null.ywrap v = some v ∧
      WorldGeometry.null.xlimit v = some v ∧ WorldGeometry.null.ylimit v = some v) ∧
    (WorldGeometry.null.xdiff a b = some (a - b) ∧
      WorldGeometry.null.ydiff a b = some (a - b) ∧
      WorldGeometry.null.xpdiff a b = some (a - b) ∧
      WorldGeometry.null.ypdiff a b = some (a - b)) ∧
    (WorldGeometry.null.nearestToX a b = some b ∧
      WorldGeometry.null.nearestToY a b = some b) ∧
    (WorldGeometry.null.xwrapF u = u ∧ WorldGeometry.null.ywrapF u = u ∧
      WorldGeometry.null.xdiffF c d = c - d ∧ WorldGeometry.null.ydiffF c d = c - d) ∧
    (WorldGeometry.null.crossesWrapX c d = false ∧
      WorldGeometry.null.crossesWrapY c d = false) ∧
    (WorldGeometry.null.splitRect isNullI rectI = some [rectI] ∧
      WorldGeometry.null.splitRectF isNullF rectF = some [rectF] ∧
      WorldGeometry.null.splitLine isect line preserveDirection = some [line] ∧
      WorldGeometry.null.splitPoly isect poly = some [poly] ∧
      WorldGeometry.null.splitXRegion regionI = some [regionI] ∧
      WorldGeometry.null.splitXRegionF regionF = [regionF]) := by
  refine ⟨⟨?_, ?_, ?_, ?_⟩, ⟨?_, ?_, ?_, ?_⟩, ⟨?_, ?_⟩, ⟨?_, ?_, ?_, ?_⟩, ⟨?_, ?_⟩,
    ⟨?_, ?_, ?_, ?_, ?_, ?_⟩⟩ <;>
  simp [WorldGeometry.null, WorldGeometry.xwrap, WorldGeometry.ywrap, WorldGeometry.xlimit,
    WorldGeometry.ylimit, WorldGeometry.xdiff, WorldGeometry.ydiff, WorldGeometry.xpdiff,
    WorldGeometry.ypdiff, WorldGeometry.nearestToX, WorldGeometry.nearestToY,
    WorldGeometry.xwrapF, WorldGeometry.ywrapF, WorldGeometry.xdiffF, WorldGeometry.ydiffF,
    WorldGeometry.crossesWrapX, WorldGeometry.crossesWrapY, WorldGeometry.splitRect,
    WorldGeometry.splitRectF, WorldGeometry.splitLine, WorldGeometry.splitPoly,
    WorldGeometry.splitXRegion, WorldGeometry.splitXRegionF]

/-- C24, as stated, fails: on the default-constructed geometry, which does not
wrap, `xpdiff 0 1` and `ypdiff 0 1` are `-1`. -/
theorem xpdiff_negative_without_wrap :
    WorldGeometry.null.xpdiff 0 1 = some (-1) ∧ WorldGeometry.null.ypdiff 0 1 = some (-1) ∧
      ¬ ∀ p, WorldGeometry.null.xpdiff 0 1 = some p → 0 ≤ p := by
  refine ⟨by decide, by decide, ?_⟩
  intro h
  have := h (-1) (by decide)
  omega

/-- C24, amended: on a wrapping x axis of width `W > 0`, `xpdiff x1 x2` returns
a result that is never negative; on a non-wrapping x axis it returns
`x1 - x2`, which is negative when `x1 < x2`; likewise `ypdiff`. -/
theorem xpdiff_ypdiff_sign (g : WorldGeometry) (x1 x2 : Int) :
    (g.m_xWrap = true → 0 < g.width → ∃ p, g.xpdiff x1 x2 = some p ∧ 0 ≤ p) ∧
    (g.m_yWrap = true → 0 < g.height → ∃ p, g.ypdiff x1 x2 = some p ∧ 0 ≤ p) ∧
    (g.m_xWrap = false → g.xpdiff x1 x2 = some (x1 - x2)) ∧
    (g.m_yWrap = false → g.ypdiff x1 x2 = some (x1 - x2)) := by
  refine ⟨?_, ?_, ?_, ?_⟩
  · intro hw hpos
    have hW := width_cast_pos g hpos
    exact ⟨(x1 - x2) % (g.m_size.x : Int), by simp [WorldGeometry.xpdiff, hw, pmod_pos _ _ hW],
      Int.emod_nonneg _ (ne_of_gt hW)⟩
  · intro hw hpos
    have hH := height_cast_pos g hpos
    exact ⟨(x1 - x2) % (g.m_size.y : Int), by simp [WorldGeometry.ypdiff, hw, pmod_pos _ _ hH],
      Int.emod_nonneg _ (ne_of_gt hH)⟩
  · intro hw
    simp [WorldGeometry.xpdiff, hw]
  · intro hw
    simp [WorldGeometry.ypdiff, hw]

/-- Witness for the amended C24 on the 100 x 100 world wrapping on x, at
`x1 = 5`, `x2 = 95`. -/
theorem xpdiff_ypdiff_sign_witness :
    ∃ p, (WorldGeometry.ofWidthHeight 100 100).xpdiff 5 95 = some p ∧ 0 ≤ p :=
  (xpdiff_ypdiff_sign (WorldGeometry.ofWidthHeight 100 100) 5 95).1 (by decide) (by decide)

/-- C26: in exact arithmetic, on a wrapping x axis of width `W > 0`, for a
non-null polygon whose vertices all have x in `[-W, 2W]` and whose x extent is
at most `W`, `splitPolyX` returns one or two polygons, every vertex of every
returned polygon has `0 ≤ x ≤ W`, and every original vertex is found in a
returned polygon with its y unchanged (and its x unchanged or moved by one
width). -/
theorem splitPolyX_vertices_in_range (isect : Line2F → Line2F → Vec2F) (g : WorldGeometry)
    (poly : PolyF) (hw : g.m_xWrap = true) (hpos : 0 < g.width)
    (hnn : poly.isNull = false)
    (hv : ∀ v ∈ poly.vertexes, -(g.width : ℚ) ≤ v.x ∧ v.x ≤ 2 * (g.width : ℚ))
    (hext : ∀ u ∈ poly.vertexes, ∀ v ∈ poly.vertexes, u.x - v.x ≤ (g.width : ℚ)) :
    ((g.splitPolyX isect poly).length = 1 ∨ (g.splitPolyX isect poly).length = 2) ∧
    (∀ q ∈ g.splitPolyX isect poly, ∀ u ∈ q.vertexes, 0 ≤ u.x ∧ u.x ≤ (g.width : ℚ)) ∧
    (∀ v ∈ poly.vertexes, ∃ q ∈ g.splitPolyX isect poly, ∃ u ∈ q.vertexes,
      u.y = v.y ∧ (u.x = v.x ∨ u.x = v.x + (g.width : ℚ) ∨ u.x = v.x - (g.width : ℚ))) := by
  have hWw : (g.width : ℚ) = (g.m_size.x : ℚ) := rfl
  have hW : (0 : ℚ) < (g.m_size.x : ℚ) := by
    have := hpos
    unfold WorldGeometry.width at this
    exact_mod_cast this
  rw [hWw] at hv hext ⊢
  obtain ⟨h1, _, h3⟩ := splitPolyX_fold_inv isect g poly hW hv hext
    (List.range poly.sides) ⟨⟨[]⟩, ⟨[]⟩, false⟩
    (fun i hi => by simpa [PolyF.sides] using hi)
    ⟨fun u hu => absurd hu (List.not_mem_nil u), fun u hu => absurd hu (List.not_mem_nil u)⟩
  unfold WorldGeometry.splitPolyX
  rw [hnn, hw]
  simp only [Bool.not_true, Bool.or_self, Bool.false_eq_true, if_false]
  generalize (List.range poly.sides).foldl
    (fun st i => g.splitPolyXStep isect st (poly.side i)) ⟨⟨[]⟩, ⟨[]⟩, false⟩ = fin at h1 h3
  have hres : ∀ u, (u ∈ fin.res0.vertexes ∨ u ∈ fin.res1.vertexes) →
      ∃ q ∈ WorldGeometry.polySplitResult fin, u ∈ q.vertexes := by
    intro u hu
    unfold WorldGeometry.polySplitResult
    split_ifs with c1 c2
    · rcases hu with hu | hu
      · exact ⟨_, List.mem_singleton.mpr rfl, hu⟩
      · simp only [PolyF.isNull, List.isEmpty_iff] at c1
        rw [c1] at hu
        exact absurd hu (List.not_mem_nil u)
    · rcases hu with hu | hu
      · simp only [PolyF.isNull, List.isEmpty_iff] at c2
        rw [c2] at hu
        exact absurd hu (List.not_mem_nil u)
      · exact ⟨_, List.mem_singleton.mpr rfl, hu⟩
    · rcases hu with hu | hu
      · exact ⟨_, List.mem_cons_self _ _, hu⟩
      · exact ⟨_, List.mem_cons_of_mem _ (List.mem_singleton.mpr rfl), hu⟩
  refine ⟨?_, ?_, ?_⟩
  · unfold WorldGeometry.polySplitResult
    split_ifs <;> simp
  · intro q hq u hu
    have hq2 : q = fin.res0 ∨ q = fin.res1 := by
      unfold WorldGeometry.polySplitResult at hq
      split_ifs at hq
      · exact Or.inl (List.mem_singleton.mp hq)
      · exact Or.inr (List.mem_singleton.mp hq)
      · simp only [List.mem_cons, List.mem_singleton, List.mem_nil_iff, or_false] at hq
        exact hq
    rcases hq2 with h | h
    · rw [h] at hu
      exact h1.1 u hu
    · rw [h] at hu
      exact h1.2 u hu
  · intro v hvm
    obtain ⟨i, hi, hiv⟩ := List.getElem_of_mem hvm
    have hg : poly.vertexes.getD i ⟨0, 0⟩ = v := by
      rw [List.getD_eq_getElem _ _ hi, hiv]
    obtain ⟨u, hu, hy, hx⟩ := h3 i (by simpa [PolyF.sides] using hi)
    rw [hg] at hy hx
    obtain ⟨q, hq, huq⟩ := hres u hu
    exact ⟨q, hq, u, huq, hy, hx⟩

/-- Witness for C26 on the 100 x 100 world wrapping on x, with the triangle
(-10, 0), (20, 0), (5, 30), which straddles the seam. -/
theorem splitPolyX_vertices_in_range_witness :
    ((WorldGeometry.ofWidthHeight 100 100).splitPolyX (fun _ _ => ⟨0, 0⟩)
        ⟨[⟨-10, 0⟩, ⟨20, 0⟩, ⟨5, 30⟩]⟩).length = 1 ∨
      ((WorldGeometry.ofWidthHeight 100 100).splitPolyX (fun _ _ => ⟨0, 0⟩)
        ⟨[⟨-10, 0⟩, ⟨20, 0⟩, ⟨5, 30⟩]⟩).length = 2 :=
  (splitPolyX_vertices_in_range (fun _ _ => ⟨0, 0⟩) (WorldGeometry.ofWidthHeight 100 100)
    ⟨[⟨-10, 0⟩, ⟨20, 0⟩, ⟨5, 30⟩]⟩ (by decide) (by decide) rfl
    (fun v hv => by
      simp only [List.mem_cons, List.mem_singleton, List.mem_nil_iff, or_false] at hv
      rcases hv with h | h | h <;> subst h <;>
        norm_num [WorldGeometry.ofWidthHeight, WorldGeometry.width])
    (fun u hu v hv => by
      simp only [List.mem_cons, List.mem_singleton, List.mem_nil_iff, or_false] at hu hv
      rcases hu with h | h | h <;> subst h <;> rcases hv with h | h | h <;> subst h <;>
        norm_num [WorldGeometry.ofWidthHeight, WorldGeometry.width])).1

/-- C27, as stated, fails: on the 100 x 100 world wrapping on x, the region
`(50, 100)` ends exactly on the seam: `crossesWrapX 50 100` is true (the end
wraps to 0, below the start 50), yet `splitXRegion` returns the single
interval `(50, 100)`. -/
theorem splitXRegion_disagrees_with_crossesWrapX :
    (WorldGeometry.ofWidthHeight 100 100).crossesWrapX 50 100 = true ∧
      (WorldGeometry.ofWidthHeight 100 100).splitXRegionF ⟨50, 100⟩ = [⟨50, 100⟩] := by
  have h50 : pfmod 50 100 = 50 := pfmod_id 50 100 (by norm_num) (by norm_num)
  have h100 : pfmod 100 100 = 0 := pfmod_unique 100 100 0 1 (by norm_num) (by norm_num)
    (by norm_num) (by norm_num)
  constructor
  · norm_num [WorldGeometry.crossesWrapX, WorldGeometry.ofWidthHeight, WorldGeometry.xwrapF,
      h50, h100]
  · norm_num [WorldGeometry.splitXRegionF, WorldGeometry.ofWidthHeight, WorldGeometry.xwrapF,
      h50]

/-- C27, amended: in exact arithmetic, on a wrapping x axis of width `W > 0`,
for a region `(lo, hi)` with `0 ≤ hi - lo < W` whose wrapped end
`xwrap lo + (hi - lo)` is not exactly `W`, the seam test and the split agree:
`splitXRegion` returns two fragments if and only if `crossesWrapX lo hi` is
true, and returns the single wrapped interval if and only if it is false. -/
theorem splitXRegion_agrees_with_crossesWrapX (g : WorldGeometry) (region : Vec2F)
    (hw : g.m_xWrap = true) (hpos : 0 < g.width)
    (hlo : 0 ≤ region.y - region.x) (hhi : region.y - region.x < (g.width : ℚ))
    (hne : g.xwrapF region.x + (region.y - region.x) ≠ (g.width : ℚ)) :
    ((g.splitXRegionF region).length = 2 ↔ g.crossesWrapX region.x region.y = true) ∧
    (g.splitXRegionF region
        = [⟨g.xwrapF region.x, g.xwrapF region.x + region.y - region.x⟩] ↔
      g.crossesWrapX region.x region.y = false) := by
  have hWw : (g.width : ℚ) = (g.m_size.x : ℚ) := rfl
  have hW : (0 : ℚ) < (g.m_size.x : ℚ) := by
    have := hpos
    unfold WorldGeometry.width at this
    exact_mod_cast this
  rw [hWw] at hhi hne
  obtain ⟨hme, hm0, hm1⟩ := pfmod_pos region.x _ hW
  rw [xwrapF_of_wrap g _ hw] at hne ⊢
  by_cases hc : pfmod region.x (g.m_size.x : ℚ) + region.y - region.x > (g.m_size.x : ℚ)
  · have hy : pfmod region.y (g.m_size.x : ℚ)
        = pfmod region.x (g.m_size.x : ℚ) + (region.y - region.x) - (g.m_size.x : ℚ) := by
      apply pfmod_unique region.y _ _ (⌊region.x / (g.m_size.x : ℚ)⌋ + 1) hW
      · push_cast
        linarith
      · linarith
      · linarith
    have hcross : g.crossesWrapX region.x region.y = true := by
      simp only [WorldGeometry.crossesWrapX, hw, Bool.true_and, xwrapF_of_wrap g _ hw, hy,
        decide_eq_true_eq]
      linarith
    have hS : g.splitXRegionF region
        = [⟨pfmod region.x (g.m_size.x : ℚ), (g.m_size.x : ℚ)⟩,
          ⟨0, pfmod region.x (g.m_size.x : ℚ) + region.y - region.x - (g.m_size.x : ℚ)⟩] := by
      simp [WorldGeometry.splitXRegionF, hw, xwrapF_of_wrap g _ hw, hc]
    rw [hS, hcross]
    simp
  · have hy : pfmod region.y (g.m_size.x : ℚ)
        = pfmod region.x (g.m_size.x : ℚ) + (region.y - region.x) := by
      apply pfmod_unique region.y _ _ (⌊region.x / (g.m_size.x : ℚ)⌋) hW
      · linarith
      · linarith
      · rcases lt_or_eq_of_le (not_lt.mp hc) with h | h
        · linarith
        · exact absurd (by linarith) hne
    have hcross : g.crossesWrapX region.x region.y = false := by
      simp only [WorldGeometry.crossesWrapX, hw, Bool.true_and, xwrapF_of_wrap g _ hw, hy,
        decide_eq_false_iff_not, not_lt]
      linarith
    have hS : g.splitXRegionF region
        = [⟨pfmod region.x (g.m_size.x : ℚ),
          pfmod region.x (g.m_size.x : ℚ) + region.y - region.x⟩] := by
      simp [WorldGeometry.splitXRegionF, hw, xwrapF_of_wrap g _ hw, hc]
    rw [hS, hcross]
    simp

/-- Witness for the amended C27 on the 100 x 100 world wrapping on x, with the
region `(90, 105)`. -/
theorem splitXRegion_agrees_with_crossesWrapX_witness :
    ((WorldGeometry.ofWidthHeight 100 100).splitXRegionF ⟨90, 105⟩).length = 2 ↔
      (WorldGeometry.ofWidthHeight 100 100).crossesWrapX (⟨90, 105⟩ : Vec2F).x
        (⟨90, 105⟩ : Vec2F).y = true :=
  (splitXRegion_agrees_with_crossesWrapX (WorldGeometry.ofWidthHeight 100 100) ⟨90, 105⟩
    (by decide) (by decide) (by norm_num)
    (by norm_num [WorldGeometry.ofWidthHeight, WorldGeometry.width])
    (by
      have h90 : pfmod 90 100 = 90 := pfmod_id 90 100 (by norm_num) (by norm_num)
      norm_num [WorldGeometry.ofWidthHeight, WorldGeometry.width, WorldGeometry.xwrapF,
        h90])).1

/-- C25: in exact arithmetic, on a wrapping x axis of width `W > 0`, for a
segment from start `a` to end `b` with `|a.x - b.x| ≤ W`, `splitLineX` with
direction preservation returns one or two fragments that reconstruct the
traversal from `a` to `b`: the first fragment starts at a point with the y of
`a` and an x congruent to `a.x` modulo `W`, the last fragment ends at a point
with the y of `b` and an x congruent to `b.x` modulo `W`, and when there are
two fragments the first ends on one seam image and the second starts on the
other (x = 0 and x = W, or x = W and x = 0) at the same y. -/
theorem splitLineX_preserves_traversal (isect : Line2F → Line2F → Vec2F) (g : WorldGeometry)
    (line : Line2F) (hw : g.m_xWrap = true) (hpos : 0 < g.width)
    (_hext : |line.min.x - line.max.x| ≤ (g.width : ℚ)) :
    (∃ f : Line2F, g.splitLineX isect line true = [f] ∧
      f.min.sameModX (g.width : ℚ) line.min ∧ f.max.sameModX (g.width : ℚ) line.max) ∨
    (∃ f1 f2 : Line2F, g.splitLineX isect line true = [f1, f2] ∧
      f1.min.sameModX (g.width : ℚ) line.min ∧ f2.max.sameModX (g.width : ℚ) line.max ∧
      f1.max.y = f2.min.y ∧
      ((f1.max.x = 0 ∧ f2.min.x = (g.width : ℚ)) ∨
        (f1.max.x = (g.width : ℚ) ∧ f2.min.x = 0))) := by
  have hWw : (g.width : ℚ) = (g.m_size.x : ℚ) := rfl
  have hW : (0 : ℚ) < (g.m_size.x : ℚ) := by
    have := hpos
    unfold WorldGeometry.width at this
    exact_mod_cast this
  rw [hWw]
  have hmo : ∀ v : ℚ, ∃ k : Int, pfmod v (g.m_size.x : ℚ) = v + (k : ℚ) * (g.m_size.x : ℚ) :=
    fun v => ⟨-⌊v / (g.m_size.x : ℚ)⌋, by rw [(pfmod_pos v _ hW).1]; push_cast; ring⟩
  unfold WorldGeometry.splitLineX
  rcases makePositive_cases line with ⟨h2, _⟩ | ⟨h2, _⟩
  · obtain ⟨k, hk⟩ := hmo line.min.x
    simp only [hw, h2, Bool.not_true, Bool.false_eq_true, if_false, Bool.false_and,
      WorldGeometry.xwrapVecF, WorldGeometry.xwrapF, Vec2F.add, Line2F.diff, Vec2F.sub,
      Vec2F.sameModX]
    split_ifs with hc
    · refine Or.inr ⟨_, _, rfl, ⟨rfl, k, hk⟩, ⟨?_, k - 1, ?_⟩, rfl, Or.inr ⟨rfl, rfl⟩⟩
      · dsimp only
        ring
      · dsimp only
        rw [hk]
        push_cast
        ring
    · refine Or.inl ⟨_, rfl, ⟨rfl, k, hk⟩, ⟨?_, k, ?_⟩⟩
      · dsimp only
        ring
      · dsimp only
        rw [hk]
        ring
  · obtain ⟨k, hk⟩ := hmo line.max.x
    simp only [hw, h2, Bool.not_true, Bool.false_eq_true, if_false, Bool.true_and, if_true,
      WorldGeometry.xwrapVecF, WorldGeometry.xwrapF, Vec2F.add, Line2F.diff, Vec2F.sub,
      Line2F.reverse, Vec2F.sameModX]
    split_ifs with hc
    · refine Or.inr ⟨_, _, rfl, ⟨?_, k - 1, ?_⟩, ⟨rfl, k, hk⟩, rfl, Or.inl ⟨rfl, rfl⟩⟩
      · dsimp only
        ring
      · dsimp only
        rw [hk]
        push_cast
        ring
    · refine Or.inl ⟨_, rfl, ⟨?_, k, ?_⟩, ⟨rfl, k, hk⟩⟩
      · dsimp only
        ring
      · dsimp only
        rw [hk]
        ring

/-- Witness for C25 on the 100 x 100 world wrapping on x, with the segment
from (110, 10) to (95, 0), which crosses the seam against the positive
direction. -/
theorem splitLineX_preserves_traversal_witness :
    (∃ f : Line2F, (WorldGeometry.ofWidthHeight 100 100).splitLineX (fun _ _ => ⟨0, 0⟩)
        ⟨⟨110, 10⟩, ⟨95, 0⟩⟩ true = [f] ∧
      f.min.sameModX (((WorldGeometry.ofWidthHeight 100 100).width : Nat) : ℚ)
        (⟨⟨110, 10⟩, ⟨95, 0⟩⟩ : Line2F).min ∧
      f.max.sameModX (((WorldGeometry.ofWidthHeight 100 100).width : Nat) : ℚ)
        (⟨⟨110, 10⟩, ⟨95, 0⟩⟩ : Line2F).max) ∨
    (∃ f1 f2 : Line2F, (WorldGeometry.ofWidthHeight 100 100).splitLineX (fun _ _ => ⟨0, 0⟩)
        ⟨⟨110, 10⟩, ⟨95, 0⟩⟩ true = [f1, f2] ∧
      f1.min.sameModX (((WorldGeometry.ofWidthHeight 100 100).width : Nat) : ℚ)
        (⟨⟨110, 10⟩, ⟨95, 0⟩⟩ : Line2F).min ∧
      f2.max.sameModX (((WorldGeometry.ofWidthHeight 100 100).width : Nat) : ℚ)
        (⟨⟨110, 10⟩, ⟨95, 0⟩⟩ : Line2F).max ∧
      f1.max.y = f2.min.y ∧
      ((f1.max.x = 0 ∧
          f2.min.x = (((WorldGeometry.ofWidthHeight 100 100).width : Nat) : ℚ)) ∨
        (f1.max.x = (((WorldGeometry.ofWidthHeight 100 100).width : Nat) : ℚ) ∧
          f2.min.x = 0))) :=
  splitLineX_preserves_traversal (fun _ _ => ⟨0, 0⟩)
    (WorldGeometry.ofWidthHeight 100 100) ⟨⟨110, 10⟩, ⟨95, 0⟩⟩ (by decide) (by decide)
    (by norm_num [WorldGeometry.ofWidthHeight, WorldGeometry.width, abs_le])

/-- C28: in exact arithmetic, with positive size on each wrapping axis, for a
box with ordered corners (a non-null box, null boxes being the empty ones)
and every point `pos`, `nearestCoordInBox box pos` lies inside the closed box,
and if some copy of `pos`, shifted by integer multiples of the size along the
wrapping axes, lies inside the box, then `diffToNearestCoordInBox box pos` is
the zero vector. The bound on the extent of the box is not needed. -/
theorem nearestCoordInBox_inside (g : WorldGeometry) (box : RectF) (pos : Vec2F)
    (hx : g.m_xWrap = true → 0 < g.width) (hy : g.m_yWrap = true → 0 < g.height)
    (hxo : box.xMin ≤ box.xMax) (hyo : box.yMin ≤ box.yMax) :
    box.contains (g.nearestCoordInBox box pos) = true ∧
    ((∃ kx ky : Int, (g.m_xWrap = false → kx = 0) ∧ (g.m_yWrap = false → ky = 0) ∧
        box.contains ⟨pos.x + (kx : ℚ) * (g.width : ℚ), pos.y + (ky : ℚ) * (g.height : ℚ)⟩
          = true) →
      g.diffToNearestCoordInBox box pos = ⟨0, 0⟩) := by
  have hcx : box.xMin + (0 - (box.xMin + box.xMax) / 2)
      ≤ box.xMax + (0 - (box.xMin + box.xMax) / 2) := by linarith
  have hcy : box.yMin + (0 - (box.yMin + box.yMax) / 2)
      ≤ box.yMax + (0 - (box.yMin + box.yMax) / 2) := by linarith
  constructor
  · simp only [WorldGeometry.nearestCoordInBox, RectF.contains, RectF.setCenter,
      RectF.translate, RectF.center, RectF.nearestCoordTo, Vec2F.add, Vec2F.sub,
      Bool.and_eq_true, decide_eq_true_eq]
    have h1 := clampF_range (g.diffF pos ⟨(box.xMin + box.xMax) / 2,
      (box.yMin + box.yMax) / 2⟩).x _ _ hcx
    have h2 := clampF_range (g.diffF pos ⟨(box.xMin + box.xMax) / 2,
      (box.yMin + box.yMax) / 2⟩).y _ _ hcy
    refine ⟨⟨⟨?_, ?_⟩, ?_⟩, ?_⟩ <;> linarith [h1.1, h1.2, h2.1, h2.2]
  · rintro ⟨kx, ky, hkx, hky, hin⟩
    simp only [RectF.contains, Bool.and_eq_true, decide_eq_true_eq] at hin
    obtain ⟨⟨⟨hx1, hx2⟩, hy1⟩, hy2⟩ := hin
    simp only [WorldGeometry.diffToNearestCoordInBox, WorldGeometry.diffF, RectF.setCenter,
      RectF.translate, RectF.center, RectF.nearestCoordTo, Vec2F.add, Vec2F.sub]
    have hX : g.xdiffF pos.x (clampF (g.xdiffF pos.x ((box.xMin + box.xMax) / 2))
        (box.xMin + (0 - (box.xMin + box.xMax) / 2))
        (box.xMax + (0 - (box.xMin + box.xMax) / 2)) + (box.xMin + box.xMax) / 2) = 0 := by
      cases hw : g.m_xWrap
      · have hk := hkx hw
        subst hk
        simp only [Int.cast_zero, zero_mul, add_zero] at hx1 hx2
        simp only [WorldGeometry.xdiffF, hw, Bool.not_false, if_true]
        rw [clampF_id _ _ _ (by linarith) (by linarith)]
        ring
      · have hW : (0 : ℚ) < (g.m_size.x : ℚ) := by
          have := hx hw
          unfold WorldGeometry.width at this
          exact_mod_cast this
        simp only [WorldGeometry.xdiffF, hw, Bool.not_true, Bool.false_eq_true, if_false]
        exact wrap_axis_nearest _ _ _ _ kx hW hx1 hx2
    have hY : g.ydiffF pos.y (clampF (g.ydiffF pos.y ((box.yMin + box.yMax) / 2))
        (box.yMin + (0 - (box.yMin + box.yMax) / 2))
        (box.yMax + (0 - (box.yMin + box.yMax) / 2)) + (box.yMin + box.yMax) / 2) = 0 := by
      cases hw : g.m_yWrap
      · have hk := hky hw
        subst hk
        simp only [Int.cast_zero, zero_mul, add_zero] at hy1 hy2
        simp only [WorldGeometry.ydiffF, hw, Bool.not_false, if_true]
        rw [clampF_id _ _ _ (by linarith) (by linarith)]
        ring
      · have hH : (0 : ℚ) < (g.m_size.y : ℚ) := by
          have := hy hw
          unfold WorldGeometry.height at this
          exact_mod_cast this
        simp only [WorldGeometry.ydiffF, hw, Bool.not_true, Bool.false_eq_true, if_false]
        exact wrap_axis_nearest _ _ _ _ ky hH hy1 hy2
    rw [hX, hY]

/-- Witness for C28 on the 100 x 50 world wrapping on both axes, with the box
x:90..105, y:40..60 and the point (2, 5), whose copy (102, 55) lies in the
box. -/
theorem nearestCoordInBox_inside_witness :
    (⟨90, 40, 105, 60⟩ : RectF).contains
      ((WorldGeometry.ofSizeWrap ⟨100, 50⟩ true true).nearestCoordInBox ⟨90, 40, 105, 60⟩
        ⟨2, 5⟩) = true ∧
    (WorldGeometry.ofSizeWrap ⟨100, 50⟩ true true).diffToNearestCoordInBox ⟨90, 40, 105, 60⟩
      ⟨2, 5⟩ = ⟨0, 0⟩ :=
  have h := nearestCoordInBox_inside (WorldGeometry.ofSizeWrap ⟨100, 50⟩ true true)
    ⟨90, 40, 105, 60⟩ ⟨2, 5⟩ (fun _ => by decide) (fun _ => by decide) (by norm_num)
    (by norm_num)
  ⟨h.1, h.2 ⟨1, 1, fun hc => absurd hc (by decide), fun hc => absurd hc (by decide), by
    norm_num [RectF.contains, WorldGeometry.ofSizeWrap, WorldGeometry.width,
      WorldGeometry.height]⟩⟩

end Star
